import Mathlib

/-!
# Shell-OS-Project: command parser, execution engine and alias expansion

A shallow embedding of `parser.c`, of `setup_redirs`, `execute_pipeline` and
`execute_commands` from `exec.c`, of `exit` and `echo` from `builtins.c`, of
alias expansion from `aliases.c` and of the `-c` branch of `main.c`, with
theorems about the embedded functions.

Conventions of the embedding:

* a C string is the `List Char` of its bytes; the string ends at the first
  NUL byte (`c_str`), and `[]` plays the role of `*s == 0`;
* a `char *` that may be `NULL` is an `Option`; the buffer of `parse_word`
  is `NULL` exactly while nothing has been appended to it;
* the `next_pipe` chain is a `List command_t`, the `next_seq` chain a list of
  such lists, the `redirs` chain a `List redir_t` (head of the chain first);
* the loops of `parse_line`, whose scan position is not guaranteed to
  advance, are functions on an iteration budget: the outer `none` of a result
  means that the budget ran out before the loop was left, and a result
  `some r` stays `r` under every larger budget (`parse_line_mono`);
* what the operating system answers (`open`, `dup2`, `pipe`, `fork`,
  `waitpid`, the directory listing behind glob expansion) is an argument of
  the embedded function.
-/

namespace Shell

/-! ## Characters and C strings -/

/-- The string a `char *` denotes: the bytes before the first NUL. -/
def c_str (s : List Char) : List Char :=
  s.takeWhile (fun c => c != Char.ofNat 0)

/-- The function `isspace` of `<ctype.h>` in the "C" locale. -/
def isspace (c : Char) : Bool :=
  c == ' ' || c == '\t' || c == '\n' || c == Char.ofNat 11 || c == Char.ofNat 12 || c == '\r'

/-- The test `strchr("|;&", c)` for a non-NUL `c`. -/
def is_sep (c : Char) : Bool :=
  c == '|' || c == ';' || c == '&'

/-- The loop `while (isspace((unsigned char)*s)) s++;`. -/
def skip_space : List Char → List Char
  | [] => []
  | c :: s => if isspace c then skip_space s else c :: s

/-! ## parser.c -/

inductive redir_type_t where
  | REDIR_IN
  | REDIR_OUT
  | REDIR_APPEND
  deriving DecidableEq, Repr

structure redir_t where
  type : redir_type_t
  filename : List Char
  deriving DecidableEq, Repr

/-- One stage (`command_t` without its two chain pointers). -/
structure command_t where
  argv : List (List Char)
  redirs : List redir_t
  background : Bool
  deriving DecidableEq, Repr

/-- The escape decoding `switch (esc)` inside a double-quoted span. -/
def dq_escape (esc : Char) : Char :=
  if esc = 'n' then '\n'
  else if esc = '"' then '"'
  else if esc = '\\' then '\\'
  else esc

mutual
/-- The outer loop `while (*s)` of `parse_word`; yields the buffer and the
scan position with which the loop is left. -/
def pw_main : List Char → List Char → List Char × List Char
  | [], buf => (buf, [])
  | c :: s, buf =>
    if isspace c || c == '|' || c == '&' || c == ';' || c == '<' || c == '>' then
      (buf, c :: s)
    else if c = '\\' then
      match s with
      | [] => (buf, [])
      | d :: s1 => pw_main s1 (buf ++ [d])
    else if c = '\'' then pw_squote s buf
    else if c = '"' then pw_dquote s buf
    else pw_main s (buf ++ [c])
/-- The single-quoted span: `while (*s && *s != '\'')`, then the optional
closing quote, then `continue`. -/
def pw_squote : List Char → List Char → List Char × List Char
  | [], buf => (buf, [])
  | c :: s, buf =>
    if c = '\'' then pw_main s buf
    else pw_squote s (buf ++ [c])
/-- The double-quoted span: `while (*s && *s != '"')` with escape decoding,
then the optional closing quote, then `continue`. -/
def pw_dquote : List Char → List Char → List Char × List Char
  | [], buf => (buf, [])
  | c :: s, buf =>
    if c = '"' then pw_main s buf
    else if c = '\\' then
      match s with
      | [] => (buf ++ [c], [])
      | esc :: s1 => pw_dquote s1 (buf ++ [dq_escape esc])
    else pw_dquote s (buf ++ [c])
end

/-- The function `parse_word`: `none` is the `NULL` return (nothing was
appended, `*ps` is left untouched); otherwise the word and the new `*ps`. -/
def parse_word (s : List Char) : Option (List Char × List Char) :=
  let r := pw_main s []
  if r.1 = [] then none else some r

/-- The word loop of `parse_line` (`while (*s && !strchr("|;&", *s))`) for one
stage. Outer `none`: budget exhausted; inner `none`: the syntax-error
`return NULL`; otherwise the argument vector, the `redirs` chain and the scan
position with which the loop is left. -/
def word_loop : Nat → List Char → List (List Char) → List redir_t →
    Option (Option (List (List Char) × List redir_t × List Char))
  | 0, _, _, _ => none
  | n + 1, s, args, redirs =>
    match s with
    | [] => some (some (args, redirs, s))
    | c :: _ =>
      if is_sep c then some (some (args, redirs, s))
      else
        match skip_space s with
        | [] => some (some (args, redirs, []))
        | c1 :: t1 =>
          if is_sep c1 then some (some (args, redirs, c1 :: t1))
          else if c1 = '<' ∨ c1 = '>' then
            let tr : redir_type_t × List Char :=
              if c1 = '<' then (redir_type_t.REDIR_IN, t1)
              else
                match t1 with
                | '>' :: t2 => (redir_type_t.REDIR_APPEND, t2)
                | _ => (redir_type_t.REDIR_OUT, t1)
            match parse_word (skip_space tr.2) with
            | none => some none
            | some (fname, s4) =>
              -- r->next = cmd->redirs; cmd->redirs = r;
              word_loop n s4 args ({ type := tr.1, filename := fname } :: redirs)
          else
            match parse_word (c1 :: t1) with
            | some (w, s2) => word_loop n s2 (args ++ [w]) redirs
            | none => word_loop n (c1 :: t1) args redirs

/-- The end of one iteration of the pipeline loop: `free(cmd)` when the stage
has no argument, otherwise the stage is linked at the tail of the `next_pipe`
chain (its `background` is still the `false` of `calloc`). -/
def link_stage (stages : List command_t) (args : List (List Char)) (redirs : List redir_t) :
    List command_t :=
  match args with
  | [] => stages
  | _ :: _ => stages ++ [{ argv := args, redirs := redirs, background := false }]

/-- The pipeline loop `for (;;)` of `parse_line`: one stage per iteration.
Outer `none`: budget exhausted; inner `none`: syntax error; otherwise the
stages of the pipeline and the scan position with which the loop is left. -/
def pipeline_loop (budget : Nat) : Nat → List Char → List command_t →
    Option (Option (List command_t × List Char))
  | 0, _, _ => none
  | n + 1, s, stages =>
    match word_loop budget s [] [] with
    | none => none
    | some none => some none
    | some (some (args, redirs, s1)) =>
      match skip_space s1 with
      | '|' :: s3 => pipeline_loop budget n s3 (link_stage stages args redirs)
      | s2 => some (some (link_stage stages args redirs, s2))

/-- The `&` test after a pipeline: the flag and the new scan position. -/
def take_amp : List Char → Bool × List Char
  | '&' :: t => (true, t)
  | s => (false, s)

/-- The `;` test after a pipeline. -/
def take_semi : List Char → List Char
  | ';' :: t => t
  | s => s

/-- The final `return seq_head;`: `NULL` when no sequence node was linked. -/
def seq_head (seq : List (List command_t)) : Option (List (List command_t)) :=
  match seq with
  | [] => none
  | _ :: _ => some seq

/-- The loop `for (p = first_in_pipeline; p; p = p->next_pipe) p->background =
background;`. -/
def set_background (background : Bool) (p : List command_t) : List command_t :=
  p.map (fun c => { c with background := background })

/-- The outer loop `while (*s)` of `parse_line`: one pipeline per iteration,
linked at the tail of the `next_seq` chain unless it has no stage. -/
def seq_loop (budget : Nat) : Nat → List Char → List (List command_t) →
    Option (Option (List (List command_t)))
  | 0, _, _ => none
  | n + 1, s, seq =>
    match skip_space s with
    | [] => some (seq_head seq)
    | c1 :: t1 =>
      match pipeline_loop budget budget (c1 :: t1) [] with
      | none => none
      | some none => some none
      | some (some ([], s2)) => seq_loop budget n s2 seq
      | some (some (st :: sts, s2)) =>
        let ba := take_amp (skip_space s2)
        let s6 := take_semi (skip_space ba.2)
        seq_loop budget n s6 (seq ++ [set_background ba.1 (st :: sts)])

/-- The function `parse_line`, every loop of which may run `budget`
iterations. Outer `none`: some loop did not finish within the budget; inner
`none`: `NULL` was returned; otherwise the command graph. -/
def parse_line (budget : Nat) (line : List Char) : Option (Option (List (List command_t))) :=
  seq_loop budget budget (c_str line) []



/-! ### Reference notions used to state the parser's properties -/

/-- A character that `parse_word` copies unchanged and that neither ends a
word nor opens a quotation: no whitespace, none of `| & ; < >`, no backslash,
no quote, no NUL. -/
def is_plain (c : Char) : Bool :=
  !isspace c && !(c == '|' || c == '&' || c == ';' || c == '<' || c == '>') &&
    !(c == '\\' || c == '\'' || c == '"' || c == Char.ofNat 0)

/-- A line made of plain words: plain characters and whitespace only, with at
least one plain character. -/
def plain_line (l : List Char) : Prop :=
  (∀ c ∈ l, is_plain c = true ∨ isspace c = true) ∧ ∃ c ∈ l, is_plain c = true

/-- The whitespace-separated words of a line, in order. -/
def words : List Char → List (List Char)
  | [] => []
  | c :: s =>
    if isspace c then words s
    else
      match s with
      | [] => [[c]]
      | d :: _ =>
        if isspace d then [c] :: words s
        else
          match words s with
          | [] => [[c]]
          | w :: ws => (c :: w) :: ws

/-- A scan position at which an unquoted word ends: the end of the string,
whitespace, or one of `| & ; < >`. -/
def at_word_end : List Char → Bool
  | [] => true
  | c :: _ => isspace c || c == '|' || c == '&' || c == ';' || c == '<' || c == '>'

/-- A scan position at which the word loop of a stage is left: the end of
the string or one of `| ; &`. -/
def at_stage_end : List Char → Bool
  | [] => true
  | c :: _ => is_sep c

/-- Whether the first non-blank character of `s` is `&`. -/
def amp_follows (s : List Char) : Bool :=
  match skip_space s with
  | '&' :: _ => true
  | _ => false

/-- The operator that introduces a redirection of the given kind. -/
def redir_op : redir_type_t → List Char
  | .REDIR_IN => ['<']
  | .REDIR_OUT => ['>']
  | .REDIR_APPEND => ['>', '>']

/-- Pieces joined by a separator. -/
def join_sep (sep : List Char) : List (List Char) → List Char
  | [] => []
  | [x] => x
  | x :: y :: rest => x ++ sep ++ join_sep sep (y :: rest)

/-- Canonical form of the spec (section 8), which the repository does not
implement: one redirection, the operator and the filename, each preceded by
a single space. -/
def serialize_redir (r : redir_t) : List Char :=
  ' ' :: (redir_op r.type ++ ' ' :: r.filename)

/-- Canonical form of the spec (section 8): a stage, its words joined by
single spaces, then its redirections in parse order. The `redirs` chain holds
the redirection parsed last at its head, so parse order is the chain
reversed. -/
def serialize_stage (st : command_t) : List Char :=
  join_sep [' '] st.argv ++ (st.redirs.reverse.map serialize_redir).flatten

/-- Canonical form of the spec (section 8): a pipeline, `|` between its
stages and `&` after a background pipeline (the flag is read from the first
stage, as `execute_pipeline` does). -/
def serialize_pipeline (p : List command_t) : List Char :=
  join_sep [' ', '|', ' '] (p.map serialize_stage) ++
    (match p with
     | st :: _ => if st.background then [' ', '&'] else []
     | [] => [])

/-- Canonical form of the spec (section 8): a command graph, `;` between its
sequence nodes. -/
def serialize (g : List (List command_t)) : List Char :=
  join_sep [' ', ';', ' '] (g.map serialize_pipeline)

/-- Every argument word and every redirection filename of the graph consists
of plain characters. -/
def graph_plain (g : List (List command_t)) : Prop :=
  ∀ p ∈ g, ∀ st ∈ p,
    (∀ w ∈ st.argv, ∀ c ∈ w, is_plain c = true) ∧
    (∀ r ∈ st.redirs, ∀ c ∈ r.filename, is_plain c = true)

/-! ## exec.c -/

/-- The standard streams of a process as `setup_redirs` leaves them: the
redirection whose descriptor was last duplicated over each stream (`none`:
the stream is still the inherited one), and the `open` calls that succeeded,
in call order. -/
structure stdio_t where
  stdin : Option redir_t
  stdout : Option redir_t
  opened : List redir_t
  deriving DecidableEq, Repr

/-- The function `setup_redirs`, walking the `redirs` chain from its head.
`open_ok r` and `dup2_ok r` say whether `open` and `dup2` succeed for `r`.
The result is the return value and the streams. -/
def setup_redirs (open_ok dup2_ok : redir_t → Bool) : List redir_t → stdio_t → Int × stdio_t
  | [], io => (0, io)
  | r :: rest, io =>
    if !open_ok r then (-1, io)
    else
      let io1 : stdio_t := { io with opened := io.opened ++ [r] }
      if !dup2_ok r then (-1, io1)
      else
        match r.type with
        | .REDIR_IN => setup_redirs open_ok dup2_ok rest { io1 with stdin := some r }
        | .REDIR_OUT => setup_redirs open_ok dup2_ok rest { io1 with stdout := some r }
        | .REDIR_APPEND => setup_redirs open_ok dup2_ok rest { io1 with stdout := some r }

/-- What `waitpid(..., &wstatus, 0)` stores for a terminated child: a normal
exit with `WEXITSTATUS`, or a death by signal with `WTERMSIG`. -/
inductive wstatus_t where
  | exited (code : Int)
  | signaled (sig : Int)
  deriving DecidableEq, Repr

/-- One call of `waitpid(-pgid, &wstatus, 0)`: a child of the group was reaped,
the call was interrupted (`EINTR`), or it failed otherwise (`ECHILD` once no
child is left). -/
inductive waitpid_t where
  | reaped (pid : Int) (wstatus : wstatus_t)
  | eintr
  | error
  deriving DecidableEq, Repr

/-- What the system answers while one stage is started: whether `pipe`
succeeds (asked only when a further stage follows) and the return value of
`launch_process` (the child's pid, or a negative number when `fork` fails). -/
structure launch_t where
  pipe_ok : Bool
  pid : Int
  deriving DecidableEq, Repr

/-- The stage loop of `execute_pipeline`; `i` is the index of the stage, so
`is_first` is `i = 0`. `none`: `pipe` failed and the function returns 1;
otherwise `status` and `pgid` after the loop. -/
def launch_stages (os : Nat → launch_t) : List command_t → Nat → Int → Int → Option (Int × Int)
  | [], _, status, pgid => some (status, pgid)
  | _ :: rest, i, status, pgid =>
    if !rest.isEmpty && !(os i).pipe_ok then none
    else
      let pid := (os i).pid
      if pid < 0 then launch_stages os rest (i + 1) 1 pgid
      else launch_stages os rest (i + 1) status (if i = 0 then pid else pgid)

/-- The loop `do w = waitpid(-pgid, &wstatus, 0); while (w > 0 || (w < 0 &&
errno == EINTR))` over the successive answers of `waitpid`; the value is
`wstatus` after the loop (`none`: never written). An exhausted list stands for
`ECHILD`. -/
def wait_loop : List waitpid_t → Option wstatus_t → Option wstatus_t
  | [], wstatus => wstatus
  | .reaped _ st :: rest, _ => wait_loop rest (some st)
  | .eintr :: rest, wstatus => wait_loop rest wstatus
  | .error :: _, wstatus => wstatus

/-- The function `execute_pipeline` on the stages of one pipeline: the status
it returns and, for a background pipeline, the job `(pgid, argv[0])` handed to
`jobs_add`. Reading a `wstatus` that was never written is undefined in C; the
model leaves `status` unchanged there. -/
def execute_pipeline (cmd : List command_t) (os : Nat → launch_t) (waits : List waitpid_t) :
    Int × Option (Int × List Char) :=
  match launch_stages os cmd 0 0 0 with
  | none => (1, none)
  | some (status, pgid) =>
    let background := match cmd with
      | c :: _ => c.background
      | [] => false
    if !background && decide (pgid > 0) then
      match wait_loop waits none with
      | some (.exited code) => (code, none)
      | some (.signaled sig) => (128 + sig, none)
      | none => (status, none)
    else if background && decide (pgid > 0) then
      (status, some (pgid, match cmd with
        | c :: _ => c.argv.headD []
        | [] => []))
    else (status, none)

/-! ## builtins.c -/

structure shell_state_t where
  last_status : Int
  running : Bool
  deriving DecidableEq, Repr

/-- The shell process as the execution engine sees it: its `shell_state_t`,
its own standard streams, and the text written to standard output so far,
each piece with the redirection standard output was bound to at that time. -/
structure shell_t where
  sh : shell_state_t
  io : stdio_t
  out : List (Option redir_t × List Char)
  deriving DecidableEq, Repr

/-- The names `is_builtin` compares with. -/
def builtin_names : List (List Char) :=
  ["cd", "pwd", "exit", "export", "unset", "jobs", "echo", "grep", "ls", "alias",
   "unalias", "history", "touch", "mkdir", "rm", "cat"].map String.toList

/-- The function `is_builtin`; `none` is the `NULL` name. -/
def is_builtin (name : Option (List Char)) : Bool :=
  match name with
  | none => false
  | some n => decide (n ∈ builtin_names)

/-- The digits loop of `atoi`. -/
def atoi_digits : List Char → Int → Int
  | [], acc => acc
  | c :: s, acc => if c.isDigit then atoi_digits s (acc * 10 + (c.toNat - 48 : Nat)) else acc

/-- The function `atoi` of the C library (values that fit an `int`): leading
whitespace, an optional sign, then decimal digits. -/
def atoi (s : List Char) : Int :=
  match skip_space s with
  | '-' :: t => - atoi_digits t 0
  | '+' :: t => atoi_digits t 0
  | t => atoi_digits t 0

/-- The function `bi_exit`. -/
def bi_exit (w : shell_t) (cmd : command_t) : Int × shell_t :=
  let code := match cmd.argv with
    | _ :: a1 :: _ => atoi a1
    | _ => w.sh.last_status
  (code, { w with sh := { w.sh with running := false } })

/-- The text `bi_echo` writes: the arguments after an optional leading `-n`,
separated by single spaces, then a newline unless `-n` was given. -/
def echo_text (argv : List (List Char)) : List Char :=
  match argv with
  | _ :: a1 :: rest =>
    if a1 = ['-', 'n'] then join_sep [' '] rest
    else join_sep [' '] (a1 :: rest) ++ ['\n']
  | _ => ['\n']

/-- The function `bi_echo`. -/
def bi_echo (w : shell_t) (cmd : command_t) : Int × shell_t :=
  (0, { w with out := w.out ++ [(w.io.stdout, echo_text cmd.argv)] })

/-- The function `run_builtin`. `exit` and `echo` are embedded; the other
built-ins are file-system and text utilities whose bodies are outside the
embedding: `other cmd` is the status such a built-in returns. -/
def run_builtin (other : command_t → Int) (w : shell_t) (cmd : command_t) : Int × shell_t :=
  match cmd.argv with
  | [] => (1, w)
  | name :: _ =>
    if name = "exit".toList then bi_exit w cmd
    else if name = "echo".toList then bi_echo w cmd
    else if name ∈ builtin_names then (other cmd, w)
    else (1, w)

/-- What `execute_commands` takes from its surroundings: glob expansion of an
argument vector, the outcome of `open` and `dup2`, the status of the
built-ins that are not embedded, and, for a pipeline that is forked, the
answers of the system while it is started and waited for. -/
structure exec_env_t where
  glob : List (List Char) → List (List Char)
  open_ok : redir_t → Bool
  dup2_ok : redir_t → Bool
  other : command_t → Int
  launch : List command_t → Nat → launch_t
  waits : List command_t → List waitpid_t

/-- The function `execute_commands` over the `next_seq` chain; the third
argument is the local `status`. A sequence node always has a first stage, so
the empty pipeline only completes the match. -/
def execute_commands (env : exec_env_t) : List (List command_t) → shell_t → Int → Int × shell_t
  | [], w, status => (status, w)
  | [] :: rest, w, status => execute_commands env rest w status
  | (c :: more) :: rest, w, _ =>
    let temp_cmd : command_t := { c with argv := env.glob c.argv }
    if more.isEmpty && is_builtin c.argv.head? && !c.background then
      let r := setup_redirs env.open_ok env.dup2_ok c.redirs w.io
      let w1 : shell_t := { w with io := r.2 }
      let sr : Int × shell_t := if r.1 < 0 then (1, w1) else run_builtin env.other w1 temp_cmd
      execute_commands env rest { sr.2 with sh := { sr.2.sh with last_status := sr.1 } } sr.1
    else
      let status := (execute_pipeline (temp_cmd :: more) (env.launch (c :: more))
        (env.waits (c :: more))).1
      execute_commands env rest { w with sh := { w.sh with last_status := status } } status

/-! ## aliases.c -/

/-- The loop `while (*line && (*line == ' ' || *line == '\t')) line++;`. -/
def skip_blank : List Char → List Char
  | [] => []
  | c :: s => if c = ' ' ∨ c = '\t' then skip_blank s else c :: s

/-- The characters at which the scan for the end of the first word stops. -/
def is_head_end (c : Char) : Bool :=
  c == ' ' || c == '\t' || c == '|' || c == ';' || c == '&' || c == '<' || c == '>'

/-- The function `alias_get` on the alias chain (head first): the value of
the first entry with the given name. -/
def alias_get : List (List Char × List Char) → List Char → Option (List Char)
  | [], _ => none
  | a :: rest, name => if a.1 = name then some a.2 else alias_get rest name

/-- The body of `alias_expand_recursive` up to the recursive call: the line
with its first word replaced by the alias value (`expanded`), or `none` where
the function returns `NULL` (empty line, no first word, no alias). -/
def alias_subst (aliases : List (List Char × List Char)) (line : List Char) :
    Option (List Char) :=
  match line with
  | [] => none
  | _ :: _ =>
    let line1 := skip_blank line
    let cmd_name := line1.takeWhile (fun c => !is_head_end c)
    let rest := line1.dropWhile (fun c => !is_head_end c)
    if cmd_name = [] then none
    else
      match alias_get aliases cmd_name with
      | none => none
      | some alias_val => some (alias_val ++ rest)

/-- The function `alias_expand_recursive`. -/
def alias_expand_recursive (aliases : List (List Char × List Char)) (line : List Char)
    (depth : Nat) : Option (List Char) :=
  if depth > 10 then none
  else
    match alias_subst aliases line with
    | none => none
    | some expanded =>
      match alias_expand_recursive aliases expanded (depth + 1) with
      | some further_expanded => some further_expanded
      | none => some expanded
termination_by 11 - depth
decreasing_by omega

/-- The function `alias_expand`. -/
def alias_expand (aliases : List (List Char × List Char)) (line : List Char) :
    Option (List Char) :=
  alias_expand_recursive aliases (c_str line) 0

/-- The value obtained by `k` successive substitutions of the first word. -/
def alias_subst_iter (aliases : List (List Char × List Char)) : Nat → List Char →
    Option (List Char)
  | 0, line => some line
  | k + 1, line =>
    match alias_subst aliases line with
    | none => none
    | some expanded => alias_subst_iter aliases k expanded

/-! ## main.c -/

/-- The `-c` branch of `main`: alias expansion, `parse_line`,
`execute_commands`, and the value `main` returns (`sh.last_status`) with the
final state of the shell. `none`: `parse_line` did not finish within the
budget. -/
def main_c (env : exec_env_t) (budget : Nat) (aliases : List (List Char × List Char))
    (arg : List Char) : Option (Int × shell_t) :=
  let w0 : shell_t :=
    { sh := { last_status := 0, running := true },
      io := { stdin := none, stdout := none, opened := [] }, out := [] }
  let cmd_line := match alias_expand aliases arg with
    | some expanded => expanded
    | none => arg
  match parse_line budget cmd_line with
  | none => none
  | some none => some (w0.sh.last_status, w0)
  | some (some cmd) =>
    let r := execute_commands env cmd w0 0
    some (r.1, { r.2 with sh := { r.2.sh with last_status := r.1 } })

/-! ### Reference notions used to state the properties of the graph and of the engine -/

/-- A stage with at least one argument, no empty argument and no empty
redirection filename. -/
def stage_wf (c : command_t) : Prop :=
  c.argv ≠ [] ∧ (∀ w ∈ c.argv, w ≠ []) ∧ (∀ r ∈ c.redirs, r.filename ≠ [])

/-- Surroundings in which nothing fails: no glob pattern matches, every `open`
and `dup2` succeeds, the built-ins that are not embedded return 0, stage `i`
of a pipeline gets pid `100 + i`, and `waitpid` finds no child. -/
def quiet_env : exec_env_t :=
  { glob := fun argv => argv
    open_ok := fun _ => true
    dup2_ok := fun _ => true
    other := fun _ => 0
    launch := fun _ i => { pipe_ok := true, pid := 100 + i }
    waits := fun _ => [] }

/-- A command graph as `parse_line` builds them: no pipeline without a stage,
every stage well formed, one background flag per pipeline. -/
def graph_wf (g : List (List command_t)) : Prop :=
  ∀ p ∈ g, p ≠ [] ∧ (∀ st ∈ p, stage_wf st) ∧
    (∀ st ∈ p, ∀ st2 ∈ p, st.background = st2.background)

/-- Iterations of the word loop that parse the canonical form of a stage. -/
def stage_budget (st : command_t) : Nat :=
  st.argv.length + st.redirs.length + 1

/-- An iteration budget that suffices for the canonical form of a pipeline. -/
def pipeline_budget (p : List command_t) : Nat :=
  (p.map stage_budget).sum + p.length

/-- An iteration budget that suffices for the canonical form of a graph. -/
def graph_budget (g : List (List command_t)) : Nat :=
  (g.map pipeline_budget).sum + g.length + 1

/-! ## aliases.c: the table

Names, values and lines handed to the functions below are C strings, that is
lists without a NUL byte; `strcmp(a, b) == 0` is equality of the lists. -/

/-- The file-scope variables `aliases` (the chain, head first) and
`alias_count`. -/
structure alias_table_t where
  aliases : List (List Char × List Char)
  alias_count : Int
  deriving DecidableEq, Repr

/-- The constant `ALIAS_MAX`. -/
def ALIAS_MAX : Int := 100

/-- The initial values of `aliases` and `alias_count` (also what
`aliases_cleanup` leaves). -/
def alias_table_empty : alias_table_t :=
  { aliases := [], alias_count := 0 }

/-- The loop of `alias_set` and `alias_unset` that unlinks the first entry
with the given name; `none` when the chain has no such entry. -/
def alias_unlink : List (List Char × List Char) → List Char →
    Option (List (List Char × List Char))
  | [], _ => none
  | a :: rest, name =>
    if a.1 = name then some rest
    else
      match alias_unlink rest name with
      | some l => some (a :: l)
      | none => none

/-- The function `alias_unset`. -/
def alias_unset (t : alias_table_t) (name : List Char) : alias_table_t :=
  match alias_unlink t.aliases name with
  | some l => { aliases := l, alias_count := t.alias_count - 1 }
  | none => t

/-- The function `alias_set`: the entry with the same name is unlinked
first, then the cap is tested, then the new entry is linked at the head. -/
def alias_set (t : alias_table_t) (name value : List Char) : alias_table_t :=
  let t1 := alias_unset t name
  if t1.alias_count ≥ ALIAS_MAX then t1
  else { aliases := (name, value) :: t1.aliases, alias_count := t1.alias_count + 1 }

/-- The tables the shell can hold: the empty table, and what `alias_set` and
`alias_unset` make of such a table. -/
inductive alias_reachable : alias_table_t → Prop where
  | empty : alias_reachable alias_table_empty
  | set (t : alias_table_t) (name value : List Char) :
      alias_reachable t → alias_reachable (alias_set t name value)
  | unset (t : alias_table_t) (name : List Char) :
      alias_reachable t → alias_reachable (alias_unset t name)

/-- What holds of every table the shell can hold: `alias_count` is the
length of the chain, at most `ALIAS_MAX`, and no name occurs twice. -/
def alias_table_inv (t : alias_table_t) : Prop :=
  t.alias_count = t.aliases.length ∧ t.alias_count ≤ ALIAS_MAX ∧
    (t.aliases.map Prod.fst).Nodup

/-- The number of entries of the chain with the given name. -/
def alias_entries (t : alias_table_t) (name : List Char) : Nat :=
  (t.aliases.filter (fun a => decide (a.1 = name))).length

/-- A chain whose names are not empty and whose values each hold a character
other than a blank. -/
def alias_chain_wf (aliases : List (List Char × List Char)) : Prop :=
  ∀ a ∈ aliases, a.1 ≠ [] ∧ skip_blank a.2 ≠ []

/-! ## history.c -/

/-- The constant `HISTORY_MAX`. -/
def HISTORY_MAX : Nat := 1000

/-- The file-scope variables of `history.c`: the entries
`history[0 .. history_count)`, oldest first (`history_count` is the length of
the list), and the browse cursor `history_current` (`-1`: not browsing). -/
structure history_t where
  history : List (List Char)
  history_current : Int
  deriving DecidableEq, Repr

/-- The loop of `history_init` over the lines `getline` returns (each with
its newline, when the file has one there): at most `HISTORY_MAX` entries are
taken; `strlen` sees a line up to its first NUL, and the line is kept,
without its trailing newline, when `strlen` of the line as read is more
than 1. -/
def history_load : List (List Char) → List (List Char) → List (List Char)
  | [], history => history
  | line :: rest, history =>
    if history.length < HISTORY_MAX then
      let s := c_str line
      let len := s.length
      let stripped := if len > 0 ∧ s.getLast? = some '\n' then s.dropLast else s
      if len > 1 then history_load rest (history ++ [stripped])
      else history_load rest history
    else history

/-- The function `history_init`; `none`: `HOME` is not set or the file cannot
be opened. -/
def history_init (file : Option (List (List Char))) : history_t :=
  match file with
  | none => { history := [], history_current := -1 }
  | some lines => { history := history_load lines [], history_current := -1 }

/-- The function `history_add` (the entry list and the cursor; the line is
also appended to the history file). -/
def history_add (h : history_t) (line : List Char) : history_t :=
  if line = [] then h
  else if h.history.length > 0 ∧ h.history.getLast? = some line then h
  else
    let kept :=
      if h.history.length ≥ HISTORY_MAX then (h.history.drop 1).take (HISTORY_MAX - 1)
      else h.history
    { history := kept ++ [line], history_current := -1 }

/-- The function `history_get`: the entry returned (`none` for `NULL`) and the
new state. In every state the shell can reach the index read is below
`history_count`. -/
def history_get (h : history_t) (direction : Int) : Option (List Char) × history_t :=
  if h.history.length = 0 then (none, h)
  else
    let cur : Int := if h.history_current = -1 then h.history.length else h.history_current
    if direction > 0 then
      if cur > 0 then (h.history[(cur - 1).toNat]?, { h with history_current := cur - 1 })
      else (none, { h with history_current := cur })
    else
      if cur < (h.history.length : Int) - 1 then
        (h.history[(cur + 1).toNat]?, { h with history_current := cur + 1 })
      else (none, { h with history_current := h.history.length })

/-- The function `history_reset_browse`. -/
def history_reset_browse (h : history_t) : history_t :=
  { h with history_current := -1 }

/-- The position the browse cursor stands for: one past the newest entry when
it is unset. -/
def history_position (h : history_t) : Int :=
  if h.history_current = -1 then h.history.length else h.history_current

/-- The reference of the claim on `history_add`: nothing changes for an empty
line or a repetition of the most recent entry; otherwise the line follows
the old entries, the oldest of which is dropped when there were
`HISTORY_MAX` of them. -/
def history_add_spec (entries : List (List Char)) (line : List Char) : List (List Char) :=
  if line = [] ∨ entries.getLast? = some line then entries
  else if entries.length = HISTORY_MAX then entries.tail ++ [line]
  else entries ++ [line]

/-! ## glob.c

The answers of the system are arguments: `fnmatch pattern name` says whether
`fnmatch(pattern, name, 0)` returns 0, and `readdir dir` is the list of
entry names of the directory in the order `readdir` yields them, `none` when
`opendir` fails. -/

/-- The function `has_glob_chars`. -/
def has_glob_chars (pattern : List Char) : Bool :=
  pattern.any (fun c => c == '*' || c == '?' || c == '[')

/-- The call `strrchr(pattern, '/')`: the text before the last slash and the
text after it, `none` when there is no slash. -/
def split_last_slash : List Char → Option (List Char × List Char)
  | [] => none
  | c :: s =>
    match split_last_slash s with
    | some (d, f) => some (c :: d, f)
    | none => if c = '/' then some ([], s) else none

/-- The filename part of an argument: what follows its last slash. -/
def glob_file_part (arg : List Char) : List Char :=
  match split_last_slash arg with
  | some (_, f) => f
  | none => arg

/-- The answers of the system to `completion.c`. -/
structure comp_env_t where
  cwd : Option (List (List Char))
  path : Option (List Char)
  readdir : List Char → Option (List (List Char))
  access_x : List Char → List Char → Bool

/-- The constant `MAX_COMPLETIONS`. -/
def MAX_COMPLETIONS : Nat := 1000

/-- The type `completion_list_t`. -/
structure completion_list_t where
  items : List (List Char)
  count : Nat
  deriving DecidableEq, Repr

/-- The function `completion_list_init`. -/
def completion_list_init : completion_list_t :=
  { items := [], count := 0 }

/-- The function `completion_list_add`. -/
def completion_list_add (list : completion_list_t) (item : List Char) : completion_list_t :=
  if list.count ≥ MAX_COMPLETIONS then list
  else { items := list.items ++ [item], count := list.count + 1 }

/-- The function `completion_list_free`: the items are released and `count`
is set to 0. -/
def completion_list_free (_list : completion_list_t) : completion_list_t :=
  { items := [], count := 0 }

/-- The test `strncmp(s, pfx, strlen(pfx)) == 0`. -/
def strncmp_eq : List Char → List Char → Bool
  | _, [] => true
  | [], _ :: _ => false
  | a :: s, b :: p => a == b && strncmp_eq s p

/-- The test `strcmp(a, b) <= 0`, bytes compared as unsigned. -/
def strcmp_le : List Char → List Char → Bool
  | [], _ => true
  | _ :: _, [] => false
  | a :: s, b :: t =>
    if a.toNat < b.toNat then true
    else if b.toNat < a.toNat then false
    else strcmp_le s t

/-- Insertion into a list sorted by `strcmp`. -/
def sort_insert (x : List Char) : List (List Char) → List (List Char)
  | [] => [x]
  | y :: ys => if strcmp_le x y then x :: y :: ys else y :: sort_insert x ys

/-- The call `qsort(list.items, list.count, ..., completion_compare)`: the
items in the order of `strcmp`. -/
def qsort_strcmp : List (List Char) → List (List Char)
  | [] => []
  | x :: xs => sort_insert x (qsort_strcmp xs)

/-- The table `builtins` of `get_builtin_completions`. -/
def completion_builtins : List (List Char) :=
  ["cd", "pwd", "exit", "export", "unset", "jobs", "echo", "grep", "ls",
   "alias", "unalias", "history", "touch", "mkdir", "rm", "cat"].map String.toList

/-- The loop of `get_builtin_completions`. -/
def builtin_scan (pfx : List Char) : List (List Char) → completion_list_t → completion_list_t
  | [], list => list
  | b :: rest, list =>
    if strncmp_eq b pfx then builtin_scan pfx rest (completion_list_add list b)
    else builtin_scan pfx rest list

/-- The function `get_builtin_completions`. -/
def get_builtin_completions (pfx : List Char) (list : completion_list_t) :
    completion_list_t :=
  builtin_scan pfx completion_builtins list

/-- The tokens `strtok_r` cuts at `:`, the second argument being the token
under way. -/
def strtok_colon : List Char → List Char → List (List Char)
  | [], cur => if cur = [] then [] else [cur]
  | c :: s, cur =>
    if c = ':' then
      if cur = [] then strtok_colon s [] else cur :: strtok_colon s []
    else strtok_colon s (cur ++ [c])

/-- The `readdir` loop of `get_path_completions` on one directory. -/
def path_scan (env : comp_env_t) (pfx dir : List Char) :
    List (List Char) → completion_list_t → completion_list_t
  | [], list => list
  | name :: rest, list =>
    if strncmp_eq name pfx then
      if env.access_x dir name then
        if (list.items.take list.count).contains name then path_scan env pfx dir rest list
        else path_scan env pfx dir rest (completion_list_add list name)
      else path_scan env pfx dir rest list
    else path_scan env pfx dir rest list

/-- The loop of `get_path_completions` over the directories of `PATH`. -/
def path_dirs_scan (env : comp_env_t) (pfx : List Char) :
    List (List Char) → completion_list_t → completion_list_t
  | [], list => list
  | dir :: rest, list =>
    match env.readdir dir with
    | none => path_dirs_scan env pfx rest list
    | some entries => path_dirs_scan env pfx rest (path_scan env pfx dir entries list)

/-- The function `get_path_completions`. -/
def get_path_completions (env : comp_env_t) (pfx : List Char) (list : completion_list_t) :
    completion_list_t :=
  let path := match env.path with
    | some p => p
    | none => "/bin:/usr/bin".toList
  path_dirs_scan env pfx (strtok_colon path []) list

/-- The `readdir` loop of `get_filename_completions`. -/
def filename_scan (pfx : List Char) : List (List Char) → completion_list_t → completion_list_t
  | [], list => list
  | name :: rest, list =>
    if strncmp_eq name pfx then
      if name = ['.'] ∨ name = ['.', '.'] then filename_scan pfx rest list
      else filename_scan pfx rest (completion_list_add list name)
    else filename_scan pfx rest list

/-- The function `get_filename_completions`. -/
def get_filename_completions (env : comp_env_t) (pfx : List Char) (list : completion_list_t) :
    completion_list_t :=
  match env.cwd with
  | none => list
  | some entries => filename_scan pfx entries list

/-- The characters at which the backward scan for the start of the current
word stops. -/
def is_word_break (c : Char) : Bool :=
  c == ' ' || c == '\t' || c == '|' || c == ';' || c == '&' || c == '<' || c == '>'

/-- The byte `line[i]` of a buffer that holds the line and its terminating
NUL. -/
def line_at (line : List Char) (i : Nat) : Char :=
  line.getD i (Char.ofNat 0)

/-- The backward scan `while (start > 0 && line[start - 1] is no break)
start--`, from `start`. -/
def word_start (line : List Char) : Nat → Nat
  | 0 => 0
  | start + 1 =>
    if is_word_break (line_at line start) then start + 1 else word_start line start

/-- The scan for `first_word_end` in `is_filename_context`: the number of
leading bytes, among the first `cursor`, that are no space, tab or NUL. -/
def first_word_end : List Char → Nat → Nat
  | [], _ => 0
  | _ :: _, 0 => 0
  | c :: s, cursor + 1 =>
    if c = ' ' ∨ c = '\t' ∨ c = Char.ofNat 0 then 0 else first_word_end s cursor + 1

/-- The function `is_filename_context`, the cursor being within the line. -/
def is_filename_context (line : List Char) (cursor : Nat) : Bool :=
  let start := word_start line cursor
  if ((line.take cursor).drop start).contains '/' then true
  else if start > 0 ∧ (line_at line (start - 1) = '<' ∨ line_at line (start - 1) = '>') then true
  else if start > first_word_end line cursor then true
  else false

/-- What `complete_input` hands back: the value returned, `*completion`
(`none`: not assigned), `*list_pos`, and the list of candidates it has
printed, if it has printed one. -/
structure complete_result_t where
  result : Int
  completion : Option (List Char)
  list_pos : Int
  shown : Option (List (List Char))
  deriving DecidableEq, Repr

/-- The function `complete_input`, the cursor being within the line. The last
two statements are `completion_list_free(&list); return list.count;`. -/
def complete_input (env : comp_env_t) (line : List Char) (cursor : Nat) (list_pos : Int) :
    complete_result_t :=
  let start := word_start line cursor
  let pfx := (line.take cursor).drop start
  let list :=
    if is_filename_context line cursor then
      get_filename_completions env pfx completion_list_init
    else
      get_path_completions env pfx (get_builtin_completions pfx completion_list_init)
  if list.count = 0 then
    { result := 0, completion := none, list_pos := list_pos, shown := none }
  else
    let sorted : completion_list_t :=
      { list with items := qsort_strcmp (list.items.take list.count) }
    if sorted.count = 1 then
      { result := 1, completion := sorted.items[0]?, list_pos := list_pos, shown := none }
    else
      let first := decide (list_pos < 0)
      let pos : Int := if first then 0 else (list_pos + 1) % (sorted.count : Int)
      let completion := sorted.items[pos.toNat]?
      let freed := completion_list_free sorted
      { result := freed.count, completion := completion, list_pos := pos,
        shown := if first then some sorted.items else none }

/-- The reference of the claim on `is_filename_context`, the current word:
the text from the nearest break before the cursor (space, tab, one of
`| ; & < >`) or from the line start, up to the cursor. -/
def current_word (line : List Char) (cursor : Nat) : List Char :=
  ((line.take cursor).reverse.takeWhile (fun c => !is_word_break c)).reverse

/-- The text of the line before the current word. -/
def before_word (line : List Char) (cursor : Nat) : List Char :=
  ((line.take cursor).reverse.dropWhile (fun c => !is_word_break c)).reverse

/-- The reference of the claim on `is_filename_context`: the current word
contains `/`, or the character immediately before the word is `<` or `>`, or
the word starts after the first space or tab of the line. -/
def filename_context_spec (line : List Char) (cursor : Nat) : Prop :=
  '/' ∈ current_word line cursor ∨
    ((before_word line cursor).getLast? = some '<' ∨
      (before_word line cursor).getLast? = some '>') ∨
    ∃ c ∈ before_word line cursor, c = ' ' ∨ c = '\t'

/-! ## input.c

Keys are the values `read_key` returns, bytes as numbers; the list of keys
still to come is part of the state, and the empty list is end of input. -/

/-- The answers of the system to `read_line_with_history`: those of
`completion.c`, whether `realloc` to a given size succeeds, and whether
`tcgetattr` and `tcsetattr` succeed in `enable_raw_mode`. -/
structure editor_env_t where
  comp : comp_env_t
  realloc_ok : Nat → Bool
  tty_ok : Bool

/-- The variables of `read_line_with_history` and the file-scope state it
works on: the buffer `line[0 .. len)` (`len` is the length of the list), its
capacity, the cursor, the completion index, the flag `raw_mode`, and the
history. -/
structure editor_t where
  line : List Char
  cap : Nat
  cursor : Nat
  completion_list_pos : Int
  raw_mode : Bool
  hist : history_t
  deriving DecidableEq, Repr

/-- The function `enable_raw_mode`, standard input being a terminal. -/
def enable_raw_mode (env : editor_env_t) (st : editor_t) : editor_t :=
  if st.raw_mode then st
  else if env.tty_ok then { st with raw_mode := true }
  else st

/-- The function `disable_raw_mode`. -/
def disable_raw_mode (st : editor_t) : editor_t :=
  if st.raw_mode then { st with raw_mode := false } else st

/-- The outcome of one pass through the loop of `read_line_with_history`: the
function returns a value, or the loop goes on with the keys left. -/
inductive editor_step_t where
  | ret (value : Int) (st : editor_t)
  | next (st : editor_t) (keys : List Nat)
  deriving DecidableEq, Repr

/-- The branch for end of input, newline and carriage return. -/
def key_return (env : editor_env_t) (st : editor_t) (eof : Bool) : editor_step_t :=
  let st := disable_raw_mode st
  if eof ∧ st.line.length = 0 then editor_step_t.ret (-1) st
  else if st.line.length + 1 > st.cap then
    let ncap := if st.cap ≠ 0 then st.cap * 2 else 64
    if env.realloc_ok ncap then editor_step_t.ret st.line.length { st with cap := ncap }
    else editor_step_t.ret (-1) (disable_raw_mode st)
  else editor_step_t.ret st.line.length st

/-- The replacement of the buffer by a history entry (up and down arrow). -/
def load_history (env : editor_env_t) (st : editor_t) (entry : List Char)
    (keys : List Nat) : editor_step_t :=
  if entry.length + 1 > st.cap then
    if env.realloc_ok (entry.length + 1) then
      editor_step_t.next
        { st with line := entry, cursor := entry.length, cap := entry.length + 1 } keys
    else editor_step_t.ret (-1) (disable_raw_mode st)
  else editor_step_t.next { st with line := entry, cursor := entry.length } keys

/-- The branch for the escape byte: the next one or two keys are read. -/
def key_escape (env : editor_env_t) (st : editor_t) (keys : List Nat) : editor_step_t :=
  match keys with
  | [] => editor_step_t.next st []
  | c2 :: keys2 =>
    if c2 = 91 then
      match keys2 with
      | [] => editor_step_t.next st []
      | c3 :: keys3 =>
        if c3 = 65 then
          match history_get st.hist 1 with
          | (some entry, hist) => load_history env { st with hist := hist } entry keys3
          | (none, hist) => editor_step_t.next { st with hist := hist } keys3
        else if c3 = 66 then
          match history_get st.hist (-1) with
          | (some entry, hist) => load_history env { st with hist := hist } entry keys3
          | (none, hist) =>
            editor_step_t.next { st with hist := hist, line := [], cursor := 0 } keys3
        else if c3 = 67 then
          if st.cursor < st.line.length then
            editor_step_t.next { st with cursor := st.cursor + 1 } keys3
          else editor_step_t.next st keys3
        else if c3 = 68 then
          if st.cursor > 0 then editor_step_t.next { st with cursor := st.cursor - 1 } keys3
          else editor_step_t.next st keys3
        else editor_step_t.next st keys3
    else editor_step_t.next st keys2

/-- The branch for the tab key. -/
def key_tab (env : editor_env_t) (st : editor_t) (keys : List Nat) : editor_step_t :=
  let start := word_start st.line st.cursor
  let grown : Option editor_t :=
    if st.line.length + 1 > st.cap then
      let ncap := if st.cap ≠ 0 then st.cap * 2 else 64
      if env.realloc_ok ncap then some { st with cap := ncap } else none
    else some st
  match grown with
  | none => editor_step_t.ret (-1) (disable_raw_mode st)
  | some st =>
    let will_show_list := decide (st.completion_list_pos < 0)
    let st := if will_show_list then disable_raw_mode st else st
    let r := complete_input env.comp st.line st.cursor st.completion_list_pos
    let st := { st with completion_list_pos := r.list_pos }
    let st := if will_show_list ∧ r.result > 1 then enable_raw_mode env st else st
    match r.completion with
    | some completion =>
      if r.result > 0 then
        let word_len := st.cursor - start
        let need := st.line.length - word_len + completion.length + 1
        let line := st.line.take start ++ completion ++ st.line.drop st.cursor
        if need > st.cap then
          if env.realloc_ok need then
            editor_step_t.next
              { st with line := line, cursor := start + completion.length, cap := need } keys
          else editor_step_t.next st keys
        else editor_step_t.next { st with line := line, cursor := start + completion.length } keys
      else editor_step_t.next st keys
    | none => editor_step_t.next st keys

/-- The branch for backspace (127 and 8). -/
def key_backspace (st : editor_t) (keys : List Nat) : editor_step_t :=
  let st := { st with completion_list_pos := -1 }
  if st.cursor > 0 then
    editor_step_t.next
      { st with line := st.line.take (st.cursor - 1) ++ st.line.drop st.cursor,
                cursor := st.cursor - 1 } keys
  else editor_step_t.next st keys

/-- The branch for a printable byte: it is inserted at the cursor. -/
def key_insert (env : editor_env_t) (st : editor_t) (c : Nat) (keys : List Nat) :
    editor_step_t :=
  let st := { st with completion_list_pos := -1 }
  let grown : Option editor_t :=
    if st.line.length + 1 > st.cap then
      let ncap := if st.cap ≠ 0 then st.cap * 2 else 64
      if env.realloc_ok ncap then some { st with cap := ncap } else none
    else some st
  match grown with
  | none => editor_step_t.ret (-1) (disable_raw_mode st)
  | some st =>
    editor_step_t.next
      { st with line := st.line.take st.cursor ++ Char.ofNat c :: st.line.drop st.cursor,
                cursor := st.cursor + 1 } keys

/-- One pass through the loop of `read_line_with_history`: a key is read and
handled. -/
def editor_step (env : editor_env_t) (st : editor_t) (keys : List Nat) : editor_step_t :=
  match keys with
  | [] => key_return env st true
  | c :: rest =>
    if c = 10 ∨ c = 13 then key_return env st false
    else if c = 27 then key_escape env st rest
    else if c = 9 then key_tab env st rest
    else if c = 127 ∨ c = 8 then key_backspace st rest
    else if c < 32 ∨ c > 126 then editor_step_t.next st rest
    else key_insert env st c rest

/-- The loop of `read_line_with_history`, for at most the given number of
passes; `none`: more passes are needed. -/
def editor_loop (env : editor_env_t) : Nat → editor_t → List Nat → Option (Int × editor_t)
  | 0, _, _ => none
  | budget + 1, st, keys =>
    match editor_step env st keys with
    | editor_step_t.ret value st1 => some (value, st1)
    | editor_step_t.next st1 keys1 => editor_loop env budget st1 keys1

/-- The state after the keys have been handled one after the other, as long
as the loop goes on; `none` once the function has returned. -/
def editor_run (env : editor_env_t) : Nat → editor_t → List Nat → Option editor_t
  | 0, st, _ => some st
  | n + 1, st, keys =>
    match editor_step env st keys with
    | editor_step_t.ret _ _ => none
    | editor_step_t.next st1 keys1 => editor_run env n st1 keys1

/-- The function `read_line_with_history`. `raw_mode` is the value of the
file-scope flag on entry. When standard input is no terminal the function
returns what `getline` returns (its value and the line it has read) and
touches neither the flag nor the history. On a terminal raw mode is enabled,
the completion index and the browse cursor are reset, and the loop runs;
every pass takes a key or returns, so one pass more than there are keys is
enough. -/
def read_line_with_history (env : editor_env_t) (isatty : Bool) (getline : Int × List Char)
    (cap : Nat) (raw_mode : Bool) (hist : history_t) (keys : List Nat) :
    Option (Int × editor_t) :=
  let st : editor_t :=
    { line := [], cap := cap, cursor := 0, completion_list_pos := -1,
      raw_mode := raw_mode, hist := hist }
  if ¬ isatty then some (getline.1, { st with line := getline.2 })
  else
    let st := enable_raw_mode env st
    let st := { st with hist := history_reset_browse st.hist }
    editor_loop env (keys.length + 1) st keys

/-- What holds of one pass of the loop on the keys `keys`: when the function
returns, the flag `raw_mode` is false; when the loop goes on, no key has been
put back. -/
def step_ok (keys : List Nat) : editor_step_t → Prop
  | editor_step_t.ret _ st => st.raw_mode = false
  | editor_step_t.next _ keys1 => keys1.length ≤ keys.length

/-- A system in which no directory can be read and `PATH` is not set: the
candidates of a command word are the built-in names alone. -/
def no_files_env : editor_env_t :=
  { comp := { cwd := none, path := none, readdir := fun _ => none,
              access_x := fun _ _ => false },
    realloc_ok := fun _ => true,
    tty_ok := true }

/-- The editor as `read_line_with_history` starts it on a terminal, with an
empty history and no buffer handed in. -/
def editor_start : editor_t :=
  { line := [], cap := 0, cursor := 0, completion_list_pos := -1, raw_mode := true,
    hist := { history := [], history_current := -1 } }

/-! ## jobs.c -/

/-- The type `job_t`; the chain `jobs_head` is a list, head first. -/
structure job_t where
  pgid : Int
  cmdline : List Char
  background : Bool
  deriving DecidableEq, Repr

/-- The function `jobs_add`: the new job is linked at the head. -/
def jobs_add (jobs : List job_t) (pgid : Int) (cmdline : List Char) (background : Bool) :
    List job_t :=
  { pgid := pgid, cmdline := cmdline, background := background } :: jobs

/-- The function `jobs_remove`: the first job whose `pgid` is the argument is
unlinked. -/
def jobs_remove : List job_t → Int → List job_t
  | [], _ => []
  | j :: rest, pgid => if j.pgid = pgid then rest else j :: jobs_remove rest pgid

/-- The function `jobs_reap` over the successive values `waitpid(-1, ...)`
returns: for each pid above 0 `jobs_remove(pid)` is called, and the loop ends
at the first value that is not (an exhausted list stands for `-1`). -/
def jobs_reap : List Int → List job_t → List job_t
  | [], jobs => jobs
  | pid :: rest, jobs => if pid > 0 then jobs_reap rest (jobs_remove jobs pid) else jobs

/-- The process group `launch_process` puts a child in (`setpgid(pid, pid)`
for the first stage, `setpgid(pid, pgid)` for a later one). -/
def launch_pgid (is_first : Bool) (pid pgid : Int) : Int :=
  if is_first then pid else pgid

/-- The process groups of the stages of a pipeline whose forks all succeed,
the pids of the stages being given: `execute_pipeline` keeps the pid of the
first stage in `pgid` and hands it to `launch_process` for every later
stage. -/
def stage_groups (pids : List Int) : List Int :=
  match pids with
  | [] => []
  | first :: rest =>
    launch_pgid true first 0 :: rest.map (fun pid => launch_pgid false pid first)

/-! ## loader.c

Addresses and the fields of the ELF structures are natural numbers; the
arithmetic of `uintptr_t` is taken modulo `2 ^ 64`. Memory is a function from
addresses to bytes. Strings handed to the loader are lists of bytes without
NUL. The constants of `<elf.h>` and `<sys/mman.h>` have their values on
x86-64 Linux. -/

/-- The type `Elf64_Ehdr`, the fields the loader reads. -/
structure Elf64_Ehdr where
  e_ident : List Nat
  e_type : Nat
  e_machine : Nat
  e_entry : Nat
  e_phoff : Nat
  e_phentsize : Nat
  e_phnum : Nat
  deriving DecidableEq, Repr

/-- The type `Elf64_Phdr`. -/
structure Elf64_Phdr where
  p_type : Nat
  p_flags : Nat
  p_offset : Nat
  p_vaddr : Nat
  p_filesz : Nat
  p_memsz : Nat
  deriving DecidableEq, Repr

/-- The constant `ELFMAG` (`SELFMAG` is its length, 4). -/
def ELFMAG : List Nat := [127, 69, 76, 70]

/-- The constant `EI_CLASS`. -/
def EI_CLASS : Nat := 4

/-- The constant `ELFCLASS64`. -/
def ELFCLASS64 : Nat := 2

/-- The constant `ET_EXEC`. -/
def ET_EXEC : Nat := 2

/-- The constant `EM_X86_64`. -/
def EM_X86_64 : Nat := 62

/-- The value of `sizeof(Elf64_Phdr)`. -/
def SIZEOF_PHDR : Nat := 56

/-- The constant `PT_LOAD`. -/
def PT_LOAD : Nat := 1

/-- The constant `PT_INTERP`. -/
def PT_INTERP : Nat := 3

/-- The subtraction of `uintptr_t`. -/
def usub (a b : Nat) : Nat :=
  (a + 2 ^ 64 - b % 2 ^ 64) % 2 ^ 64

/-- The statement `sp &= ~0xFul`. -/
def align16 (sp : Nat) : Nat :=
  sp - sp % 16

/-- The call `memcpy(p, bytes, n)` on the memory. -/
def write_bytes (mem : Nat → Nat) (p : Nat) : List Nat → Nat → Nat
  | [] => mem
  | b :: bs => write_bytes (fun a => if a = p then b else mem a) (p + 1) bs

/-- The eight bytes of a `uintptr_t`, least significant first. -/
def word_bytes (v : Nat) : List Nat :=
  [v % 256, v / 256 % 256, v / 65536 % 256, v / 16777216 % 256, v / 4294967296 % 256,
   v / 1099511627776 % 256, v / 281474976710656 % 256, v / 72057594037927936 % 256]

/-- A store of a `uintptr_t` at an address. -/
def write_word (mem : Nat → Nat) (p v : Nat) : Nat → Nat :=
  write_bytes mem p (word_bytes v)

/-- A load of a `uintptr_t` from an address. -/
def read_word (mem : Nat → Nat) (p : Nat) : Nat :=
  mem p + 256 * mem (p + 1) + 65536 * mem (p + 2) + 16777216 * mem (p + 3) +
    4294967296 * mem (p + 4) + 1099511627776 * mem (p + 5) +
    281474976710656 * mem (p + 6) + 72057594037927936 * mem (p + 7)

/-- The bytes of the memory at `p`, `p + 1`, up to `n` of them. -/
def read_bytes (mem : Nat → Nat) (p : Nat) : Nat → List Nat
  | 0 => []
  | n + 1 => mem p :: read_bytes mem (p + 1) n

/-- The loops that copy the strings of `argv` and of `envp`: each string is
copied with its NUL at `p`, its address is recorded, and `p` moves past it.
The result is the memory, the recorded pointers and the final `p`. -/
def copy_strings (mem : Nat → Nat) (p : Nat) :
    List (List Nat) → (Nat → Nat) × List Nat × Nat
  | [] => (mem, [], p)
  | s :: rest =>
    let r := copy_strings (write_bytes mem p (s ++ [0])) (p + (s.length + 1)) rest
    (r.1, p :: r.2.1, r.2.2)

/-- A loop that stores successive words from an address on. -/
def write_words (mem : Nat → Nat) (p : Nat) : List Nat → Nat → Nat
  | [] => mem
  | w :: ws => write_words (write_word mem p w) (p + 8) ws

/-- The sum of `strlen(s) + 1` over the strings. -/
def strings_len : List (List Nat) → Nat
  | [] => 0
  | s :: rest => (s.length + 1) + strings_len rest

/-- The function `build_initial_stack`: the memory and the final value of
`*stack_top`. An absent `envp` is the empty list. -/
def build_initial_stack (mem : Nat → Nat) (stack_top : Nat) (path : List Nat)
    (argv envp : List (List Nat)) : (Nat → Nat) × Nat :=
  let argc := argv.length
  let envc := envp.length
  let total_len := (path.length + 1) + strings_len argv + strings_len envp
  let sp := align16 stack_top
  let sp := usub sp total_len
  let str_base := sp
  let mem := write_bytes mem str_base (path ++ [0])
  let p := str_base + (path.length + 1)
  let a := copy_strings mem p argv
  let e := copy_strings a.1 a.2.2 envp
  let argv_ptrs := a.2.1 ++ [0]
  let envp_ptrs := e.2.1 ++ [0]
  let mem := e.1
  let sp := align16 sp
  let sp := usub sp (8 * 2)
  let mem := write_word (write_word mem sp 0) (sp + 8) 0
  let sp := usub sp (8 * (envc + 1))
  let mem := write_words mem sp envp_ptrs
  let sp := usub sp (8 * (argc + 1))
  let mem := write_words mem sp argv_ptrs
  let sp := usub sp 8
  let mem := write_word mem sp argc
  (mem, sp)

/-- What the system answers to `loader_run_elf`: whether `open` succeeds, the
header `read` delivers (`none`: fewer bytes than the header has), whether
`malloc` and `lseek` succeed, the program headers `read` delivers (`none`:
fewer bytes than asked for), whether `mmap` of a segment succeeds, the base
`mmap` gives the stack (`none`: it fails), and the memory. -/
structure loader_env_t where
  open_ok : Bool
  header : Option Elf64_Ehdr
  malloc_ok : Bool
  lseek_ok : Bool
  phdrs : Option (List Elf64_Phdr)
  mmap_ok : Elf64_Phdr → Bool
  stack_base : Option Nat
  mem : Nat → Nat

/-- How `loader_run_elf` ends: it returns a value, it leaves through `die`
(`_exit(127)`), or it jumps to the entry point with a stack pointer. -/
inductive loader_end_t where
  | returned (value : Int)
  | died
  | jumped (entry sp : Nat)
  deriving DecidableEq, Repr

/-- One call `mmap((void *)page, map_sz, prot, MAP_PRIVATE | MAP_FIXED, fd,
off - page_off)` that succeeded. -/
structure segment_map_t where
  page : Nat
  map_sz : Nat
  prot : Nat
  offset : Nat
  deriving DecidableEq, Repr

/-- The end of `loader_run_elf` and what it has done until then: whether the
program headers have been read, and the segments mapped, in order. -/
structure loader_result_t where
  outcome : loader_end_t
  phdrs_read : Bool
  mapped : List segment_map_t
  deriving DecidableEq, Repr

/-- The two tests on the header: `true` when the loader goes on. -/
def header_accepted (eh : Elf64_Ehdr) : Bool :=
  if eh.e_ident.take 4 ≠ ELFMAG ∨ eh.e_ident.getD EI_CLASS 0 ≠ ELFCLASS64 ∨
      eh.e_type ≠ ET_EXEC ∨ eh.e_machine ≠ EM_X86_64 then false
  else if eh.e_phentsize ≠ SIZEOF_PHDR ∨ eh.e_phnum ≤ 0 then false
  else true

/-- The first loop over the program headers: whether one has type
`PT_INTERP`. -/
def has_interp : List Elf64_Phdr → Bool
  | [] => false
  | ph :: rest => if ph.p_type = PT_INTERP then true else has_interp rest

/-- The arguments of `mmap` for a `PT_LOAD` segment (`PF_X` is 1, `PF_W` 2,
`PF_R` 4; `PROT_READ` is 1, `PROT_WRITE` 2, `PROT_EXEC` 4). -/
def segment_map (ph : Elf64_Phdr) : segment_map_t :=
  let page := ph.p_vaddr - ph.p_vaddr % 4096
  let page_off := ph.p_vaddr - page
  { page := page,
    map_sz := page_off + ph.p_memsz,
    prot := (if ph.p_flags / 4 % 2 = 1 then 1 else 0) + (if ph.p_flags / 2 % 2 = 1 then 2 else 0)
      + (if ph.p_flags % 2 = 1 then 4 else 0),
    offset := usub ph.p_offset page_off }

/-- The second loop over the program headers: every `PT_LOAD` segment is
mapped; `none` when an `mmap` fails (`die`), with the segments mapped until
then. The bytes of the mapped segments are outside the embedding. -/
def map_segments (mmap_ok : Elf64_Phdr → Bool) :
    List Elf64_Phdr → List segment_map_t → Bool × List segment_map_t
  | [], mapped => (true, mapped)
  | ph :: rest, mapped =>
    if ph.p_type ≠ PT_LOAD then map_segments mmap_ok rest mapped
    else if mmap_ok ph then map_segments mmap_ok rest (mapped ++ [segment_map ph])
    else (false, mapped)

/-- The function `loader_run_elf`. -/
def loader_run_elf (env : loader_env_t) (path : List Nat) (argv envp : List (List Nat)) :
    loader_result_t :=
  if ¬ env.open_ok then
    { outcome := loader_end_t.returned 127, phdrs_read := false, mapped := [] }
  else
    match env.header with
    | none => { outcome := loader_end_t.returned 127, phdrs_read := false, mapped := [] }
    | some eh =>
      if ¬ header_accepted eh then
        { outcome := loader_end_t.returned 127, phdrs_read := false, mapped := [] }
      else if ¬ env.malloc_ok then
        { outcome := loader_end_t.died, phdrs_read := false, mapped := [] }
      else if ¬ env.lseek_ok then
        { outcome := loader_end_t.died, phdrs_read := false, mapped := [] }
      else
        match env.phdrs with
        | none => { outcome := loader_end_t.died, phdrs_read := true, mapped := [] }
        | some phdrs =>
          if has_interp phdrs then
            { outcome := loader_end_t.returned 127, phdrs_read := true, mapped := [] }
          else
            let m := map_segments env.mmap_ok phdrs []
            if ¬ m.1 then
              { outcome := loader_end_t.died, phdrs_read := true, mapped := m.2 }
            else
              match env.stack_base with
              | none => { outcome := loader_end_t.died, phdrs_read := true, mapped := m.2 }
              | some base =>
                let stack_top := base + 8 * 1024 * 1024
                let r := build_initial_stack env.mem stack_top path argv envp
                { outcome := loader_end_t.jumped eh.e_entry r.2, phdrs_read := true,
                  mapped := m.2 }

/-- The words of the memory at `p`, `p + 8`, up to `n` of them. -/
def read_words (mem : Nat → Nat) (p : Nat) : Nat → List Nat
  | 0 => []
  | n + 1 => read_word mem p :: read_words mem (p + 8) n

/-- The memory holds at `p` a copy of the string `s` with its NUL, inside the
addresses from `lo` up to `hi`, `hi` excluded. -/
def string_at (mem : Nat → Nat) (lo hi p : Nat) (s : List Nat) : Prop :=
  read_bytes mem p (s.length + 1) = s ++ [0] ∧ lo ≤ p ∧ p + (s.length + 1) ≤ hi

/-! # Theorems -/

/-! ## C strings and blanks -/

theorem c_str_id (s : List Char) (h : Char.ofNat 0 ∉ s) : c_str s = s := by
  unfold c_str
  rw [List.takeWhile_eq_self_iff]
  intro c hc
  simp only [bne_iff_ne, ne_eq]
  rintro rfl
  exact h hc

theorem is_plain_not_nul {c : Char} (h : is_plain c = true) : c ≠ Char.ofNat 0 := by
  rintro rfl
  revert h
  decide

theorem is_plain_not_space {c : Char} (h : is_plain c = true) : isspace c = false := by
  simp only [is_plain, Bool.and_eq_true, Bool.not_eq_true'] at h
  exact h.1.1

theorem is_plain_not_sep {c : Char} (h : is_plain c = true) : is_sep c = false := by
  simp only [is_plain, Bool.and_eq_true, Bool.not_eq_true', Bool.or_eq_false_iff] at h
  simp only [is_sep, Bool.or_eq_false_iff]
  exact ⟨⟨h.1.2.1.1.1.1, h.1.2.1.1.2⟩, h.1.2.1.1.1.2⟩

theorem is_plain_not_lt {c : Char} (h : is_plain c = true) : c ≠ '<' := by
  rintro rfl
  revert h
  decide

theorem is_plain_not_gt {c : Char} (h : is_plain c = true) : c ≠ '>' := by
  rintro rfl
  revert h
  decide

theorem skip_space_cons_of_not_space {c : Char} (h : isspace c = false) (s : List Char) :
    skip_space (c :: s) = c :: s := by
  simp [skip_space, h]

theorem skip_space_append_of_blank (bl : List Char) (h : ∀ c ∈ bl, isspace c = true)
    (s : List Char) : skip_space (bl ++ s) = skip_space s := by
  induction bl with
  | nil => rfl
  | cons c bl ih =>
    have hc : isspace c = true := h c (by simp)
    simp only [List.cons_append, skip_space, hc, if_true]
    exact ih (fun d hd => h d (by simp [hd]))

/-! ## parse_word -/

theorem pw_main_cons (c : Char) (s buf : List Char) :
    pw_main (c :: s) buf =
      if isspace c || c == '|' || c == '&' || c == ';' || c == '<' || c == '>' then (buf, c :: s)
      else if c = '\\' then
        match s with
        | [] => (buf, [])
        | d :: s1 => pw_main s1 (buf ++ [d])
      else if c = '\'' then pw_squote s buf
      else if c = '"' then pw_dquote s buf
      else pw_main s (buf ++ [c]) := by
  cases s <;> rfl

theorem pw_main_plain_cons {c : Char} (h : is_plain c = true) (s buf : List Char) :
    pw_main (c :: s) buf = pw_main s (buf ++ [c]) := by
  simp only [is_plain, Bool.and_eq_true, Bool.not_eq_true', Bool.or_eq_false_iff,
    beq_eq_false_iff_ne, ne_eq] at h
  obtain ⟨⟨h1, ⟨⟨⟨h2, h3⟩, h4⟩, h5⟩, h6⟩, ⟨⟨h7, h8⟩, h9⟩, h10⟩ := h
  rw [pw_main_cons]
  simp [h1, h2, h3, h4, h5, h6, h7, h8, h9]

theorem pw_main_plain_append (w : List Char) (h : ∀ c ∈ w, is_plain c = true)
    (rest buf : List Char) : pw_main (w ++ rest) buf = pw_main rest (buf ++ w) := by
  induction w generalizing buf with
  | nil => simp
  | cons c w ih =>
    rw [List.cons_append, pw_main_plain_cons (h c (by simp)), ih (fun d hd => h d (by simp [hd]))]
    simp

theorem pw_main_at_word_end {rest : List Char} (h : at_word_end rest = true) (buf : List Char) :
    pw_main rest buf = (buf, rest) := by
  cases rest with
  | nil => rw [pw_main]
  | cons c s =>
    rw [pw_main_cons]
    simp only [at_word_end] at h
    simp only [h, if_true]

theorem parse_word_plain (w : List Char) (hne : w ≠ []) (h : ∀ c ∈ w, is_plain c = true)
    {rest : List Char} (hr : at_word_end rest = true) :
    parse_word (w ++ rest) = some (w, rest) := by
  simp [parse_word, pw_main_plain_append w h, pw_main_at_word_end hr, hne]

theorem pw_squote_span (w : List Char) (h : '\'' ∉ w) (rest buf : List Char) :
    pw_squote (w ++ '\'' :: rest) buf = pw_main rest (buf ++ w) := by
  induction w generalizing buf with
  | nil => simp [pw_squote]
  | cons c w ih =>
    have hc : c ≠ '\'' := fun e => h (by simp [e])
    have hw : '\'' ∉ w := fun e => h (by simp [e])
    simp [pw_squote, hc, ih hw]

theorem parse_word_squoted (w : List Char) (hne : w ≠ []) (h : '\'' ∉ w) :
    parse_word ('\'' :: (w ++ ['\''])) = some (w, []) := by
  have h1 : pw_main ('\'' :: (w ++ ['\''])) [] = (w, []) := by
    rw [pw_main_cons]
    simp only [show isspace '\'' = false by decide, show ('\'' == '|') = false by decide,
      show ('\'' == '&') = false by decide, show ('\'' == ';') = false by decide,
      show ('\'' == '<') = false by decide, show ('\'' == '>') = false by decide,
      Bool.or_self, Bool.false_eq_true, if_false, show ('\'' : Char) ≠ '\\' by decide, if_true]
    rw [pw_squote_span w h, pw_main]
    simp
  simp [parse_word, h1, hne]

/-! ## The loops of parse_line, one iteration at a time -/

theorem skip_space_of_sep {c : Char} (h : is_sep c = true) (s : List Char) :
    skip_space (c :: s) = c :: s := by
  have : isspace c = false := by
    simp only [is_sep, Bool.or_eq_true, beq_iff_eq] at h
    rcases h with (rfl | rfl) | rfl <;> decide
  simp [skip_space, this]

theorem word_loop_end (n : Nat) (s : List Char) (h : at_stage_end (skip_space s) = true)
    (args : List (List Char)) (redirs : List redir_t) :
    word_loop (n + 1) s args redirs = some (some (args, redirs, skip_space s)) := by
  cases s with
  | nil => rw [word_loop]; rfl
  | cons c s =>
    rw [word_loop]
    by_cases hc : is_sep c = true
    · simp only [hc, if_true, skip_space_of_sep hc]
    · simp only [hc, Bool.false_eq_true, if_false]
      cases hs : skip_space (c :: s) with
      | nil => rfl
      | cons c1 t1 =>
        rw [hs] at h
        simp only [at_stage_end] at h
        simp only [h, if_true]

theorem word_loop_word (n : Nat) (s : List Char) {c1 : Char} {t1 : List Char}
    (hs : skip_space s = c1 :: t1) (h1 : is_sep c1 = false) (hlt : c1 ≠ '<') (hgt : c1 ≠ '>')
    {w s2 : List Char} (hw : parse_word (c1 :: t1) = some (w, s2))
    (args : List (List Char)) (redirs : List redir_t) :
    word_loop (n + 1) s args redirs = word_loop n s2 (args ++ [w]) redirs := by
  cases s with
  | nil => simp [skip_space] at hs
  | cons c s =>
    rw [word_loop]
    by_cases hc : is_sep c = true
    · rw [skip_space_of_sep hc] at hs
      simp only [List.cons.injEq] at hs
      rw [hs.1] at hc
      rw [hc] at h1
      exact absurd h1 (by decide)
    · simp only [hc, hs, h1, hlt, hgt, hw, or_self, if_false, Bool.false_eq_true]

theorem word_loop_stuck (n : Nat) (s : List Char) {c1 : Char} {t1 : List Char}
    (hs : skip_space s = c1 :: t1) (h1 : is_sep c1 = false) (hlt : c1 ≠ '<') (hgt : c1 ≠ '>')
    (hw : parse_word (c1 :: t1) = none)
    (args : List (List Char)) (redirs : List redir_t) :
    word_loop (n + 1) s args redirs = word_loop n (c1 :: t1) args redirs := by
  cases s with
  | nil => simp [skip_space] at hs
  | cons c s =>
    rw [word_loop]
    by_cases hc : is_sep c = true
    · rw [skip_space_of_sep hc] at hs
      simp only [List.cons.injEq] at hs
      rw [hs.1] at hc
      rw [hc] at h1
      exact absurd h1 (by decide)
    · simp only [hc, hs, h1, hlt, hgt, hw, or_self, if_false, Bool.false_eq_true]

theorem word_loop_redir_in (n : Nat) (s : List Char) (t1 : List Char)
    (hs : skip_space s = '<' :: t1) (args : List (List Char)) (redirs : List redir_t) :
    word_loop (n + 1) s args redirs =
      match parse_word (skip_space t1) with
      | none => some none
      | some (fname, s4) =>
        word_loop n s4 args ({ type := .REDIR_IN, filename := fname } :: redirs) := by
  cases s with
  | nil => simp [skip_space] at hs
  | cons c s =>
    rw [word_loop]
    by_cases hc : is_sep c = true
    · rw [skip_space_of_sep hc] at hs
      simp only [List.cons.injEq] at hs
      rw [hs.1] at hc
      exact absurd hc (by decide)
    · simp only [hc, hs, if_false, show is_sep '<' = false by decide, true_or, if_true,
        Bool.false_eq_true]

theorem word_loop_redir_append (n : Nat) (s : List Char) (t2 : List Char)
    (hs : skip_space s = '>' :: '>' :: t2) (args : List (List Char)) (redirs : List redir_t) :
    word_loop (n + 1) s args redirs =
      match parse_word (skip_space t2) with
      | none => some none
      | some (fname, s4) =>
        word_loop n s4 args ({ type := .REDIR_APPEND, filename := fname } :: redirs) := by
  cases s with
  | nil => simp [skip_space] at hs
  | cons c s =>
    rw [word_loop]
    by_cases hc : is_sep c = true
    · rw [skip_space_of_sep hc] at hs
      simp only [List.cons.injEq] at hs
      rw [hs.1] at hc
      exact absurd hc (by decide)
    · simp only [hc, hs, if_false, show is_sep '>' = false by decide, or_true, if_true,
        Bool.false_eq_true, show ('>' : Char) ≠ '<' by decide]

theorem word_loop_redir_out (n : Nat) (s : List Char) (t1 : List Char)
    (hs : skip_space s = '>' :: t1) (ht : ∀ t2, t1 ≠ '>' :: t2)
    (args : List (List Char)) (redirs : List redir_t) :
    word_loop (n + 1) s args redirs =
      match parse_word (skip_space t1) with
      | none => some none
      | some (fname, s4) =>
        word_loop n s4 args ({ type := .REDIR_OUT, filename := fname } :: redirs) := by
  cases s with
  | nil => simp [skip_space] at hs
  | cons c s =>
    rw [word_loop]
    by_cases hc : is_sep c = true
    · rw [skip_space_of_sep hc] at hs
      simp only [List.cons.injEq] at hs
      rw [hs.1] at hc
      exact absurd hc (by decide)
    · simp only [hc, hs, if_false, show is_sep '>' = false by decide, or_true, if_true,
        Bool.false_eq_true, show ('>' : Char) ≠ '<' by decide]

theorem pipeline_loop_pipe (b n : Nat) (s : List Char) (stages : List command_t)
    {args : List (List Char)} {redirs : List redir_t} {s1 s3 : List Char}
    (hw : word_loop b s [] [] = some (some (args, redirs, s1)))
    (hs : skip_space s1 = '|' :: s3) :
    pipeline_loop b (n + 1) s stages = pipeline_loop b n s3 (link_stage stages args redirs) := by
  rw [pipeline_loop]
  simp only [hw, hs]

theorem pipeline_loop_last (b n : Nat) (s : List Char) (stages : List command_t)
    {args : List (List Char)} {redirs : List redir_t} {s1 : List Char}
    (hw : word_loop b s [] [] = some (some (args, redirs, s1)))
    (hs : ∀ s3, skip_space s1 ≠ '|' :: s3) :
    pipeline_loop b (n + 1) s stages =
      some (some (link_stage stages args redirs, skip_space s1)) := by
  rw [pipeline_loop]
  simp only [hw]

theorem seq_loop_end (b n : Nat) (s : List Char) (hs : skip_space s = [])
    (seq : List (List command_t)) : seq_loop b (n + 1) s seq = some (seq_head seq) := by
  rw [seq_loop]
  simp only [hs]

theorem seq_loop_link (b n : Nat) (s : List Char) {c1 : Char} {t1 : List Char}
    (hs : skip_space s = c1 :: t1) {st : command_t} {sts : List command_t} {s2 : List Char}
    (hp : pipeline_loop b b (c1 :: t1) [] = some (some (st :: sts, s2)))
    (seq : List (List command_t)) :
    seq_loop b (n + 1) s seq =
      seq_loop b n (take_semi (skip_space (take_amp (skip_space s2)).2))
        (seq ++ [set_background (take_amp (skip_space s2)).1 (st :: sts)]) := by
  rw [seq_loop]
  simp only [hs, hp]

theorem seq_loop_skip (b n : Nat) (s : List Char) {c1 : Char} {t1 : List Char}
    (hs : skip_space s = c1 :: t1) {s2 : List Char}
    (hp : pipeline_loop b b (c1 :: t1) [] = some (some ([], s2)))
    (seq : List (List command_t)) :
    seq_loop b (n + 1) s seq = seq_loop b n s2 seq := by
  rw [seq_loop]
  simp only [hs, hp]

/-! ## A larger budget does not change a result -/

theorem word_loop_succ_of_some (n : Nat) : ∀ (s : List Char) (args : List (List Char))
    (redirs : List redir_t) (x : Option (List (List Char) × List redir_t × List Char)),
    word_loop n s args redirs = some x → word_loop (n + 1) s args redirs = some x := by
  induction n with
  | zero => intro s args redirs x h; simp [word_loop] at h
  | succ n ih =>
    intro s args redirs x h
    cases s with
    | nil => rw [word_loop] at h ⊢; exact h
    | cons c s =>
      rw [word_loop] at h ⊢
      split
      · simpa [*] using h
      · split
        · simpa [*] using h
        · split
          · simpa [*] using h
          · split
            · simp only [*, if_true, if_false] at h ⊢
              split
              · simpa [*] using h
              · simp only [*] at h ⊢
                exact ih _ _ _ _ h
            · split
              · simp only [*, if_false] at h ⊢
                exact ih _ _ _ _ h
              · simp only [*, if_false] at h ⊢
                exact ih _ _ _ _ h

theorem word_loop_mono {n m : Nat} (hnm : n ≤ m) {s : List Char} {args : List (List Char)}
    {redirs : List redir_t} {x : Option (List (List Char) × List redir_t × List Char)}
    (h : word_loop n s args redirs = some x) : word_loop m s args redirs = some x := by
  induction hnm with
  | refl => exact h
  | step _ ih => exact word_loop_succ_of_some _ _ _ _ _ ih

theorem pipeline_loop_mono {b b1 : Nat} (hb : b ≤ b1) (n : Nat) : ∀ {n1 : Nat}, n ≤ n1 →
    ∀ {s : List Char} {stages : List command_t} {x : Option (List command_t × List Char)},
    pipeline_loop b n s stages = some x → pipeline_loop b1 n1 s stages = some x := by
  induction n with
  | zero => intro n1 _ s stages x h; simp [pipeline_loop] at h
  | succ n ih =>
    intro n1 hn s stages x h
    obtain ⟨m, rfl⟩ : ∃ m, n1 = m + 1 := ⟨n1 - 1, by omega⟩
    have hm : n ≤ m := by omega
    rw [pipeline_loop] at h ⊢
    cases hw : word_loop b s [] [] with
    | none => simp [hw] at h
    | some r =>
      rw [word_loop_mono hb hw]
      rw [hw] at h
      cases r with
      | none => simpa using h
      | some t =>
        obtain ⟨args, redirs, s1⟩ := t
        simp only at h ⊢
        split
        · rename_i heq
          simp only [heq] at h
          exact ih hm h
        · rename_i hne
          split at h
          · rename_i heq
            exact absurd heq (hne _)
          · exact h

theorem seq_loop_mono {b b1 : Nat} (hb : b ≤ b1) (n : Nat) : ∀ {n1 : Nat}, n ≤ n1 →
    ∀ {s : List Char} {seq : List (List command_t)} {x : Option (List (List command_t))},
    seq_loop b n s seq = some x → seq_loop b1 n1 s seq = some x := by
  induction n with
  | zero => intro n1 _ s seq x h; simp [seq_loop] at h
  | succ n ih =>
    intro n1 hn s seq x h
    obtain ⟨m, rfl⟩ : ∃ m, n1 = m + 1 := ⟨n1 - 1, by omega⟩
    have hm : n ≤ m := by omega
    rw [seq_loop] at h ⊢
    cases hs : skip_space s with
    | nil => simpa [hs] using h
    | cons c1 t1 =>
      simp only [hs] at h ⊢
      cases hp : pipeline_loop b b (c1 :: t1) [] with
      | none => simp [hp] at h
      | some r =>
        rw [pipeline_loop_mono hb b hb hp]
        rw [hp] at h
        cases r with
        | none => simpa using h
        | some t =>
          obtain ⟨stages, s2⟩ := t
          cases stages with
          | nil => simp only at h ⊢; exact ih hm h
          | cons st sts => simp only at h ⊢; exact ih hm h

theorem parse_line_mono {b b1 : Nat} (hb : b ≤ b1) {line : List Char}
    {x : Option (List (List command_t))} (h : parse_line b line = some x) :
    parse_line b1 line = some x :=
  seq_loop_mono hb b hb h

/-! ## C1: quoting -/

theorem parse_line_single_word (w line : List Char) (h0 : Char.ofNat 0 ∉ line) (c1 : Char)
    (t1 : List Char) (hl : line = c1 :: t1) (hsp : isspace c1 = false)
    (hsep : is_sep c1 = false) (hlt : c1 ≠ '<') (hgt : c1 ≠ '>')
    (hw : parse_word line = some (w, [])) :
    parse_line 2 line = some (some [[{ argv := [w], redirs := [], background := false }]]) := by
  subst hl
  have hs : skip_space (c1 :: t1) = c1 :: t1 := skip_space_cons_of_not_space hsp t1
  have hwl : word_loop 2 (c1 :: t1) [] [] = some (some ([w], [], [])) := by
    rw [word_loop_word 1 (c1 :: t1) hs hsep hlt hgt hw, word_loop_end 0 [] rfl]
    rfl
  have hpl : pipeline_loop 2 2 (c1 :: t1) [] =
      some (some ([{ argv := [w], redirs := [], background := false }], [])) := by
    rw [pipeline_loop_last 2 1 (c1 :: t1) [] hwl (by intro s3; simp [skip_space])]
    rfl
  unfold parse_line
  rw [c_str_id _ h0, seq_loop_link 2 1 (c1 :: t1) hs hpl]
  rfl

/-- C1: the lines `'a b'`, `"a b"` and `a\ b` each parse to one sequence node
with one stage whose only argument is `a b`; and for every non-empty string
`w` without a single quote, the line `'w'` parses to one sequence node with one
stage whose only argument is `w`. Two iterations of every loop suffice. -/
theorem quoting_is_lossless (budget : Nat) (hb : 2 ≤ budget) :
    parse_line budget "'a b'".toList =
        some (some [[{ argv := ["a b".toList], redirs := [], background := false }]]) ∧
    parse_line budget "\"a b\"".toList =
        some (some [[{ argv := ["a b".toList], redirs := [], background := false }]]) ∧
    parse_line budget "a\\ b".toList =
        some (some [[{ argv := ["a b".toList], redirs := [], background := false }]]) ∧
    ∀ w : List Char, w ≠ [] → '\'' ∉ w → Char.ofNat 0 ∉ w →
      parse_line budget ('\'' :: (w ++ ['\''])) =
        some (some [[{ argv := [w], redirs := [], background := false }]]) := by
  refine ⟨parse_line_mono hb (by decide), parse_line_mono hb (by decide),
    parse_line_mono hb (by decide), ?_⟩
  intro w hne hq h0
  apply parse_line_mono hb
  refine parse_line_single_word w _ ?_ '\'' (w ++ ['\'']) rfl (by decide) (by decide)
    (by decide) (by decide) (parse_word_squoted w hne hq)
  simp only [List.mem_cons, List.mem_append, List.mem_singleton, not_or, List.not_mem_nil,
    or_false]
  exact ⟨by decide, h0, by decide⟩

theorem quoting_is_lossless_witness :
    (2 ≤ 2) ∧ "x y".toList ≠ [] ∧ '\'' ∉ "x y".toList ∧ Char.ofNat 0 ∉ "x y".toList ∧
    parse_line 2 "'x y'".toList =
      some (some [[{ argv := ["x y".toList], redirs := [], background := false }]]) :=
  ⟨by decide, by decide, by decide, by decide,
    (quoting_is_lossless 2 (by decide)).2.2.2 "x y".toList (by decide) (by decide) (by decide)⟩

/-! ## Scan positions are suffixes of the line -/

theorem skip_space_suffix (s : List Char) : skip_space s <:+ s := by
  induction s with
  | nil => exact List.suffix_refl _
  | cons c s ih =>
    rw [skip_space]
    split
    · exact ih.trans (List.suffix_cons c s)
    · exact List.suffix_refl _

theorem pw_all_suffix (k : Nat) : ∀ (s buf : List Char), s.length ≤ k →
    (pw_main s buf).2 <:+ s ∧ (pw_squote s buf).2 <:+ s ∧ (pw_dquote s buf).2 <:+ s := by
  induction k with
  | zero =>
    intro s buf h
    have : s = [] := List.length_eq_zero.mp (by omega)
    subst this
    simp [pw_main, pw_squote, pw_dquote]
  | succ k ih =>
    intro s buf h
    cases s with
    | nil => simp [pw_main, pw_squote, pw_dquote]
    | cons c s =>
      have hs : s.length ≤ k := by simpa using h
      have hc : ∀ {r : List Char}, r <:+ s → r <:+ c :: s :=
        fun h => h.trans (List.suffix_cons c s)
      refine ⟨?_, ?_, ?_⟩
      · rw [pw_main_cons]
        split
        · exact List.suffix_refl _
        · split
          · cases s with
            | nil => exact List.nil_suffix
            | cons d s1 =>
              have h1 : s1.length ≤ k := by simp at hs; omega
              exact hc (((ih s1 _ h1).1).trans (List.suffix_cons d s1))
          · split
            · exact hc (ih s buf hs).2.1
            · split
              · exact hc (ih s buf hs).2.2
              · exact hc (ih s _ hs).1
      · rw [pw_squote]
        split
        · exact hc (ih s buf hs).1
        · exact hc (ih s _ hs).2.1
      · rw [pw_dquote.eq_def]
        simp only
        split
        · exact hc (ih s buf hs).1
        · split
          · cases s with
            | nil => exact List.nil_suffix
            | cons d s1 =>
              have h1 : s1.length ≤ k := by simp at hs; omega
              exact hc (((ih s1 _ h1).2.2).trans (List.suffix_cons d s1))
          · exact hc (ih s _ hs).2.2

theorem parse_word_suffix {s w s2 : List Char} (h : parse_word s = some (w, s2)) : s2 <:+ s := by
  unfold parse_word at h
  simp only at h
  split at h
  · exact absurd h (by simp)
  · simp only [Option.some.injEq] at h
    have := (pw_all_suffix s.length s [] (le_refl _)).1
    rw [h] at this
    exact this

theorem parse_word_ne_nil {s w s2 : List Char} (h : parse_word s = some (w, s2)) : w ≠ [] := by
  unfold parse_word at h
  simp only at h
  split at h
  · exact absurd h (by simp)
  · rename_i hne
    simp only [Option.some.injEq] at h
    rw [h] at hne
    exact hne

/-! ## What one iteration of each loop does to a result -/

theorem word_loop_inv {n : Nat} {s : List Char} {args : List (List Char)} {redirs : List redir_t}
    {res : List (List Char) × List redir_t × List Char}
    (h : word_loop (n + 1) s args redirs = some (some res)) :
    res = (args, redirs, skip_space s) ∨
    (∃ t f s3 s4, s3 <:+ s ∧ parse_word s3 = some (f, s4) ∧
      word_loop n s4 args ({ type := t, filename := f } :: redirs) = some (some res)) ∨
    (∃ w s2, parse_word (skip_space s) = some (w, s2) ∧
      word_loop n s2 (args ++ [w]) redirs = some (some res)) ∨
    (parse_word (skip_space s) = none ∧
      word_loop n (skip_space s) args redirs = some (some res)) := by
  cases s with
  | nil =>
    rw [word_loop] at h
    simp only [Option.some.injEq] at h
    exact Or.inl h.symm
  | cons c s =>
    rw [word_loop] at h
    by_cases hc : is_sep c = true
    · simp only [hc, if_true, Option.some.injEq] at h
      rw [skip_space_of_sep hc]
      exact Or.inl h.symm
    · simp only [hc, Bool.false_eq_true, if_false] at h
      cases hs : skip_space (c :: s) with
      | nil =>
        simp only [hs, Option.some.injEq] at h
        exact Or.inl h.symm
      | cons c1 t1 =>
        have hsuf : c1 :: t1 <:+ c :: s := hs ▸ skip_space_suffix (c :: s)
        have ht1 : t1 <:+ c :: s := (List.suffix_cons c1 t1).trans hsuf
        simp only [hs] at h
        by_cases h1 : is_sep c1 = true
        · simp only [h1, if_true, Option.some.injEq] at h
          exact Or.inl h.symm
        · simp only [h1, Bool.false_eq_true, if_false] at h
          by_cases hr : c1 = '<' ∨ c1 = '>'
          · simp only [hr, if_true] at h
            right; left
            split at h
            · exact absurd h (by simp)
            · rename_i fname s4 hpw
              refine ⟨_, fname, _, s4, ?_, hpw, h⟩
              refine (skip_space_suffix _).trans ?_
              split
              · exact ht1
              · split
                · rename_i t2
                  exact (List.suffix_cons '>' t2).trans ht1
                · exact ht1
          · simp only [hr, if_false] at h
            right; right
            split at h
            · rename_i w s2 hpw
              exact Or.inl ⟨w, s2, hpw, h⟩
            · rename_i hpw
              exact Or.inr ⟨hpw, h⟩

theorem word_loop_suffix (n : Nat) : ∀ {s : List Char} {args : List (List Char)}
    {redirs : List redir_t} {res : List (List Char) × List redir_t × List Char},
    word_loop n s args redirs = some (some res) → res.2.2 <:+ s := by
  induction n with
  | zero => intro s args redirs res h; simp [word_loop] at h
  | succ n ih =>
    intro s args redirs res h
    rcases word_loop_inv h with h1 | ⟨t, f, s3, s4, h3, hp, hr⟩ | ⟨w, s2, hp, hr⟩ | ⟨_, hr⟩
    · rw [h1]; exact skip_space_suffix s
    · exact ((ih hr).trans (parse_word_suffix hp)).trans h3
    · exact ((ih hr).trans (parse_word_suffix hp)).trans (skip_space_suffix s)
    · exact (ih hr).trans (skip_space_suffix s)

theorem word_loop_nonempty (n : Nat) : ∀ {s : List Char} {args : List (List Char)}
    {redirs : List redir_t} {res : List (List Char) × List redir_t × List Char},
    word_loop n s args redirs = some (some res) →
    (∀ w ∈ args, w ≠ []) → (∀ r ∈ redirs, r.filename ≠ []) →
    (∀ w ∈ res.1, w ≠ []) ∧ (∀ r ∈ res.2.1, r.filename ≠ []) := by
  induction n with
  | zero => intro s args redirs res h; simp [word_loop] at h
  | succ n ih =>
    intro s args redirs res h ha hr
    rcases word_loop_inv h with h1 | ⟨t, f, s3, s4, _, hp, hrec⟩ | ⟨w, s2, hp, hrec⟩ | ⟨_, hrec⟩
    · rw [h1]; exact ⟨ha, hr⟩
    · refine ih hrec ha ?_
      intro r hmem
      rcases List.mem_cons.mp hmem with rfl | hmem
      · exact parse_word_ne_nil hp
      · exact hr r hmem
    · refine ih hrec ?_ hr
      intro w1 hmem
      rcases List.mem_append.mp hmem with hmem | hmem
      · exact ha w1 hmem
      · rw [List.mem_singleton.mp hmem]
        exact parse_word_ne_nil hp
    · exact ih hrec ha hr

theorem pipeline_loop_inv {b n : Nat} {s : List Char} {stages : List command_t}
    {res : List command_t × List Char}
    (h : pipeline_loop b (n + 1) s stages = some (some res)) :
    ∃ args redirs s1, word_loop b s [] [] = some (some (args, redirs, s1)) ∧
      ((∃ s3, skip_space s1 = '|' :: s3 ∧
          pipeline_loop b n s3 (link_stage stages args redirs) = some (some res)) ∨
        ((∀ s3, skip_space s1 ≠ '|' :: s3) ∧
          res = (link_stage stages args redirs, skip_space s1))) := by
  rw [pipeline_loop] at h
  split at h
  · exact absurd h (by simp)
  · exact absurd h (by simp)
  · rename_i args redirs s1 hw
    refine ⟨args, redirs, s1, hw, ?_⟩
    split at h
    · rename_i s3 hs
      exact Or.inl ⟨s3, hs, h⟩
    · rename_i hne
      simp only [Option.some.injEq] at h
      exact Or.inr ⟨fun s3 hs => hne s3 hs, h.symm⟩

theorem seq_loop_inv {b n : Nat} {s : List Char} {seq g : List (List command_t)}
    (h : seq_loop b (n + 1) s seq = some (some g)) :
    (skip_space s = [] ∧ seq_head seq = some g) ∨
    (∃ s2, skip_space s ≠ [] ∧ pipeline_loop b b (skip_space s) [] = some (some ([], s2)) ∧
      seq_loop b n s2 seq = some (some g)) ∨
    (∃ st sts s2, skip_space s ≠ [] ∧
      pipeline_loop b b (skip_space s) [] = some (some (st :: sts, s2)) ∧
      seq_loop b n (take_semi (skip_space (take_amp (skip_space s2)).2))
        (seq ++ [set_background (take_amp (skip_space s2)).1 (st :: sts)]) = some (some g)) := by
  rw [seq_loop] at h
  cases hs : skip_space s with
  | nil =>
    simp only [hs, Option.some.injEq] at h
    exact Or.inl ⟨rfl, h⟩
  | cons c1 t1 =>
    simp only [hs] at h
    split at h
    · exact absurd h (by simp)
    · exact absurd h (by simp)
    · rename_i s2 hp
      exact Or.inr (Or.inl ⟨s2, by simp, hp, h⟩)
    · rename_i st sts s2 hp
      exact Or.inr (Or.inr ⟨st, sts, s2, by simp, hp, h⟩)

/-! ## Invariants of the command graph -/

theorem link_stage_wf {stages : List command_t} {args : List (List Char)} {redirs : List redir_t}
    (hs : ∀ c ∈ stages, stage_wf c ∧ c.background = false)
    (ha : ∀ w ∈ args, w ≠ []) (hr : ∀ r ∈ redirs, r.filename ≠ []) :
    ∀ c ∈ link_stage stages args redirs, stage_wf c ∧ c.background = false := by
  cases args with
  | nil => exact hs
  | cons a as =>
    intro c hc
    simp only [link_stage, List.mem_append, List.mem_singleton] at hc
    rcases hc with hc | rfl
    · exact hs c hc
    · exact ⟨⟨by simp, ha, hr⟩, rfl⟩

theorem pipeline_loop_wf (b n : Nat) : ∀ {s : List Char} {stages : List command_t}
    {res : List command_t × List Char},
    pipeline_loop b n s stages = some (some res) →
    (∀ c ∈ stages, stage_wf c ∧ c.background = false) →
    ∀ c ∈ res.1, stage_wf c ∧ c.background = false := by
  induction n with
  | zero => intro s stages res h; simp [pipeline_loop] at h
  | succ n ih =>
    intro s stages res h hs
    obtain ⟨args, redirs, s1, hw, hcase⟩ := pipeline_loop_inv h
    have hne := word_loop_nonempty b hw (by simp) (by simp)
    have hl := link_stage_wf hs hne.1 hne.2
    rcases hcase with ⟨s3, _, hrec⟩ | ⟨_, hres⟩
    · exact ih hrec hl
    · rw [hres]; exact hl

theorem pipeline_loop_suffix (b n : Nat) : ∀ {s : List Char} {stages : List command_t}
    {res : List command_t × List Char},
    pipeline_loop b n s stages = some (some res) → res.2 <:+ s := by
  induction n with
  | zero => intro s stages res h; simp [pipeline_loop] at h
  | succ n ih =>
    intro s stages res h
    obtain ⟨args, redirs, s1, hw, hcase⟩ := pipeline_loop_inv h
    have h1 : s1 <:+ s := word_loop_suffix b hw
    rcases hcase with ⟨s3, hs3, hrec⟩ | ⟨_, hres⟩
    · have : s3 <:+ skip_space s1 := hs3 ▸ List.suffix_cons '|' s3
      exact (((ih hrec).trans this).trans (skip_space_suffix s1)).trans h1
    · rw [hres]; exact (skip_space_suffix s1).trans h1

theorem take_amp_suffix (s : List Char) : (take_amp s).2 <:+ s := by
  unfold take_amp
  split
  · exact List.suffix_cons _ _
  · exact List.suffix_refl _

theorem take_semi_suffix (s : List Char) : take_semi s <:+ s := by
  unfold take_semi
  split
  · exact List.suffix_cons _ _
  · exact List.suffix_refl _

theorem take_amp_fst (s : List Char) : (take_amp (skip_space s)).1 = amp_follows s := by
  unfold take_amp amp_follows
  split <;> simp_all

/-- Every pipeline of the graph was linked from the result of the pipeline
loop at some scan position of the line, with the flag of the `&` test. -/
theorem seq_loop_origin (b : Nat) (line : List Char) (n : Nat) :
    ∀ {s : List Char} {seq g : List (List command_t)},
    seq_loop b n s seq = some (some g) → s <:+ line →
    (∀ p ∈ seq, ∃ s1 stages s2, s1 <:+ line ∧
      pipeline_loop b b s1 [] = some (some (stages, s2)) ∧ stages ≠ [] ∧
      p = set_background (amp_follows s2) stages) →
    ∀ p ∈ g, ∃ s1 stages s2, s1 <:+ line ∧
      pipeline_loop b b s1 [] = some (some (stages, s2)) ∧ stages ≠ [] ∧
      p = set_background (amp_follows s2) stages := by
  induction n with
  | zero => intro s seq g h; simp [seq_loop] at h
  | succ n ih =>
    intro s seq g h hs hseq
    have hsk : skip_space s <:+ line := (skip_space_suffix s).trans hs
    rcases seq_loop_inv h with ⟨_, hg⟩ | ⟨s2, _, hp, hrec⟩ | ⟨st, sts, s2, _, hp, hrec⟩
    · cases seq with
      | nil => simp [seq_head] at hg
      | cons p0 ps =>
        simp only [seq_head, Option.some.injEq] at hg
        rw [← hg]
        exact hseq
    · exact ih hrec ((pipeline_loop_suffix b b hp).trans hsk) hseq
    · have h2 : s2 <:+ line := (pipeline_loop_suffix b b hp).trans hsk
      refine ih hrec ?_ ?_
      · exact (((take_semi_suffix _).trans (skip_space_suffix _)).trans
          (take_amp_suffix _)).trans ((skip_space_suffix _).trans h2)
      · intro p hp1
        rcases List.mem_append.mp hp1 with hp1 | hp1
        · exact hseq p hp1
        · rw [List.mem_singleton.mp hp1, take_amp_fst]
          exact ⟨skip_space s, st :: sts, s2, hsk, hp, by simp, rfl⟩

theorem parse_line_origin {b : Nat} {line : List Char} {g : List (List command_t)}
    (h : parse_line b line = some (some g)) :
    ∀ p ∈ g, ∃ s1 stages s2, s1 <:+ c_str line ∧
      pipeline_loop b b s1 [] = some (some (stages, s2)) ∧ stages ≠ [] ∧
      p = set_background (amp_follows s2) stages :=
  seq_loop_origin b (c_str line) b h (List.suffix_refl _) (by simp)

theorem mem_set_background {bg : Bool} {p : List command_t} {c : command_t}
    (h : c ∈ set_background bg p) :
    ∃ c0 ∈ p, c.argv = c0.argv ∧ c.redirs = c0.redirs ∧ c.background = bg := by
  simp only [set_background, List.mem_map] at h
  obtain ⟨c0, hc0, rfl⟩ := h
  exact ⟨c0, hc0, rfl, rfl, rfl⟩

/-- C7: every stage of every command graph returned by `parse_line` has at
least one argument. -/
theorem stage_has_argument (budget : Nat) (line : List Char) (g : List (List command_t))
    (h : parse_line budget line = some (some g)) :
    ∀ p ∈ g, ∀ st ∈ p, st.argv ≠ [] := by
  intro p hp st hst
  obtain ⟨s1, stages, s2, _, hpl, _, rfl⟩ := parse_line_origin h p hp
  obtain ⟨c0, hc0, hargv, _, _⟩ := mem_set_background hst
  rw [hargv]
  exact (pipeline_loop_wf budget budget hpl (by simp) c0 hc0).1.1

theorem stage_has_argument_witness :
    parse_line 4 "a | | b < f ; > g".toList =
      some (some [[{ argv := ["a".toList], redirs := [], background := false },
        { argv := ["b".toList],
          redirs := [{ type := .REDIR_IN, filename := "f".toList }], background := false }]]) ∧
    ∀ p ∈ [[({ argv := ["a".toList], redirs := [], background := false } : command_t),
        { argv := ["b".toList],
          redirs := [{ type := .REDIR_IN, filename := "f".toList }], background := false }]],
      ∀ st ∈ p, st.argv ≠ [] :=
  ⟨by decide, stage_has_argument 4 "a | | b < f ; > g".toList _ (by decide)⟩

theorem seq_loop_stuck_at_semi (b n : Nat) (t : List Char) (seq : List (List command_t)) :
    seq_loop b n (';' :: t) seq = none := by
  induction n with
  | zero => rfl
  | succ n ih =>
    have hs : skip_space (';' :: t) = ';' :: t := skip_space_of_sep (by decide) t
    cases b with
    | zero =>
      rw [seq_loop]
      simp only [hs, pipeline_loop]
    | succ m =>
      have hw : word_loop (m + 1) (';' :: t) [] [] = some (some ([], [], ';' :: t)) := by
        rw [word_loop_end m (';' :: t) (by rw [hs]; rfl), hs]
      have hp : pipeline_loop (m + 1) (m + 1) (';' :: t) [] = some (some ([], ';' :: t)) := by
        rw [pipeline_loop_last (m + 1) m (';' :: t) [] hw (by rw [hs]; intro s3; simp), hs]
        rfl
      rw [seq_loop_skip (m + 1) n (';' :: t) hs hp]
      exact ih

/-- C4 (the code at the failing input): on the line `ls ;; cat <`, where the
unquoted `<` is followed by the end of the input, `parse_line` does not
return absence: whatever the iteration budget, it does not return at all,
because after `ls ;` the outer loop finds `;`, links no pipeline and repeats
without advancing. -/
theorem missing_filename_line_diverges :
    ∀ budget : Nat, parse_line budget "ls ;; cat <".toList = none := by
  intro budget
  match budget with
  | 0 => rfl
  | 1 => decide
  | n + 2 =>
    have hc : c_str "ls ;; cat <".toList = "ls ;; cat <".toList := by decide
    have hp : pipeline_loop (n + 2) (n + 2) "ls ;; cat <".toList [] =
        some (some ([{ argv := ["ls".toList], redirs := [], background := false }],
          ";; cat <".toList)) :=
      pipeline_loop_mono (Nat.le_add_left 2 n) 2 (Nat.le_add_left 2 n)
        (by decide : pipeline_loop 2 2 "ls ;; cat <".toList [] = _)
    unfold parse_line
    rw [hc, seq_loop_link (n + 2) (n + 1) "ls ;; cat <".toList
      (by decide : skip_space "ls ;; cat <".toList = 'l' :: "s ;; cat <".toList) hp]
    exact seq_loop_stuck_at_semi _ _ _ _

/-! ## C2: the order in which redirections are applied -/

/-- C2 (the code at the failing input): for the line `echo x > a > b` the
`redirs` chain built by `parse_line` has `> b` at its head and `> a` behind
it; `setup_redirs`, with every `open` and `dup2` succeeding, opens `b` first
and `a` last, and standard output ends up bound to `a`, the redirection
written first. -/
theorem redirs_applied_in_reverse :
    parse_line 5 "echo x > a > b".toList =
      some (some [[{ argv := ["echo".toList, "x".toList],
                     redirs := [{ type := .REDIR_OUT, filename := "b".toList },
                       { type := .REDIR_OUT, filename := "a".toList }],
                     background := false }]]) ∧
    setup_redirs (fun _ => true) (fun _ => true)
        [{ type := .REDIR_OUT, filename := "b".toList },
          { type := .REDIR_OUT, filename := "a".toList }]
        { stdin := none, stdout := none, opened := [] } =
      (0, { stdin := none,
            stdout := some { type := .REDIR_OUT, filename := "a".toList },
            opened := [{ type := .REDIR_OUT, filename := "b".toList },
              { type := .REDIR_OUT, filename := "a".toList }] }) := by
  decide

/-! ## C5: the status of a foreground pipeline -/

/-- C5 (the code at the failing input): a foreground pipeline of two stages
with pids 100 and 101, whose final stage (pid 101) exits with code 3 and is
reaped first, and whose first stage (pid 100) exits with code 0 and is reaped
last: `execute_pipeline` returns 0, the status of the process reaped last,
not the 3 of the final stage. With the opposite reaping order it returns 3. -/
theorem pipeline_status_follows_reap_order :
    execute_pipeline
        [{ argv := ["sleep".toList, "1".toList], redirs := [], background := false },
          { argv := ["nosuch".toList], redirs := [], background := false }]
        (fun i => { pipe_ok := true, pid := 100 + i })
        [.reaped 101 (.exited 3), .reaped 100 (.exited 0), .error] = (0, none) ∧
    execute_pipeline
        [{ argv := ["sleep".toList, "1".toList], redirs := [], background := false },
          { argv := ["nosuch".toList], redirs := [], background := false }]
        (fun i => { pipe_ok := true, pid := 100 + i })
        [.reaped 100 (.exited 0), .reaped 101 (.exited 3), .error] = (3, none) := by
  decide

/-! ## C6: `exit N` -/

theorem alias_expand_recursive_no_alias (line : List Char) (depth : Nat) :
    alias_expand_recursive [] line depth = none := by
  rw [alias_expand_recursive]
  split
  · rfl
  · have : alias_subst [] line = none := by
      unfold alias_subst
      split
      · rfl
      · simp only [alias_get]
        split <;> rfl
    rw [this]

/-- C6 (the code at the failing input): `shell -c "exit 5; echo hi"` with no
alias defined. `execute_commands` runs `echo hi` after `exit 5`: `hi` is
written to the inherited standard output, and the value `main` returns is 0,
the status of `echo`, not 5; the `running` flag is false. For `exit 5` alone
`main` does return 5. -/
theorem exit_does_not_stop_the_line :
    main_c quiet_env 3 [] "exit 5; echo hi".toList =
      some (0, { sh := { last_status := 0, running := false },
                 io := { stdin := none, stdout := none, opened := [] },
                 out := [(none, "hi\n".toList)] }) ∧
    main_c quiet_env 3 [] "exit 5".toList =
      some (5, { sh := { last_status := 5, running := false },
                 io := { stdin := none, stdout := none, opened := [] },
                 out := [] }) := by
  unfold main_c alias_expand
  rw [alias_expand_recursive_no_alias, alias_expand_recursive_no_alias]
  decide

/-! ## C10: the bound on alias expansion -/

theorem alias_expand_recursive_iter (aliases : List (List Char × List Char)) (m : Nat) :
    ∀ (d : Nat) (line r : List Char), d + m = 11 →
    alias_expand_recursive aliases line d = some r →
    ∃ k, 1 ≤ k ∧ k ≤ m ∧ alias_subst_iter aliases k line = some r := by
  induction m with
  | zero =>
    intro d line r hd h
    rw [alias_expand_recursive] at h
    have : d > 10 := by omega
    simp [this] at h
  | succ m ih =>
    intro d line r hd h
    rw [alias_expand_recursive] at h
    have hd10 : ¬ d > 10 := by omega
    simp only [hd10, if_false] at h
    cases hs : alias_subst aliases line with
    | none => simp [hs] at h
    | some expanded =>
      simp only [hs] at h
      cases hrec : alias_expand_recursive aliases expanded (d + 1) with
      | none =>
        simp only [hrec, Option.some.injEq] at h
        exact ⟨1, le_refl _, by omega, by simp [alias_subst_iter, hs, h]⟩
      | some further =>
        simp only [hrec, Option.some.injEq] at h
        obtain ⟨k, hk1, hkm, hk⟩ := ih (d + 1) expanded further (by omega) hrec
        exact ⟨k + 1, by omega, by omega, by simp [alias_subst_iter, hs, hk, h]⟩

/-- C10 (as stated, refuted): with the single alias `a='a x'`, `alias_expand`
rewrites the line `a` into `a` followed by eleven ` x`, which is the result of
eleven substitutions of the head word and of no smaller number. -/
theorem alias_expand_eleven_substitutions :
    alias_expand [("a".toList, "a x".toList)] "a".toList =
      some "a x x x x x x x x x x x".toList ∧
    alias_subst_iter [("a".toList, "a x".toList)] 11 "a".toList =
      some "a x x x x x x x x x x x".toList ∧
    ∀ k, k ≤ 10 → alias_subst_iter [("a".toList, "a x".toList)] k "a".toList ≠
      some "a x x x x x x x x x x x".toList := by
  refine ⟨?_, by decide, by decide⟩
  simp [alias_expand, c_str, alias_expand_recursive, alias_subst, alias_get, skip_blank,
    is_head_end]

/-- C10 (amended): for every alias table and every line, `alias_expand`
returns, and when it returns a string, that string is the line after `k`
successive substitutions of the head word by an alias value, for some `k`
between one and eleven. -/
theorem alias_expand_bounded (aliases : List (List Char × List Char)) (line r : List Char)
    (h : alias_expand aliases line = some r) :
    ∃ k, 1 ≤ k ∧ k ≤ 11 ∧ alias_subst_iter aliases k (c_str line) = some r :=
  alias_expand_recursive_iter aliases 11 0 (c_str line) r (by omega) h

theorem alias_expand_bounded_witness :
    alias_expand [("ll".toList, "ls -l".toList)] "ll /tmp".toList = some "ls -l /tmp".toList ∧
    ∃ k, 1 ≤ k ∧ k ≤ 11 ∧
      alias_subst_iter [("ll".toList, "ls -l".toList)] k (c_str "ll /tmp".toList) =
        some "ls -l /tmp".toList :=
  have h : alias_expand [("ll".toList, "ls -l".toList)] "ll /tmp".toList =
      some "ls -l /tmp".toList := by
    simp [alias_expand, c_str, alias_expand_recursive, alias_subst, alias_get, skip_blank,
      is_head_end]
  ⟨h, alias_expand_bounded _ _ _ h⟩

/-! ## The word loop on plain words -/

theorem skip_space_at_stage_end {rest : List Char} (h : at_stage_end rest = true) :
    skip_space rest = rest := by
  cases rest with
  | nil => rfl
  | cons c s => exact skip_space_of_sep (by simpa [at_stage_end] using h) s

theorem at_word_end_of_stage_end {rest : List Char} (h : at_stage_end rest = true) :
    at_word_end rest = true := by
  cases rest with
  | nil => rfl
  | cons c s =>
    simp only [at_stage_end, is_sep, Bool.or_eq_true, beq_iff_eq] at h
    rcases h with (rfl | rfl) | rfl <;> rfl

/-- Leading blanks do not change what the word loop does. -/
theorem word_loop_skip_blank (n : Nat) (bl : List Char) (hb : ∀ c ∈ bl, isspace c = true)
    (rest : List Char) (args : List (List Char)) (redirs : List redir_t) :
    word_loop n (bl ++ rest) args redirs = word_loop n rest args redirs := by
  cases n with
  | zero => rfl
  | succ n =>
    cases bl with
    | nil => rfl
    | cons c bl =>
      have hc : isspace c = true := hb c (by simp)
      have hcs : is_sep c = false := by
        cases h : is_sep c
        · rfl
        · have := skip_space_of_sep h []
          simp [skip_space, hc] at this
      have hsk : skip_space (c :: bl ++ rest) = skip_space rest :=
        skip_space_append_of_blank (c :: bl) hb rest
      rw [List.cons_append, word_loop]
      simp only [hcs, Bool.false_eq_true, if_false]
      rw [← List.cons_append, hsk]
      cases rest with
      | nil => rfl
      | cons d rest =>
        rw [word_loop]
        by_cases hd : is_sep d = true
        · simp only [hd, if_true, skip_space_of_sep hd]
        · simp only [hd, Bool.false_eq_true, if_false]

theorem words_cons (c : Char) (s : List Char) :
    words (c :: s) =
      if isspace c then words s
      else
        match s with
        | [] => [[c]]
        | d :: _ =>
          if isspace d then [c] :: words s
          else
            match words s with
            | [] => [[c]]
            | w :: ws => (c :: w) :: ws := by
  cases s <;> rfl

theorem words_skip_space (l : List Char) : words (skip_space l) = words l := by
  induction l with
  | nil => rfl
  | cons c s ih =>
    by_cases hc : isspace c = true
    · simp only [skip_space, hc, if_true, ih]
      rw [words_cons]
      simp only [hc, if_true]
    · simp only [skip_space, hc, if_false, Bool.false_eq_true]

theorem words_blank (l : List Char) (h : ∀ c ∈ l, isspace c = true) : words l = [] := by
  induction l with
  | nil => rfl
  | cons c s ih =>
    rw [words_cons]
    simp only [h c (by simp), if_true]
    exact ih (fun d hd => h d (by simp [hd]))

/-- The words of a line that starts with a non-blank character: the run of
non-blank characters, then the words of what follows it. -/
theorem words_cons_run (c : Char) (hc : isspace c = false) (w rest : List Char)
    (hw : ∀ d ∈ w, isspace d = false) (hr : rest = [] ∨ ∃ e t, rest = e :: t ∧ isspace e = true) :
    words (c :: (w ++ rest)) = (c :: w) :: words rest := by
  induction w generalizing c with
  | nil =>
    rw [List.nil_append, words_cons]
    simp only [hc, Bool.false_eq_true, if_false]
    rcases hr with rfl | ⟨e, t, rfl, he⟩
    · rfl
    · simp only [he, if_true]
  | cons d w ih =>
    have hd : isspace d = false := hw d (by simp)
    have := ih d hd (fun x hx => hw x (by simp [hx]))
    rw [List.cons_append, words_cons]
    simp only [hc, hd, Bool.false_eq_true, if_false, this]

theorem skip_space_decomp (l : List Char) :
    ∃ bl, (∀ c ∈ bl, isspace c = true) ∧ l = bl ++ skip_space l := by
  induction l with
  | nil => exact ⟨[], by simp, rfl⟩
  | cons c s ih =>
    by_cases hc : isspace c = true
    · obtain ⟨bl, hbl, hs⟩ := ih
      refine ⟨c :: bl, ?_, ?_⟩
      · intro d hd
        rcases List.mem_cons.mp hd with rfl | hd
        · exact hc
        · exact hbl d hd
      · simp only [skip_space, hc, if_true, List.cons_append]
        rw [← hs]
    · exact ⟨[], by simp, by simp [skip_space, hc]⟩

theorem skip_space_head {l : List Char} {c : Char} {t : List Char}
    (h : skip_space l = c :: t) : isspace c = false := by
  induction l with
  | nil => simp [skip_space] at h
  | cons d s ih =>
    by_cases hd : isspace d = true
    · simp only [skip_space, hd, if_true] at h
      exact ih h
    · simp only [skip_space, hd, if_false, Bool.false_eq_true, List.cons.injEq] at h
      rw [← h.1]
      simpa using hd

/-- A line splits into its first run of non-blank characters and a remainder
that is empty or starts with a blank. -/
theorem run_decomp (t : List Char) :
    ∃ w l2, t = w ++ l2 ∧ (∀ d ∈ w, isspace d = false) ∧
      (l2 = [] ∨ ∃ e u, l2 = e :: u ∧ isspace e = true) := by
  induction t with
  | nil => exact ⟨[], [], rfl, by simp, Or.inl rfl⟩
  | cons c s ih =>
    by_cases hc : isspace c = true
    · exact ⟨[], c :: s, rfl, by simp, Or.inr ⟨c, s, rfl, hc⟩⟩
    · obtain ⟨w, l2, hs, hw, hl2⟩ := ih
      refine ⟨c :: w, l2, by simp [hs], ?_, hl2⟩
      intro d hd
      rcases List.mem_cons.mp hd with rfl | hd
      · simpa using hc
      · exact hw d hd

theorem word_loop_plain_line (k : Nat) : ∀ (l : List Char), l.length ≤ k →
    (∀ c ∈ l, is_plain c = true ∨ isspace c = true) →
    ∀ (rest : List Char), at_word_end rest = true →
    ∀ (n : Nat) (args : List (List Char)) (redirs : List redir_t),
    word_loop (n + (words l).length) (l ++ rest) args redirs =
      word_loop n rest (args ++ words l) redirs := by
  induction k with
  | zero =>
    intro l hl _ rest _ n args redirs
    have : l = [] := List.length_eq_zero.mp (by omega)
    subst this
    simp [words]
  | succ k ih =>
    intro l hl hpl rest hrest n args redirs
    obtain ⟨bl, hbl, hdec⟩ := skip_space_decomp l
    cases hs : skip_space l with
    | nil =>
      rw [hs, List.append_nil] at hdec
      have hw : words l = [] := words_blank l (hdec ▸ hbl)
      rw [hw, List.append_nil, List.length_nil, Nat.add_zero]
      exact word_loop_skip_blank n l (hdec ▸ hbl) rest args redirs
    | cons c1 t1 =>
      rw [hs] at hdec
      have hc1 : isspace c1 = false := skip_space_head hs
      obtain ⟨w, l2, ht1, hw, hl2⟩ := run_decomp t1
      have hmem : ∀ d ∈ c1 :: w, d ∈ l := by
        intro d hd
        rw [hdec, ht1]
        rcases List.mem_cons.mp hd with rfl | hd
        · simp
        · simp [hd]
      have hplain : ∀ d ∈ c1 :: w, is_plain d = true := by
        intro d hd
        rcases hpl d (hmem d hd) with h | h
        · exact h
        · rcases List.mem_cons.mp hd with rfl | hd
          · rw [hc1] at h; exact absurd h (by decide)
          · rw [hw d hd] at h; exact absurd h (by decide)
      have hwords : words l = (c1 :: w) :: words l2 := by
        rw [← words_skip_space l, hs, ht1]
        exact words_cons_run c1 hc1 w l2 hw hl2
      have hend : at_word_end (l2 ++ rest) = true := by
        rcases hl2 with rfl | ⟨e, u, rfl, he⟩
        · simpa using hrest
        · simp [at_word_end, he]
      have hpw : parse_word (c1 :: (w ++ (l2 ++ rest))) = some (c1 :: w, l2 ++ rest) := by
        have := parse_word_plain (c1 :: w) (by simp) hplain hend
        simpa using this
      have hl2len : l2.length ≤ k := by
        have : l.length = bl.length + (1 + (w.length + l2.length)) := by
          rw [hdec, ht1]; simp; omega
        omega
      have hl2pl : ∀ c ∈ l2, is_plain c = true ∨ isspace c = true := by
        intro c hc
        apply hpl
        rw [hdec, ht1]
        simp [hc]
      have hsk : skip_space (c1 :: (w ++ (l2 ++ rest))) = c1 :: (w ++ (l2 ++ rest)) :=
        skip_space_cons_of_not_space hc1 _
      have hcur : l ++ rest = bl ++ (c1 :: (w ++ (l2 ++ rest))) := by
        rw [hdec, ht1]; simp
      rw [hcur, word_loop_skip_blank _ bl hbl, hwords]
      have hn : n + ((c1 :: w) :: words l2).length = (n + (words l2).length) + 1 := by
        simp; omega
      rw [hn, word_loop_word _ _ hsk (is_plain_not_sep (hplain c1 (by simp)))
        (is_plain_not_lt (hplain c1 (by simp))) (is_plain_not_gt (hplain c1 (by simp))) hpw,
        ih l2 hl2len hl2pl rest hrest]
      simp

/-! ## C3: newline and `;` between plain words -/

theorem words_ne_nil_of_not_space {d : Char} (hd : isspace d = false) (s : List Char) :
    words (d :: s) ≠ [] := by
  rw [words_cons]
  simp only [hd, Bool.false_eq_true, if_false]
  split
  · simp
  · split
    · simp
    · split <;> simp

theorem words_append_blank (l1 : List Char) (ws : Char) (hws : isspace ws = true)
    (l2 : List Char) : words (l1 ++ ws :: l2) = words l1 ++ words l2 := by
  induction l1 with
  | nil =>
    rw [List.nil_append, words_cons]
    simp [hws, words]
  | cons c l1 ih =>
    rw [List.cons_append, words_cons, words_cons c l1]
    by_cases hc : isspace c = true
    · simp only [hc, if_true, ih]
    · simp only [hc, Bool.false_eq_true, if_false]
      cases l1 with
      | nil =>
        simp only [List.nil_append, hws, if_true]
        rw [words_cons]
        simp [hws]
      | cons d l1 =>
        simp only [List.cons_append]
        by_cases hd : isspace d = true
        · simp only [hd, if_true]
          rw [← List.cons_append, ih]
          rfl
        · simp only [hd, Bool.false_eq_true, if_false]
          rw [← List.cons_append, ih]
          have hne := words_ne_nil_of_not_space (by simpa using hd) l1
          cases hw : words (d :: l1) with
          | nil => exact absurd hw hne
          | cons w ws1 => rfl

theorem isspace_not_nul {c : Char} (h : isspace c = true) : c ≠ Char.ofNat 0 := by
  rintro rfl
  revert h
  decide

theorem plain_line_no_nul {l : List Char} (h : ∀ c ∈ l, is_plain c = true ∨ isspace c = true) :
    Char.ofNat 0 ∉ l := by
  intro hmem
  rcases h _ hmem with h | h
  · exact is_plain_not_nul h rfl
  · exact isspace_not_nul h rfl

theorem skip_space_append_of_ne {l : List Char} (h : skip_space l ≠ []) (rest : List Char) :
    skip_space (l ++ rest) = skip_space l ++ rest := by
  induction l with
  | nil => exact absurd rfl h
  | cons c s ih =>
    by_cases hc : isspace c = true
    · simp only [List.cons_append, skip_space, hc, if_true] at h ⊢
      exact ih h
    · simp only [List.cons_append, skip_space, hc, if_false, Bool.false_eq_true]
      rfl

theorem plain_line_skip {l : List Char} (h : plain_line l) :
    ∃ c1 t1, skip_space l = c1 :: t1 ∧ words l ≠ [] := by
  obtain ⟨hall, c, hc, hplain⟩ := h
  obtain ⟨bl, hbl, hdec⟩ := skip_space_decomp l
  cases hs : skip_space l with
  | nil =>
    rw [hs, List.append_nil] at hdec
    have := hbl c (hdec ▸ hc)
    rw [is_plain_not_space hplain] at this
    exact absurd this (by decide)
  | cons c1 t1 =>
    refine ⟨c1, t1, rfl, ?_⟩
    rw [← words_skip_space, hs]
    exact words_ne_nil_of_not_space (skip_space_head hs) t1

/-- One iteration of the outer loop on a run of plain words followed by the
end of the line or by `;`. -/
theorem seq_loop_plain_line (b n : Nat) (l : List Char) (hl : plain_line l)
    (hb : (words l).length + 1 ≤ b) (rest : List Char)
    (hrest : rest = [] ∨ ∃ r, rest = ';' :: r) (seq : List (List command_t)) :
    seq_loop b (n + 1) (l ++ rest) seq =
      seq_loop b n (take_semi rest)
        (seq ++ [[{ argv := words l, redirs := [], background := false }]]) := by
  obtain ⟨c1, t1, hs, hne⟩ := plain_line_skip hl
  have hskip : skip_space (l ++ rest) = c1 :: (t1 ++ rest) := by
    rw [skip_space_append_of_ne (by rw [hs]; simp), hs]; rfl
  have hse : at_stage_end rest = true := by
    rcases hrest with rfl | ⟨r, rfl⟩ <;> rfl
  have hpl : ∀ c ∈ c1 :: t1, is_plain c = true ∨ isspace c = true := by
    intro c hc
    exact hl.1 c ((hs ▸ skip_space_suffix l).subset hc)
  have hwl : word_loop b (c1 :: (t1 ++ rest)) [] [] = some (some (words l, [], rest)) := by
    have h1 := word_loop_plain_line _ (c1 :: t1) (le_refl _) hpl rest
      (at_word_end_of_stage_end hse) 1 [] []
    rw [word_loop_end 0 rest (by rw [skip_space_at_stage_end hse]; exact hse),
      skip_space_at_stage_end hse, ← hs, words_skip_space] at h1
    have h2 := word_loop_mono (by omega : 1 + (words l).length ≤ b) h1
    simpa [hs] using h2
  obtain ⟨m, rfl⟩ : ∃ m, b = m + 1 := ⟨b - 1, by omega⟩
  have hnp : ∀ s3, skip_space rest ≠ '|' :: s3 := by
    intro s3
    rcases hrest with rfl | ⟨r, rfl⟩
    · simp [skip_space]
    · rw [skip_space_of_sep (by decide)]; simp
  have hp : pipeline_loop (m + 1) (m + 1) (c1 :: (t1 ++ rest)) [] =
      some (some ([{ argv := words l, redirs := [], background := false }], rest)) := by
    rw [pipeline_loop_last (m + 1) m _ [] hwl hnp, skip_space_at_stage_end hse]
    cases hw : words l with
    | nil => exact absurd hw hne
    | cons w ws => rfl
  rw [seq_loop_link (m + 1) n (l ++ rest) hskip hp]
  rcases hrest with rfl | ⟨r, rfl⟩
  · rfl
  · rfl

theorem parse_line_plain (b : Nat) (l : List Char) (hl : plain_line l)
    (hb : (words l).length + 2 ≤ b) :
    parse_line b l = some (some [[{ argv := words l, redirs := [], background := false }]]) := by
  obtain ⟨m, rfl⟩ : ∃ m, b = m + 2 := ⟨b - 2, by omega⟩
  unfold parse_line
  rw [c_str_id _ (plain_line_no_nul hl.1)]
  have := seq_loop_plain_line (m + 2) (m + 1) l hl (by omega) [] (Or.inl rfl) []
  rw [List.append_nil] at this
  rw [this]
  rfl

theorem plain_line_append_blank {l1 l2 : List Char} (h1 : plain_line l1) (h2 : plain_line l2)
    (ws : Char) (hws : isspace ws = true) : plain_line (l1 ++ ws :: l2) := by
  refine ⟨?_, ?_⟩
  · intro c hc
    rcases List.mem_append.mp hc with hc | hc
    · exact h1.1 c hc
    · rcases List.mem_cons.mp hc with rfl | hc
      · exact Or.inr hws
      · exact h2.1 c hc
  · obtain ⟨c, hc, hp⟩ := h1.2
    exact ⟨c, by simp [hc], hp⟩

/-- C3 (as stated, refuted): `a`, newline, `b` parses to one sequence node
whose stage has the two arguments `a` and `b`, whereas `a;b` parses to two
sequence nodes. -/
theorem newline_is_not_semicolon :
    parse_line 3 ("a".toList ++ "\n".toList ++ "b".toList) =
      some (some [[{ argv := ["a".toList, "b".toList], redirs := [], background := false }]]) ∧
    parse_line 3 ("a".toList ++ ";".toList ++ "b".toList) =
      some (some [[{ argv := ["a".toList], redirs := [], background := false }],
        [{ argv := ["b".toList], redirs := [], background := false }]]) := by
  decide

/-- C3 (amended): for all lines `l1` and `l2` made of plain words, a newline
between them is whitespace: `l1`, newline, `l2` parses like `l1`, blank, `l2`,
to a single sequence node whose stage has the words of `l1` followed by the
words of `l2`; only `;` separates, giving two sequence nodes. -/
theorem newline_is_whitespace (l1 l2 : List Char) (h1 : plain_line l1) (h2 : plain_line l2)
    (budget : Nat) (hb : (words l1).length + (words l2).length + 3 ≤ budget) :
    parse_line budget (l1 ++ '\n' :: l2) =
      some (some [[{ argv := words l1 ++ words l2, redirs := [], background := false }]]) ∧
    parse_line budget (l1 ++ ' ' :: l2) =
      some (some [[{ argv := words l1 ++ words l2, redirs := [], background := false }]]) ∧
    parse_line budget (l1 ++ ';' :: l2) =
      some (some [[{ argv := words l1, redirs := [], background := false }],
        [{ argv := words l2, redirs := [], background := false }]]) := by
  refine ⟨?_, ?_, ?_⟩
  · have := parse_line_plain budget _ (plain_line_append_blank h1 h2 '\n' (by decide))
      (by rw [words_append_blank _ _ (by decide)]; simp; omega)
    rw [this, words_append_blank _ _ (by decide)]
  · have := parse_line_plain budget _ (plain_line_append_blank h1 h2 ' ' (by decide))
      (by rw [words_append_blank _ _ (by decide)]; simp; omega)
    rw [this, words_append_blank _ _ (by decide)]
  · obtain ⟨m, rfl⟩ : ∃ m, budget = m + 3 := ⟨budget - 3, by omega⟩
    have hnul : Char.ofNat 0 ∉ l1 ++ ';' :: l2 := by
      intro hmem
      rcases List.mem_append.mp hmem with hmem | hmem
      · exact plain_line_no_nul h1.1 hmem
      · rcases List.mem_cons.mp hmem with hmem | hmem
        · exact absurd hmem (by decide)
        · exact plain_line_no_nul h2.1 hmem
    unfold parse_line
    rw [c_str_id _ hnul,
      seq_loop_plain_line (m + 3) (m + 2) l1 h1 (by omega) (';' :: l2) (Or.inr ⟨l2, rfl⟩) []]
    have := seq_loop_plain_line (m + 3) (m + 1) l2 h2 (by omega) [] (Or.inl rfl)
      ([] ++ [[{ argv := words l1, redirs := [], background := false }]])
    rw [List.append_nil] at this
    simp only [take_semi]
    rw [this]
    rfl

theorem newline_is_whitespace_witness :
    plain_line "ls -l".toList ∧ plain_line "echo hi".toList ∧
    parse_line 7 ("ls -l".toList ++ '\n' :: "echo hi".toList) =
      some (some [[{ argv := words "ls -l".toList ++ words "echo hi".toList,
                     redirs := [], background := false }]]) ∧
    parse_line 7 ("ls -l".toList ++ ';' :: "echo hi".toList) =
      some (some [[{ argv := words "ls -l".toList, redirs := [], background := false }],
        [{ argv := words "echo hi".toList, redirs := [], background := false }]]) :=
  have h1 : plain_line "ls -l".toList := ⟨by decide, by decide⟩
  have h2 : plain_line "echo hi".toList := ⟨by decide, by decide⟩
  have h := newline_is_whitespace "ls -l".toList "echo hi".toList h1 h2 7 (by decide)
  ⟨h1, h2, h.1, h.2.2⟩

theorem word_loop_skip_space (n : Nat) (s : List Char) (args : List (List Char))
    (redirs : List redir_t) :
    word_loop n (skip_space s) args redirs = word_loop n s args redirs := by
  obtain ⟨bl, hbl, hdec⟩ := skip_space_decomp s
  conv_rhs => rw [hdec]
  rw [word_loop_skip_blank n bl hbl]

theorem pipeline_loop_error (b n : Nat) (s : List Char) (stages : List command_t)
    (hw : word_loop b s [] [] = some none) :
    pipeline_loop b (n + 1) s stages = some none := by
  rw [pipeline_loop]
  simp only [hw]

theorem seq_loop_error (b n : Nat) (s : List Char) {c1 : Char} {t1 : List Char}
    (hs : skip_space s = c1 :: t1) (hp : pipeline_loop b b (c1 :: t1) [] = some none)
    (seq : List (List command_t)) : seq_loop b (n + 1) s seq = some none := by
  rw [seq_loop]
  simp only [hs, hp]

theorem parse_word_at_word_end {rest : List Char} (h : at_word_end rest = true) :
    parse_word rest = none := by
  simp [parse_word, pw_main_at_word_end h]

/-- The syntax-error path of `parse_line`, when the scan reaches it: a first
stage of plain words `l` (possibly none), a redirection operator, blanks, and
then the end of the line or one of `| ; & < >` make `parse_line` return
`NULL`. For `>` the text after it must not start with a second `>`, which
would make the operator `>>`. -/
theorem missing_filename_is_syntax_error (l : List Char)
    (hl : ∀ c ∈ l, is_plain c = true ∨ isspace c = true) (t : redir_type_t)
    (bl : List Char) (hbl : ∀ c ∈ bl, isspace c = true) (rest : List Char)
    (hrest : rest = [] ∨ ∃ c r, rest = c :: r ∧ c ∈ ['|', ';', '&', '<', '>'])
    (h0 : Char.ofNat 0 ∉ rest)
    (hgt : t = .REDIR_OUT → ∀ r, bl ++ rest ≠ '>' :: r)
    (b : Nat) (hb : (words l).length + 1 ≤ b) :
    parse_line b (l ++ (redir_op t ++ (bl ++ rest))) = some none := by
  have hend : at_word_end rest = true := by
    rcases hrest with rfl | ⟨c, r, rfl, hc⟩
    · rfl
    · simp only [List.mem_cons, List.mem_singleton, List.not_mem_nil, or_false] at hc
      rcases hc with rfl | rfl | rfl | rfl | rfl <;> rfl
  have hskr : skip_space rest = rest := by
    rcases hrest with rfl | ⟨c, r, rfl, hc⟩
    · rfl
    · simp only [List.mem_cons, List.mem_singleton, List.not_mem_nil, or_false] at hc
      rcases hc with rfl | rfl | rfl | rfl | rfl <;> rfl
  have hpw : parse_word (skip_space (bl ++ rest)) = none := by
    rw [skip_space_append_of_blank bl hbl, hskr]
    exact parse_word_at_word_end hend
  -- the word loop at the operator
  have hop : ∀ (args : List (List Char)),
      word_loop 1 (redir_op t ++ (bl ++ rest)) args [] = some none := by
    intro args
    cases t with
    | REDIR_IN => rw [word_loop_redir_in 0 _ (bl ++ rest) (by rfl), hpw]
    | REDIR_OUT => rw [word_loop_redir_out 0 _ (bl ++ rest) (by rfl) (hgt rfl), hpw]
    | REDIR_APPEND => rw [word_loop_redir_append 0 _ (bl ++ rest) (by rfl), hpw]
  have hopend : at_word_end (redir_op t ++ (bl ++ rest)) = true := by
    cases t <;> rfl
  have hwl : word_loop b (l ++ (redir_op t ++ (bl ++ rest))) [] [] = some none := by
    have h1 := word_loop_plain_line _ l (le_refl _) hl _ hopend 1 [] []
    rw [hop] at h1
    exact word_loop_mono (by omega) h1
  have hnul : Char.ofNat 0 ∉ l ++ (redir_op t ++ (bl ++ rest)) := by
    intro hmem
    rcases List.mem_append.mp hmem with hmem | hmem
    · exact plain_line_no_nul hl hmem
    · rcases List.mem_append.mp hmem with hmem | hmem
      · cases t <;> simp [redir_op] at hmem
      · rcases List.mem_append.mp hmem with hmem | hmem
        · exact isspace_not_nul (hbl _ hmem) rfl
        · exact h0 hmem
  obtain ⟨m, rfl⟩ : ∃ m, b = m + 1 := ⟨b - 1, by omega⟩
  cases hs : skip_space (l ++ (redir_op t ++ (bl ++ rest))) with
  | nil =>
    have := word_loop_skip_space (m + 1) (l ++ (redir_op t ++ (bl ++ rest))) [] []
    rw [hs, hwl] at this
    simp [word_loop] at this
  | cons c1 t1 =>
    have hw2 : word_loop (m + 1) (c1 :: t1) [] [] = some none := by
      rw [← hs, word_loop_skip_space]; exact hwl
    unfold parse_line
    rw [c_str_id _ hnul]
    exact seq_loop_error (m + 1) m _ hs (pipeline_loop_error (m + 1) m _ [] hw2) []

/-! ## C9: parsing the canonical form of a graph -/

theorem words_single (w : List Char) (hne : w ≠ []) (hw : ∀ c ∈ w, is_plain c = true) :
    words w = [w] := by
  cases w with
  | nil => exact absurd rfl hne
  | cons c w =>
    have := words_cons_run c (is_plain_not_space (hw c (by simp))) w []
      (fun d hd => is_plain_not_space (hw d (by simp [hd]))) (Or.inl rfl)
    simpa [words] using this

theorem words_join_sep (ws : List (List Char)) (hne : ∀ w ∈ ws, w ≠ [])
    (hw : ∀ w ∈ ws, ∀ c ∈ w, is_plain c = true) :
    words (join_sep [' '] ws) = ws ∧
      ∀ c ∈ join_sep [' '] ws, is_plain c = true ∨ isspace c = true := by
  induction ws with
  | nil => exact ⟨rfl, by simp [join_sep]⟩
  | cons w ws ih =>
    have hw1 : ∀ c ∈ w, is_plain c = true := hw w (by simp)
    have hn1 : w ≠ [] := hne w (by simp)
    cases ws with
    | nil =>
      exact ⟨words_single w hn1 hw1, fun c hc => Or.inl (hw1 c hc)⟩
    | cons w2 ws =>
      obtain ⟨ih1, ih2⟩ := ih (fun x hx => hne x (by simp [hx])) (fun x hx => hw x (by simp [hx]))
      cases w with
      | nil => exact absurd rfl hn1
      | cons c w =>
        refine ⟨?_, ?_⟩
        · have := words_cons_run c (is_plain_not_space (hw1 c (by simp))) w
            (' ' :: join_sep [' '] (w2 :: ws))
            (fun d hd => is_plain_not_space (hw1 d (by simp [hd])))
            (Or.inr ⟨' ', _, rfl, by decide⟩)
          simp only [join_sep, List.cons_append, List.append_assoc, List.singleton_append,
            List.nil_append]
          rw [this, words_cons]
          simp only [show isspace ' ' = true by decide, if_true]
          rw [ih1]
        · intro d hd
          rw [join_sep] at hd
          simp only [List.mem_append, List.mem_singleton] at hd
          rcases hd with (hd | rfl) | hd
          · exact Or.inl (hw1 d hd)
          · exact Or.inr (by decide)
          · exact ih2 d hd

theorem skip_space_plain_append {f : List Char} (hne : f ≠ []) (hf : ∀ c ∈ f, is_plain c = true)
    (rest : List Char) : skip_space (f ++ rest) = f ++ rest := by
  cases f with
  | nil => exact absurd rfl hne
  | cons c f => exact skip_space_cons_of_not_space (is_plain_not_space (hf c (by simp))) _

/-- One iteration of the word loop on a redirection in canonical form. -/
theorem word_loop_serialize_redir (n : Nat) (r : redir_t) (hne : r.filename ≠ [])
    (hf : ∀ c ∈ r.filename, is_plain c = true) (rest : List Char)
    (hrest : at_word_end rest = true) (args : List (List Char)) (redirs : List redir_t) :
    word_loop (n + 1) (serialize_redir r ++ rest) args redirs =
      word_loop n rest args (r :: redirs) := by
  have hpw : parse_word (skip_space (' ' :: (r.filename ++ rest))) = some (r.filename, rest) := by
    rw [skip_space]
    simp only [show isspace ' ' = true by decide, if_true]
    rw [skip_space_plain_append hne hf, parse_word_plain _ hne hf hrest]
  obtain ⟨t, f⟩ := r
  cases t with
  | REDIR_IN =>
    rw [word_loop_redir_in n _ (' ' :: (f ++ rest)) (by rfl), hpw]
  | REDIR_OUT =>
    rw [word_loop_redir_out n _ (' ' :: (f ++ rest)) (by rfl)
      (by intro t2 h; exact absurd (List.cons.inj h).1 (by decide)), hpw]
  | REDIR_APPEND =>
    rw [word_loop_redir_append n _ (' ' :: (f ++ rest)) (by rfl), hpw]

theorem at_word_end_redirs_append (rs : List redir_t) {rest : List Char}
    (hrest : at_word_end rest = true) :
    at_word_end ((rs.map serialize_redir).flatten ++ rest) = true := by
  cases rs with
  | nil => simpa using hrest
  | cons r rs => rfl

theorem word_loop_serialize_redirs (rs : List redir_t) :
    (∀ r ∈ rs, r.filename ≠ []) → (∀ r ∈ rs, ∀ c ∈ r.filename, is_plain c = true) →
    ∀ (rest : List Char), at_word_end rest = true →
    ∀ (n : Nat) (args : List (List Char)) (redirs : List redir_t),
    word_loop (n + rs.length) ((rs.map serialize_redir).flatten ++ rest) args redirs =
      word_loop n rest args (rs.reverse ++ redirs) := by
  induction rs with
  | nil => intro _ _ rest _ n args redirs; rfl
  | cons r rs ih =>
    intro hne hf rest hrest n args redirs
    have h1 := word_loop_serialize_redir (n + rs.length) r (hne r (by simp)) (hf r (by simp))
      ((rs.map serialize_redir).flatten ++ rest) (at_word_end_redirs_append rs hrest) args redirs
    simp only [List.map_cons, List.flatten_cons, List.append_assoc, List.length_cons,
      List.reverse_cons]
    rw [← Nat.add_assoc, h1,
      ih (fun x hx => hne x (by simp [hx])) (fun x hx => hf x (by simp [hx])) rest hrest]
    simp

/-- The word loop on a stage in canonical form: its arguments and its chain
of redirections, in `stage_budget` iterations. -/
theorem word_loop_serialize_stage (st : command_t) (hwf : stage_wf st)
    (hw : ∀ w ∈ st.argv, ∀ c ∈ w, is_plain c = true)
    (hf : ∀ r ∈ st.redirs, ∀ c ∈ r.filename, is_plain c = true)
    (rest : List Char) (hrest : at_word_end rest = true)
    (hend : at_stage_end (skip_space rest) = true) (b : Nat) (hb : stage_budget st ≤ b) :
    word_loop b (serialize_stage st ++ rest) [] [] =
      some (some (st.argv, st.redirs, skip_space rest)) := by
  obtain ⟨_, hwne, hfne⟩ := hwf
  obtain ⟨hj1, hj2⟩ := words_join_sep st.argv hwne hw
  apply word_loop_mono hb
  have h1 := word_loop_plain_line _ (join_sep [' '] st.argv) (le_refl _) hj2
    ((st.redirs.reverse.map serialize_redir).flatten ++ rest)
    (at_word_end_redirs_append _ hrest) (st.redirs.length + 1) [] []
  rw [hj1, List.nil_append] at h1
  have h2 := word_loop_serialize_redirs st.redirs.reverse
    (fun r hr => hfne r (List.mem_reverse.mp hr)) (fun r hr => hf r (List.mem_reverse.mp hr))
    rest hrest 1 st.argv []
  rw [List.length_reverse, List.reverse_reverse, List.append_nil,
    word_loop_end 0 rest hend] at h2
  have hb2 : stage_budget st = st.redirs.length + 1 + st.argv.length := by
    unfold stage_budget; omega
  rw [hb2, serialize_stage, List.append_assoc, h1, Nat.add_comm, h2]

theorem skip_space_idem (s : List Char) : skip_space (skip_space s) = skip_space s := by
  induction s with
  | nil => rfl
  | cons c s ih =>
    by_cases hc : isspace c = true
    · simp only [skip_space, hc, if_true, ih]
    · simp only [skip_space, hc, if_false, Bool.false_eq_true]

theorem pipeline_loop_skip_blank (b n : Nat) (bl : List Char)
    (hb : ∀ c ∈ bl, isspace c = true) (s : List Char) (stages : List command_t) :
    pipeline_loop b n (bl ++ s) stages = pipeline_loop b n s stages := by
  cases n with
  | zero => rfl
  | succ n => simp only [pipeline_loop, word_loop_skip_blank b bl hb]

theorem seq_loop_skip_blank (b n : Nat) (bl : List Char)
    (hb : ∀ c ∈ bl, isspace c = true) (s : List Char) (seq : List (List command_t)) :
    seq_loop b n (bl ++ s) seq = seq_loop b n s seq := by
  cases n with
  | zero => rfl
  | succ n => simp only [seq_loop, skip_space_append_of_blank bl hb]

theorem link_stage_of_ne_nil (stages : List command_t) (st : command_t) (h : st.argv ≠ []) :
    link_stage stages st.argv st.redirs = stages ++ set_background false [st] := by
  unfold link_stage
  split
  · rename_i heq
    exact absurd heq h
  · rfl

/-- The pipeline loop on the stages of a pipeline in canonical form: the
stages, with the flag still false, in one iteration per stage. -/
theorem pipeline_loop_serialize (b : Nat) (p : List command_t) :
    p ≠ [] → (∀ st ∈ p, stage_wf st) →
    (∀ st ∈ p, (∀ w ∈ st.argv, ∀ c ∈ w, is_plain c = true) ∧
      (∀ r ∈ st.redirs, ∀ c ∈ r.filename, is_plain c = true)) →
    (p.map stage_budget).sum ≤ b →
    ∀ (rest : List Char), at_word_end rest = true → at_stage_end (skip_space rest) = true →
    (∀ s3, skip_space rest ≠ '|' :: s3) →
    ∀ (n : Nat) (acc : List command_t),
    pipeline_loop b (n + p.length) (join_sep [' ', '|', ' '] (p.map serialize_stage) ++ rest) acc =
      some (some (acc ++ set_background false p, skip_space rest)) := by
  induction p with
  | nil => intro h; exact absurd rfl h
  | cons st p ih =>
    intro _ hwf hpl hb rest hrest hend hnp n acc
    have hst := hwf st (by simp)
    have hbst : stage_budget st ≤ b := by
      simp only [List.map_cons, List.sum_cons] at hb; omega
    cases p with
    | nil =>
      have hw := word_loop_serialize_stage st hst (hpl st (by simp)).1 (hpl st (by simp)).2
        rest hrest hend b hbst
      simp only [List.map_cons, List.map_nil, join_sep, List.length_cons, List.length_nil,
        Nat.zero_add]
      rw [pipeline_loop_last b n _ acc hw (by rw [skip_space_idem]; exact hnp),
        skip_space_idem, link_stage_of_ne_nil acc st hst.1]
    | cons st2 p =>
      have hw := word_loop_serialize_stage st hst (hpl st (by simp)).1 (hpl st (by simp)).2
        (' ' :: '|' :: ' ' :: (join_sep [' ', '|', ' '] ((st2 :: p).map serialize_stage) ++ rest))
        rfl rfl b hbst
      have hsk : skip_space (skip_space (' ' :: '|' :: ' ' ::
          (join_sep [' ', '|', ' '] ((st2 :: p).map serialize_stage) ++ rest))) =
          '|' :: ([' '] ++
            (join_sep [' ', '|', ' '] ((st2 :: p).map serialize_stage) ++ rest)) := rfl
      have hih := ih (by simp) (fun x hx => hwf x (by simp [hx]))
        (fun x hx => hpl x (by simp [hx]))
        (by simp only [List.map_cons, List.sum_cons] at hb ⊢; omega)
        rest hrest hend hnp n (link_stage acc st.argv st.redirs)
      have htext : join_sep [' ', '|', ' '] ((st :: st2 :: p).map serialize_stage) ++ rest =
          serialize_stage st ++ (' ' :: '|' :: ' ' ::
            (join_sep [' ', '|', ' '] ((st2 :: p).map serialize_stage) ++ rest)) := by
        simp [join_sep]
      have hlen : n + (st :: st2 :: p).length = (n + (st2 :: p).length) + 1 := by
        simp only [List.length_cons]; omega
      rw [htext, hlen, pipeline_loop_pipe b _ _ acc hw hsk,
        pipeline_loop_skip_blank b _ [' '] (by simp; decide), hih,
        link_stage_of_ne_nil acc st hst.1]
      simp [set_background]

theorem serialize_stage_head (st : command_t) (hwf : stage_wf st)
    (hw : ∀ w ∈ st.argv, ∀ c ∈ w, is_plain c = true) :
    ∃ c t, serialize_stage st = c :: t ∧ isspace c = false := by
  obtain ⟨hne, hwne, _⟩ := hwf
  unfold serialize_stage
  cases hargv : st.argv with
  | nil => exact absurd hargv hne
  | cons w ws =>
    have hw1 : w ≠ [] := hwne w (by simp [hargv])
    cases w with
    | nil => exact absurd rfl hw1
    | cons c w =>
      have hc : isspace c = false :=
        is_plain_not_space (hw (c :: w) (by rw [hargv]; simp) c (by simp))
      cases ws with
      | nil => exact ⟨c, _, rfl, hc⟩
      | cons w2 ws => exact ⟨c, _, rfl, hc⟩

theorem join_stages_head (p : List command_t) (hp : p ≠ []) (hwf : ∀ st ∈ p, stage_wf st)
    (hpl : ∀ st ∈ p, ∀ w ∈ st.argv, ∀ c ∈ w, is_plain c = true) :
    ∃ c t, join_sep [' ', '|', ' '] (p.map serialize_stage) = c :: t ∧ isspace c = false := by
  cases p with
  | nil => exact absurd rfl hp
  | cons st p =>
    obtain ⟨c, t, hst, hc⟩ := serialize_stage_head st (hwf st (by simp)) (hpl st (by simp))
    cases p with
    | nil => exact ⟨c, t, by simp [join_sep, hst], hc⟩
    | cons st2 p =>
      refine ⟨c, t ++ ([' ', '|', ' '] ++
        join_sep [' ', '|', ' '] ((st2 :: p).map serialize_stage)), ?_, hc⟩
      simp [join_sep, hst]

theorem set_background_twice (b1 b2 : Bool) (p : List command_t) :
    set_background b1 (set_background b2 p) = set_background b1 p := by
  simp [set_background]

theorem set_background_of_uniform (bg : Bool) (p : List command_t)
    (h : ∀ st ∈ p, st.background = bg) : set_background bg p = p := by
  induction p with
  | nil => rfl
  | cons st p ih =>
    have h1 : st.background = bg := h st (by simp)
    have h2 := ih (fun x hx => h x (by simp [hx]))
    simp only [set_background, List.map_cons] at h2 ⊢
    rw [h2, ← h1]

/-- One iteration of the outer loop on a pipeline in canonical form, followed
by the end of the line or by ` ; ` and more text. -/
theorem seq_loop_serialize_step (b m : Nat) (p : List command_t) (hp : p ≠ [])
    (hwf : ∀ st ∈ p, stage_wf st)
    (hun : ∀ st ∈ p, ∀ st2 ∈ p, st.background = st2.background)
    (hpl : ∀ st ∈ p, (∀ w ∈ st.argv, ∀ c ∈ w, is_plain c = true) ∧
      (∀ r ∈ st.redirs, ∀ c ∈ r.filename, is_plain c = true))
    (hb : pipeline_budget p ≤ b) (rest0 : List Char)
    (hrest0 : rest0 = [] ∨ ∃ tail, rest0 = ' ' :: ';' :: ' ' :: tail)
    (seq : List (List command_t)) :
    seq_loop b (m + 1) (serialize_pipeline p ++ rest0) seq =
      seq_loop b m (take_semi (skip_space rest0)) (seq ++ [p]) := by
  obtain ⟨c1, t1, hhead, hc1⟩ := join_stages_head p hp hwf (fun st hst => (hpl st hst).1)
  cases p with
  | nil => exact absurd rfl hp
  | cons st p =>
    have hbsum : ((st :: p).map stage_budget).sum ≤ b := by
      unfold pipeline_budget at hb; omega
    have hblen : (st :: p).length ≤ b := by
      unfold pipeline_budget at hb; omega
    have huni : ∀ x ∈ st :: p, x.background = st.background :=
      fun x hx => hun x hx st (by simp)
    -- the text after the stages: the optional ` &`, then `rest0`
    have key : ∀ (rest : List Char), at_word_end rest = true →
        at_stage_end (skip_space rest) = true → (∀ s3, skip_space rest ≠ '|' :: s3) →
        (take_amp (skip_space (skip_space rest))).1 = st.background →
        seq_loop b (m + 1) (join_sep [' ', '|', ' '] ((st :: p).map serialize_stage) ++ rest) seq =
          seq_loop b m (take_semi (skip_space (take_amp (skip_space (skip_space rest))).2))
            (seq ++ [st :: p]) := by
      intro rest h1 h2 h3 h4
      have hpipe := pipeline_loop_serialize b (st :: p) (by simp) hwf hpl hbsum rest h1 h2 h3
        (b - (st :: p).length) []
      rw [Nat.sub_add_cancel hblen, hhead] at hpipe
      have hskip : skip_space (join_sep [' ', '|', ' '] ((st :: p).map serialize_stage) ++ rest) =
          c1 :: (t1 ++ rest) := by
        rw [hhead]
        exact skip_space_cons_of_not_space hc1 _
      have hpipe2 : pipeline_loop b b (c1 :: (t1 ++ rest)) [] =
          some (some ({ st with background := false } :: set_background false p,
            skip_space rest)) := hpipe
      rw [seq_loop_link b m _ hskip hpipe2, h4]
      have : set_background st.background
          ({ st with background := false } :: set_background false p) = st :: p := by
        have := set_background_twice st.background false (st :: p)
        rw [set_background_of_uniform st.background (st :: p) huni] at this
        exact this
      rw [this]
    unfold serialize_pipeline
    simp only [List.append_assoc]
    cases hbg : st.background with
    | false =>
      simp only [Bool.false_eq_true, if_false, List.nil_append]
      rcases hrest0 with rfl | ⟨tail, rfl⟩
      · exact key [] rfl rfl (by intro s3; simp [skip_space]) (by rw [hbg]; rfl)
      · exact key _ rfl rfl (by intro s3 h; exact absurd (List.cons.inj h).1 (by decide))
          (by rw [hbg]; rfl)
    | true =>
      simp only [if_true]
      rcases hrest0 with rfl | ⟨tail, rfl⟩
      · exact key _ rfl rfl (by intro s3 h; exact absurd (List.cons.inj h).1 (by decide))
          (by rw [hbg]; rfl)
      · exact key _ rfl rfl (by intro s3 h; exact absurd (List.cons.inj h).1 (by decide))
          (by rw [hbg]; rfl)

/-- The outer loop on a graph in canonical form: the graph itself. -/
theorem seq_loop_serialize (b : Nat) (g : List (List command_t)) :
    graph_wf g → graph_plain g → (∀ p ∈ g, pipeline_budget p ≤ b) →
    ∀ (n : Nat) (seq : List (List command_t)),
    seq_loop b (n + g.length + 1) (serialize g) seq = some (seq_head (seq ++ g)) := by
  induction g with
  | nil =>
    intro _ _ _ n seq
    rw [List.append_nil]
    exact seq_loop_end b (n + 0) (serialize []) rfl seq
  | cons p g ih =>
    intro hwf hpl hb n seq
    obtain ⟨hp, hpwf, hpun⟩ := hwf p (by simp)
    have hppl := hpl p (by simp)
    have hpb := hb p (by simp)
    cases g with
    | nil =>
      have h := seq_loop_serialize_step b (n + 1) p hp hpwf hpun hppl hpb [] (Or.inl rfl) seq
      rw [List.append_nil] at h
      simp only [serialize, List.map_cons, List.map_nil, join_sep, List.length_cons,
        List.length_nil]
      rw [h]
      exact seq_loop_end b n (take_semi (skip_space [])) rfl _
    | cons p2 g =>
      have hih := ih (fun x hx => hwf x (by simp [hx])) (fun x hx => hpl x (by simp [hx]))
        (fun x hx => hb x (by simp [hx])) n (seq ++ [p])
      have htext : serialize (p :: p2 :: g) =
          serialize_pipeline p ++ (' ' :: ';' :: ' ' :: serialize (p2 :: g)) := by
        simp [serialize, join_sep]
      have hlen : n + (p :: p2 :: g).length + 1 = (n + (p2 :: g).length + 1) + 1 := by
        simp only [List.length_cons]; omega
      rw [htext, hlen,
        seq_loop_serialize_step b _ p hp hpwf hpun hppl hpb _ (Or.inr ⟨_, rfl⟩) seq]
      have hpos : take_semi (skip_space (' ' :: ';' :: ' ' :: serialize (p2 :: g))) =
          [' '] ++ serialize (p2 :: g) := rfl
      rw [hpos, seq_loop_skip_blank b _ [' '] (by simp; decide), hih]
      simp

theorem mem_join_sep {sep : List Char} {xs : List (List Char)} {c : Char}
    (h : c ∈ join_sep sep xs) : c ∈ sep ∨ ∃ x ∈ xs, c ∈ x := by
  induction xs with
  | nil => simp [join_sep] at h
  | cons x xs ih =>
    cases xs with
    | nil => exact Or.inr ⟨x, by simp, by simpa [join_sep] using h⟩
    | cons y xs =>
      rw [join_sep] at h
      simp only [List.mem_append] at h
      rcases h with (h | h) | h
      · exact Or.inr ⟨x, by simp, h⟩
      · exact Or.inl h
      · rcases ih h with h | ⟨z, hz, hc⟩
        · exact Or.inl h
        · exact Or.inr ⟨z, by simp [hz], hc⟩

theorem serialize_stage_no_nul (st : command_t)
    (hw : ∀ w ∈ st.argv, ∀ c ∈ w, is_plain c = true)
    (hf : ∀ r ∈ st.redirs, ∀ c ∈ r.filename, is_plain c = true) :
    ∀ c ∈ serialize_stage st, c ≠ Char.ofNat 0 := by
  intro c hc
  unfold serialize_stage at hc
  rcases List.mem_append.mp hc with hc | hc
  · rcases mem_join_sep hc with hc | ⟨w, hw1, hc⟩
    · rw [List.mem_singleton.mp hc]; decide
    · exact is_plain_not_nul (hw w hw1 c hc)
  · simp only [List.mem_flatten, List.mem_map, List.mem_reverse] at hc
    obtain ⟨l, ⟨r, hr, rfl⟩, hc⟩ := hc
    unfold serialize_redir at hc
    rcases List.mem_cons.mp hc with rfl | hc
    · decide
    · rcases List.mem_append.mp hc with hc | hc
      · cases hrt : r.type <;> rw [hrt] at hc <;> simp [redir_op] at hc
        · rw [hc]; decide
        · rw [hc]; decide
        · rw [hc]; decide
      · rcases List.mem_cons.mp hc with rfl | hc
        · decide
        · exact is_plain_not_nul (hf r hr c hc)

theorem serialize_pipeline_no_nul (p : List command_t)
    (hpl : ∀ st ∈ p, (∀ w ∈ st.argv, ∀ c ∈ w, is_plain c = true) ∧
      (∀ r ∈ st.redirs, ∀ c ∈ r.filename, is_plain c = true)) :
    ∀ c ∈ serialize_pipeline p, c ≠ Char.ofNat 0 := by
  intro c hc
  unfold serialize_pipeline at hc
  rcases List.mem_append.mp hc with hc | hc
  · rcases mem_join_sep hc with hc | ⟨x, hx, hc⟩
    · simp only [List.mem_cons, List.mem_singleton, List.not_mem_nil, or_false] at hc
      rcases hc with rfl | rfl | rfl <;> decide
    · obtain ⟨st, hst, rfl⟩ := List.mem_map.mp hx
      exact serialize_stage_no_nul st (hpl st hst).1 (hpl st hst).2 c hc
  · split at hc
    · split at hc
      · simp only [List.mem_cons, List.mem_singleton, List.not_mem_nil, or_false] at hc
        rcases hc with rfl | rfl <;> decide
      · simp at hc
    · simp at hc

theorem serialize_no_nul (g : List (List command_t)) (hpl : graph_plain g) :
    Char.ofNat 0 ∉ serialize g := by
  intro hc
  unfold serialize at hc
  rcases mem_join_sep hc with hc | ⟨x, hx, hc⟩
  · revert hc; decide
  · obtain ⟨p, hp, rfl⟩ := List.mem_map.mp hx
    exact serialize_pipeline_no_nul p (hpl p hp) _ hc rfl

theorem seq_loop_ne_nil (b n : Nat) : ∀ {s : List Char} {seq g : List (List command_t)},
    seq_loop b n s seq = some (some g) → g ≠ [] := by
  induction n with
  | zero => intro s seq g h; simp [seq_loop] at h
  | succ n ih =>
    intro s seq g h
    rcases seq_loop_inv h with ⟨_, hg⟩ | ⟨s2, _, _, hrec⟩ | ⟨st, sts, s2, _, _, hrec⟩
    · cases seq with
      | nil => simp [seq_head] at hg
      | cons p0 ps =>
        simp only [seq_head, Option.some.injEq] at hg
        rw [← hg]; simp
    · exact ih hrec
    · exact ih hrec

theorem parse_line_wf {b : Nat} {line : List Char} {g : List (List command_t)}
    (h : parse_line b line = some (some g)) : g ≠ [] ∧ graph_wf g := by
  refine ⟨seq_loop_ne_nil b b h, ?_⟩
  intro p hp
  obtain ⟨s1, stages, s2, _, hpl, hne, rfl⟩ := parse_line_origin h p hp
  have hwf := pipeline_loop_wf b b hpl (by simp)
  refine ⟨?_, ?_, ?_⟩
  · simpa [set_background] using hne
  · intro st hst
    obtain ⟨c0, hc0, ha, hr, _⟩ := mem_set_background hst
    have := (hwf c0 hc0).1
    unfold stage_wf at this ⊢
    rw [ha, hr]
    exact this
  · intro st hst st2 hst2
    obtain ⟨_, _, _, _, h1⟩ := mem_set_background hst
    obtain ⟨_, _, _, _, h2⟩ := mem_set_background hst2
    rw [h1, h2]

theorem pipeline_budget_le_graph_budget (g : List (List command_t)) :
    ∀ p ∈ g, pipeline_budget p ≤ (g.map pipeline_budget).sum := by
  induction g with
  | nil => intro p hp; simp at hp
  | cons q g ih =>
    intro p hp
    simp only [List.map_cons, List.sum_cons]
    rcases List.mem_cons.mp hp with rfl | hp
    · omega
    · have := ih p hp; omega

/-- The canonical form of a well-formed graph of plain words parses to the
graph. -/
theorem parse_line_serialize (g : List (List command_t)) (hne : g ≠ []) (hwf : graph_wf g)
    (hpl : graph_plain g) (b : Nat) (hb : graph_budget g ≤ b) :
    parse_line b (serialize g) = some (some g) := by
  unfold parse_line
  rw [c_str_id _ (serialize_no_nul g hpl)]
  have hbg : b = (b - g.length - 1) + g.length + 1 := by
    unfold graph_budget at hb; omega
  have := seq_loop_serialize b g hwf hpl
    (fun p hp => by
      have := pipeline_budget_le_graph_budget g p hp
      unfold graph_budget at hb; omega)
    (b - g.length - 1) []
  rw [← hbg, List.nil_append] at this
  rw [this]
  cases g with
  | nil => exact absurd rfl hne
  | cons p g => rfl

/-- C9 (as stated, refuted): the line `'a b'` is accepted and parses to one
stage with the single argument `a b`; the canonical form of that graph is
`a b`, which parses to one stage with the two arguments `a` and `b`. -/
theorem roundtrip_counterexample :
    parse_line 2 "'a b'".toList =
      some (some [[{ argv := ["a b".toList], redirs := [], background := false }]]) ∧
    serialize [[{ argv := ["a b".toList], redirs := [], background := false }]] =
      "a b".toList ∧
    parse_line 3 (serialize [[{ argv := ["a b".toList], redirs := [], background := false }]]) =
      some (some [[{ argv := ["a".toList, "b".toList], redirs := [],
                     background := false }]]) := by
  decide

/-- C9 (amended): for every line that `parse_line` accepts and whose graph
has only plain characters (no whitespace, none of `| & ; < >`, no quote, no
backslash) in its arguments and redirection filenames, parsing the canonical
form of the graph terminates and yields the same graph. -/
theorem parse_serialize_roundtrip (budget : Nat) (line : List Char)
    (g : List (List command_t)) (h : parse_line budget line = some (some g))
    (hpl : graph_plain g) (b : Nat) (hb : graph_budget g ≤ b) :
    parse_line b (serialize g) = some (some g) :=
  parse_line_serialize g (parse_line_wf h).1 (parse_line_wf h).2 hpl b hb

theorem parse_serialize_roundtrip_witness :
    parse_line 6 "cat  a< in >out|wc -l >> log &;ls".toList =
      some (some
        [[{ argv := ["cat".toList, "a".toList],
            redirs := [{ type := .REDIR_OUT, filename := "out".toList },
                       { type := .REDIR_IN, filename := "in".toList }],
            background := true },
          { argv := ["wc".toList, "-l".toList],
            redirs := [{ type := .REDIR_APPEND, filename := "log".toList }],
            background := true }],
         [{ argv := ["ls".toList], redirs := [], background := false }]]) ∧
    serialize
        [[{ argv := ["cat".toList, "a".toList],
            redirs := [{ type := .REDIR_OUT, filename := "out".toList },
                       { type := .REDIR_IN, filename := "in".toList }],
            background := true },
          { argv := ["wc".toList, "-l".toList],
            redirs := [{ type := .REDIR_APPEND, filename := "log".toList }],
            background := true }],
         [{ argv := ["ls".toList], redirs := [], background := false }]] =
      "cat a < in > out | wc -l >> log & ; ls".toList ∧
    parse_line 17 (serialize
        [[{ argv := ["cat".toList, "a".toList],
            redirs := [{ type := .REDIR_OUT, filename := "out".toList },
                       { type := .REDIR_IN, filename := "in".toList }],
            background := true },
          { argv := ["wc".toList, "-l".toList],
            redirs := [{ type := .REDIR_APPEND, filename := "log".toList }],
            background := true }],
         [{ argv := ["ls".toList], redirs := [], background := false }]]) =
      some (some
        [[{ argv := ["cat".toList, "a".toList],
            redirs := [{ type := .REDIR_OUT, filename := "out".toList },
                       { type := .REDIR_IN, filename := "in".toList }],
            background := true },
          { argv := ["wc".toList, "-l".toList],
            redirs := [{ type := .REDIR_APPEND, filename := "log".toList }],
            background := true }],
         [{ argv := ["ls".toList], redirs := [], background := false }]]) :=
  ⟨by decide, by decide,
    parse_serialize_roundtrip 6 "cat  a< in >out|wc -l >> log &;ls".toList _ (by decide)
      (by unfold graph_plain; decide) 17 (by decide)⟩

/-! ## history.c: the cap, the reference of `history_add`, the cursor -/

theorem history_load_le (lines : List (List Char)) :
    ∀ history : List (List Char), history.length ≤ HISTORY_MAX →
      (history_load lines history).length ≤ HISTORY_MAX := by
  induction lines with
  | nil => intro history h; simpa [history_load] using h
  | cons line rest ih =>
    intro history h
    unfold history_load
    by_cases hlt : history.length < HISTORY_MAX
    · simp only [hlt, if_true]
      by_cases h1 : (c_str line).length > 1
      · simp only [h1, if_true]
        apply ih
        simp only [List.length_append, List.length_singleton]
        omega
      · simp only [h1, if_false]
        exact ih history h
    · simp only [hlt, if_false]
      exact h

theorem history_add_le (h : history_t) (line : List Char)
    (hle : h.history.length ≤ HISTORY_MAX) :
    (history_add h line).history.length ≤ HISTORY_MAX := by
  unfold history_add
  split
  · exact hle
  · split
    · exact hle
    · simp only [List.length_append, List.length_singleton]
      split
      · simp only [List.length_take, List.length_drop, HISTORY_MAX]
        omega
      · omega

theorem history_init_le (file : Option (List (List Char))) :
    (history_init file).history.length ≤ HISTORY_MAX := by
  cases file with
  | none => simp [history_init]
  | some lines => exact history_load_le lines [] (by simp)

theorem history_adds_le (lines : List (List Char)) :
    ∀ h : history_t, h.history.length ≤ HISTORY_MAX →
      (lines.foldl history_add h).history.length ≤ HISTORY_MAX := by
  induction lines with
  | nil => intro h hle; exact hle
  | cons line rest ih =>
    intro h hle
    exact ih (history_add h line) (history_add_le h line hle)

/-- Claim C13: in every state reached from `history_init`, on a history file
of any length or none, by any sequence of `history_add` calls, the number of
entries is between 0 and 1000. -/
theorem history_never_exceeds_cap (file : Option (List (List Char)))
    (lines : List (List Char)) :
    0 ≤ (lines.foldl history_add (history_init file)).history.length ∧
      (lines.foldl history_add (history_init file)).history.length ≤ 1000 :=
  ⟨Nat.zero_le _, history_adds_le lines (history_init file) (history_init_le file)⟩

/-- Claim C14: on a store within its cap, the entries after `history_add` are
those of the reference: unchanged when the line is empty or repeats the most
recent entry, otherwise the old entries, without the oldest when there were
1000, followed by the line; a line that is not empty is the most recent
entry afterwards. -/
theorem history_add_matches_reference (h : history_t) (line : List Char)
    (hcap : h.history.length ≤ HISTORY_MAX) :
    (history_add h line).history = history_add_spec h.history line ∧
      (line ≠ [] → (history_add h line).history.getLast? = some line) := by
  unfold history_add history_add_spec
  by_cases h1 : line = []
  · simp [h1]
  · by_cases h2 : h.history.getLast? = some line
    · have hpos : h.history.length > 0 := by
        cases hh : h.history with
        | nil => rw [hh] at h2; simp at h2
        | cons a l => simp
      simp [h1, h2, hpos]
    · have hn : ¬ (h.history.length > 0 ∧ h.history.getLast? = some line) :=
        fun hc => h2 hc.2
      simp only [h1, h2, hn, if_false, false_or]
      by_cases h3 : h.history.length ≥ HISTORY_MAX
      · have h4 : h.history.length = HISTORY_MAX := le_antisymm hcap h3
        have h5 : (h.history.drop 1).take (HISTORY_MAX - 1) = h.history.tail := by
          rw [List.drop_one]
          apply List.take_of_length_le
          simp [h4]
        simp [h3, h4, h5]
      · have h4 : ¬ h.history.length = HISTORY_MAX := by omega
        simp [h3, h4]

/-- Witness for C14: one entry, a new line. -/
theorem history_add_matches_reference_witness :
    (history_add { history := [['l', 's']], history_current := 0 } ['p', 'w', 'd']).history
        = history_add_spec [['l', 's']] ['p', 'w', 'd'] ∧
      (['p', 'w', 'd'] ≠ [] →
        (history_add { history := [['l', 's']], history_current := 0 }
          ['p', 'w', 'd']).history.getLast? = some ['p', 'w', 'd']) :=
  history_add_matches_reference { history := [['l', 's']], history_current := 0 }
    ['p', 'w', 'd'] (by decide)

/-- Counterexample to C15 as stated: after `ls` is entered once and recalled
with the up arrow (`history_get(1)` leaves the cursor at 0), `history_add` of
the same, non-empty line returns at the test for a repetition of the most
recent entry, which changes nothing: the cursor is still 0, not -1. -/
theorem history_add_repeat_keeps_cursor :
    history_get (history_add (history_init none) ['l', 's']) 1
        = (some ['l', 's'], { history := [['l', 's']], history_current := 0 }) ∧
      (history_add { history := [['l', 's']], history_current := 0 }
        ['l', 's']).history_current = 0 ∧
      ['l', 's'] ≠ ([] : List Char) := by
  decide

/-- Claim C15, amended: for every history state, also one where the cursor
stands on an entry, and every non-empty line: when the line does not repeat
the most recent entry, the browse cursor is unset (-1) after `history_add`;
when it does repeat it, `history_add` changes nothing, so the cursor keeps
its value. -/
theorem history_add_unsets_cursor (h : history_t) (line : List Char) (hne : line ≠ []) :
    (h.history.getLast? ≠ some line → (history_add h line).history_current = -1) ∧
      (h.history.getLast? = some line → history_add h line = h) := by
  unfold history_add
  refine ⟨?_, ?_⟩
  · intro hnew
    have hn : ¬ (h.history.length > 0 ∧ h.history.getLast? = some line) := fun hc => hnew hc.2
    simp only [hne, hn, if_false]
  · intro hrep
    have hpos : h.history.length > 0 := by
      cases hh : h.history with
      | nil => rw [hh] at hrep; simp at hrep
      | cons a l => simp
    simp only [hne, if_false, hpos, hrep, and_self, if_true]

/-- Witness for C15: one entry, the cursor on it, and a new line. -/
theorem history_add_unsets_cursor_witness :
    (history_add { history := [['l', 's']], history_current := 0 }
      ['p', 'w', 'd']).history_current = -1 :=
  (history_add_unsets_cursor { history := [['l', 's']], history_current := 0 }
    ['p', 'w', 'd'] (by decide)).1 (by decide)

/-- Counterexample to C16 as stated: with one entry and the cursor unset,
`history_get(-1)` returns absence and leaves the cursor at 1, the number of
entries, not at -1. -/
theorem history_get_newer_not_unset :
    history_get { history := [['a']], history_current := -1 } (-1)
        = (none, { history := [['a']], history_current := 1 }) ∧
      (history_get { history := [['a']], history_current := -1 } (-1)).2.history_current
        ≠ -1 := by
  decide

/-- Claim C16, amended: with the cursor unset or between 0 and the number of
entries, and `pos` the position it stands for (the number of entries when
unset): `history_get(+1)` returns the entry at `pos - 1` and moves the
cursor there, or returns absence with the state unchanged when `pos` is 0;
`history_get(-1)` returns the entry at `pos + 1` and moves the cursor there,
or, when no entry is newer, returns absence and leaves the cursor at the
number of entries, which is the position unset stands for; on an empty
history both return absence and change nothing. -/
theorem history_get_navigates (h : history_t)
    (hinv : h.history_current = -1 ∨
      (0 ≤ h.history_current ∧ h.history_current ≤ h.history.length)) :
    (h.history = [] → ∀ direction, history_get h direction = (none, h)) ∧
    (h.history ≠ [] → 0 < history_position h →
      ∃ e, h.history[(history_position h - 1).toNat]? = some e ∧
        history_get h 1 = (some e, { h with history_current := history_position h - 1 })) ∧
    (h.history ≠ [] → history_position h = 0 → history_get h 1 = (none, h)) ∧
    (h.history ≠ [] → history_position h + 1 < h.history.length →
      ∃ e, h.history[(history_position h + 1).toNat]? = some e ∧
        history_get h (-1) = (some e, { h with history_current := history_position h + 1 })) ∧
    (h.history ≠ [] → h.history.length ≤ history_position h + 1 →
      history_get h (-1) = (none, { h with history_current := h.history.length }) ∧
        history_position (history_get h (-1)).2 = history_position (history_reset_browse h)) := by
  obtain ⟨history, cur⟩ := h
  simp only at hinv
  have hpos : 0 ≤ history_position ⟨history, cur⟩ ∧
      history_position ⟨history, cur⟩ ≤ history.length := by
    unfold history_position
    simp only
    split <;> omega
  refine ⟨?_, ?_, ?_, ?_, ?_⟩
  · intro he direction
    simp only at he
    simp [history_get, he]
  · intro hne hp
    simp only at hne
    have hlen : history.length ≠ 0 := by simpa using hne
    have hlt : (history_position ⟨history, cur⟩ - 1).toNat < history.length := by omega
    refine ⟨history[(history_position ⟨history, cur⟩ - 1).toNat], ?_, ?_⟩
    · exact List.getElem?_eq_getElem hlt
    · unfold history_position at hp hlt ⊢
      simp only at hp hlt ⊢
      simp only [history_get, hlen, if_false]
      simp only [show (1 : Int) > 0 by decide, if_true, gt_iff_lt, hp]
      rw [List.getElem?_eq_getElem hlt]
  · intro hne hp
    simp only at hne
    have hlen : history.length ≠ 0 := by simpa using hne
    unfold history_position at hp
    simp only at hp
    have hcur : cur = 0 := by
      by_cases hc : cur = -1
      · rw [if_pos hc] at hp; omega
      · rw [if_neg hc] at hp; exact hp
    subst hcur
    simp [history_get, hlen]
  · intro hne hp
    simp only at hne hp
    have hlen : history.length ≠ 0 := by simpa using hne
    have hlt : (history_position ⟨history, cur⟩ + 1).toNat < history.length := by omega
    refine ⟨history[(history_position ⟨history, cur⟩ + 1).toNat], ?_, ?_⟩
    · exact List.getElem?_eq_getElem hlt
    · unfold history_position at hp hlt ⊢
      simp only at hp hlt ⊢
      have hp2 : (if cur = -1 then (history.length : Int) else cur) < (history.length : Int) - 1 := by
        omega
      simp only [history_get, hlen, if_false]
      simp only [show ¬ ((-1 : Int) > 0) by decide, if_false, hp2, if_true]
      rw [List.getElem?_eq_getElem hlt]
  · intro hne hp
    simp only at hne hp
    have hlen : history.length ≠ 0 := by simpa using hne
    unfold history_position at hp
    simp only at hp
    have hp2 : ¬ (if cur = -1 then (history.length : Int) else cur) < (history.length : Int) - 1 := by
      omega
    have hg : history_get ⟨history, cur⟩ (-1) = (none, ⟨history, history.length⟩) := by
      simp only [history_get, hlen, if_false]
      simp only [show ¬ ((-1 : Int) > 0) by decide, if_false, hp2]
    refine ⟨hg, ?_⟩
    rw [hg]
    simp only [history_position, history_reset_browse]
    have : ¬ ((history.length : Int) = -1) := by omega
    simp [this]

/-- Witness for C16: two entries, the cursor at the newer one. -/
theorem history_get_navigates_witness :
    history_get { history := [['a'], ['b']], history_current := 1 } 1
        = (some ['a'], { history := [['a'], ['b']], history_current := 0 }) ∧
      history_get { history := [['a'], ['b']], history_current := 1 } (-1)
        = (none, { history := [['a'], ['b']], history_current := 2 }) := by
  have h := history_get_navigates { history := [['a'], ['b']], history_current := 1 }
    (Or.inr (by decide))
  refine ⟨?_, ?_⟩
  · obtain ⟨e, he, hg⟩ := h.2.1 (by decide) (by decide)
    rw [hg]
    have : e = ['a'] := by
      have h2 : ([['a'], ['b']] : List (List Char))[(history_position
          { history := [['a'], ['b']], history_current := 1 } - 1).toNat]? = some ['a'] := by
        decide
      rw [h2] at he
      exact (Option.some.inj he).symm
    subst this
    decide
  · exact (h.2.2.2.2 (by decide) (by decide)).1

/-! ## aliases.c: `alias_set` on the tables the shell can hold -/

theorem alias_get_none_iff (l : List (List Char × List Char)) (name : List Char) :
    alias_get l name = none ↔ name ∉ l.map Prod.fst := by
  induction l with
  | nil => simp [alias_get]
  | cons a rest ih =>
    unfold alias_get
    by_cases h : a.1 = name
    · simp [h]
    · have h2 : ¬ name = a.1 := fun e => h e.symm
      simp only [h, if_false, ih, List.map_cons, List.mem_cons, h2, false_or]

theorem alias_unlink_none_iff (l : List (List Char × List Char)) (name : List Char) :
    alias_unlink l name = none ↔ name ∉ l.map Prod.fst := by
  induction l with
  | nil => simp [alias_unlink]
  | cons a rest ih =>
    unfold alias_unlink
    by_cases h : a.1 = name
    · simp [h]
    · have h2 : ¬ name = a.1 := fun e => h e.symm
      simp only [h, if_false, List.map_cons, List.mem_cons, h2, false_or]
      rw [← ih]
      cases alias_unlink rest name <;> simp

theorem alias_unlink_some (l : List (List Char × List Char)) (name : List Char) :
    ∀ l1, alias_unlink l name = some l1 →
      l.length = l1.length + 1 ∧
      (∀ other, other ≠ name → alias_get l1 other = alias_get l other) ∧
      (∀ n, n ∈ l1.map Prod.fst → n ∈ l.map Prod.fst) ∧
      ((l.map Prod.fst).Nodup → (l1.map Prod.fst).Nodup ∧ name ∉ l1.map Prod.fst) := by
  induction l with
  | nil => intro l1 h; simp [alias_unlink] at h
  | cons a rest ih =>
    intro l1 h
    unfold alias_unlink at h
    by_cases ha : a.1 = name
    · simp only [ha, if_true, Option.some.injEq] at h
      subst h
      refine ⟨rfl, ?_, ?_, ?_⟩
      · intro other ho
        have : ¬ a.1 = other := fun e => ho (e ▸ ha ▸ rfl)
        simp [alias_get, this]
      · intro n hn
        simp only [List.map_cons, List.mem_cons]
        exact Or.inr hn
      · intro hnd
        simp only [List.map_cons, List.nodup_cons] at hnd
        exact ⟨hnd.2, ha ▸ hnd.1⟩
    · simp only [ha, if_false] at h
      cases hu : alias_unlink rest name with
      | none => rw [hu] at h; simp at h
      | some l2 =>
        rw [hu] at h
        simp only [Option.some.injEq] at h
        subst h
        obtain ⟨h1, h2, h3, h4⟩ := ih l2 hu
        refine ⟨by simp [h1], ?_, ?_, ?_⟩
        · intro other ho
          simp only [alias_get, h2 other ho]
        · intro n hn
          simp only [List.map_cons, List.mem_cons] at hn ⊢
          rcases hn with hn | hn
          · exact Or.inl hn
          · exact Or.inr (h3 n hn)
        · intro hnd
          simp only [List.map_cons, List.nodup_cons] at hnd ⊢
          obtain ⟨h5, h6⟩ := h4 hnd.2
          refine ⟨⟨fun hm => hnd.1 (h3 _ hm), h5⟩, ?_⟩
          simp only [List.mem_cons, not_or]
          exact ⟨fun e => ha e.symm, h6⟩

theorem alias_unset_inv (t : alias_table_t) (name : List Char) (h : alias_table_inv t) :
    alias_table_inv (alias_unset t name) := by
  unfold alias_unset
  cases hu : alias_unlink t.aliases name with
  | none => exact h
  | some l1 =>
    obtain ⟨h1, _, _, h4⟩ := alias_unlink_some t.aliases name l1 hu
    obtain ⟨hc, hle, hnd⟩ := h
    refine ⟨?_, ?_, (h4 hnd).1⟩
    · simp only; omega
    · simp only; omega

theorem alias_set_inv (t : alias_table_t) (name value : List Char) (h : alias_table_inv t) :
    alias_table_inv (alias_set t name value) := by
  have h1 := alias_unset_inv t name h
  unfold alias_set
  simp only
  by_cases hc : (alias_unset t name).alias_count ≥ ALIAS_MAX
  · simp only [hc, if_true]; exact h1
  · simp only [hc, if_false]
    obtain ⟨hcount, hle, hnd⟩ := h1
    refine ⟨?_, ?_, ?_⟩
    · simp only [List.length_cons]; omega
    · simp only; omega
    · simp only [List.map_cons, List.nodup_cons]
      refine ⟨?_, hnd⟩
      unfold alias_unset
      cases hu : alias_unlink t.aliases name with
      | none => simpa using (alias_unlink_none_iff t.aliases name).1 hu
      | some l1 => exact ((alias_unlink_some t.aliases name l1 hu).2.2.2 h.2.2).2

theorem alias_reachable_inv (t : alias_table_t) (h : alias_reachable t) :
    alias_table_inv t := by
  induction h with
  | empty => simp [alias_table_inv, alias_table_empty, ALIAS_MAX]
  | set t name value _ ih => exact alias_set_inv t name value ih
  | unset t name _ ih => exact alias_unset_inv t name ih

/-- Claim C12: for every table the shell can hold, if it has fewer than 100
entries or holds the name, then after `alias_set` `alias_get` of the name is
the new value, the chain has exactly one entry with the name and `alias_get`
of every other name is as before; if it has 100 entries and none with the
name, `alias_set` changes nothing; the table has at most 100 entries
afterwards. -/
theorem alias_set_last_write_wins (t : alias_table_t) (name value : List Char)
    (hr : alias_reachable t) :
    ((t.aliases.length < 100 ∨ name ∈ t.aliases.map Prod.fst) →
      alias_get (alias_set t name value).aliases name = some value ∧
      alias_entries (alias_set t name value) name = 1 ∧
      ∀ other, other ≠ name →
        alias_get (alias_set t name value).aliases other = alias_get t.aliases other) ∧
    ((t.aliases.length = 100 ∧ name ∉ t.aliases.map Prod.fst) →
      alias_set t name value = t) ∧
    (alias_set t name value).aliases.length ≤ 100 := by
  have hinv := alias_reachable_inv t hr
  have hinv2 := alias_set_inv t name value hinv
  refine ⟨?_, ?_, ?_⟩
  · intro hpre
    have hlt : ¬ (alias_unset t name).alias_count ≥ ALIAS_MAX := by
      unfold alias_unset
      cases hu : alias_unlink t.aliases name with
      | none =>
        have hn := (alias_unlink_none_iff t.aliases name).1 hu
        rcases hpre with hp | hp
        · simp only [ALIAS_MAX, hinv.1]; omega
        · exact absurd hp hn
      | some l1 =>
        have := hinv.2.1
        simp only [ALIAS_MAX] at this ⊢
        omega
    have hother : ∀ other, other ≠ name →
        alias_get (alias_unset t name).aliases other = alias_get t.aliases other := by
      intro other ho
      unfold alias_unset
      cases hu : alias_unlink t.aliases name with
      | none => rfl
      | some l1 => exact (alias_unlink_some t.aliases name l1 hu).2.1 other ho
    have hnot : name ∉ (alias_unset t name).aliases.map Prod.fst := by
      unfold alias_unset
      cases hu : alias_unlink t.aliases name with
      | none => exact (alias_unlink_none_iff t.aliases name).1 hu
      | some l1 => exact ((alias_unlink_some t.aliases name l1 hu).2.2.2 hinv.2.2).2
    have hset : alias_set t name value =
        { aliases := (name, value) :: (alias_unset t name).aliases,
          alias_count := (alias_unset t name).alias_count + 1 } := by
      unfold alias_set
      simp only [hlt, if_false]
    rw [hset]
    refine ⟨by simp [alias_get], ?_, ?_⟩
    · simp only [alias_entries, List.filter_cons, decide_True, if_true, List.length_cons]
      have : (alias_unset t name).aliases.filter (fun a => decide (a.1 = name)) = [] := by
        rw [List.filter_eq_nil_iff]
        intro a ha hd
        apply hnot
        simp only [decide_eq_true_eq] at hd
        exact List.mem_map.2 ⟨a, ha, hd⟩
      rw [this]
      rfl
    · intro other ho
      have : ¬ name = other := fun e => ho e.symm
      simp only [alias_get, this, if_false]
      exact hother other ho
  · rintro ⟨hlen, hn⟩
    have hu := (alias_unlink_none_iff t.aliases name).2 hn
    unfold alias_set alias_unset
    simp only [hu]
    have : t.alias_count ≥ ALIAS_MAX := by
      simp only [ALIAS_MAX, hinv.1]; omega
    simp only [this, if_true]
  · have h1 := hinv2.1
    have h2 := hinv2.2.1
    simp only [ALIAS_MAX] at h2
    omega

/-- Witness for C12: the table after `alias ll=ls`, and `alias_set` of the
same name. -/
theorem alias_set_last_write_wins_witness :
    alias_get (alias_set (alias_set alias_table_empty ['l', 'l'] ['l', 's'])
        ['l', 'l'] ['l', 's', ' ', '-', 'l']).aliases ['l', 'l']
      = some ['l', 's', ' ', '-', 'l'] :=
  ((alias_set_last_write_wins (alias_set alias_table_empty ['l', 'l'] ['l', 's'])
    ['l', 'l'] ['l', 's', ' ', '-', 'l']
    (alias_reachable.set _ _ _ alias_reachable.empty)).1 (Or.inl (by decide))).1

/-! ## aliases.c: what `alias_expand` leaves in place -/

theorem has_glob_chars_file_part (arg : List Char)
    (h : has_glob_chars (glob_file_part arg) = true) : has_glob_chars arg = true := by
  have key : ∀ (a : List Char) (d f : List Char), split_last_slash a = some (d, f) →
      ∀ c ∈ f, c ∈ a := by
    intro a
    induction a with
    | nil => intro d f hs; simp [split_last_slash] at hs
    | cons x s ih =>
      intro d f hs c hc
      unfold split_last_slash at hs
      cases hr : split_last_slash s with
      | none =>
        rw [hr] at hs
        simp only at hs
        split at hs
        · simp only [Option.some.injEq, Prod.mk.injEq] at hs
          rw [← hs.2] at hc
          exact List.mem_cons_of_mem _ hc
        · simp at hs
      | some df =>
        obtain ⟨d1, f1⟩ := df
        rw [hr] at hs
        simp only [Option.some.injEq, Prod.mk.injEq] at hs
        rw [← hs.2] at hc
        exact List.mem_cons_of_mem _ (ih d1 f1 hr c hc)
  unfold glob_file_part at h
  cases hs : split_last_slash arg with
  | none => rw [hs] at h; exact h
  | some df =>
    obtain ⟨d, f⟩ := df
    rw [hs] at h
    simp only [has_glob_chars, List.any_eq_true] at h ⊢
    obtain ⟨c, hc, hp⟩ := h
    exact ⟨c, key arg d f hs c hc, hp⟩

theorem complete_input_result_le_one (env : comp_env_t) (line : List Char) (cursor : Nat)
    (list_pos : Int) :
    (complete_input env line cursor list_pos).result = 0 ∨
      (complete_input env line cursor list_pos).result = 1 := by
  unfold complete_input
  simp only
  split_ifs <;> first | exact Or.inl rfl | exact Or.inr rfl

/-- Claim C18, the failing input: the line `e` with the cursor after it has
the three candidates `echo`, `exit`, `export` (the built-in names, no
directory being readable). On the first invocation `complete_input` prints
the three, stores `echo`, and returns 0; while cycling (index 0) it stores
`exit` and returns 0. The claim says 3 in both cases. -/
theorem complete_input_returns_zero_for_several :
    complete_input no_files_env.comp ['e'] 1 (-1)
        = { result := 0, completion := some ['e', 'c', 'h', 'o'], list_pos := 0,
            shown := some [['e', 'c', 'h', 'o'], ['e', 'x', 'i', 't'],
                           ['e', 'x', 'p', 'o', 'r', 't']] } ∧
      complete_input no_files_env.comp ['e'] 1 0
        = { result := 0, completion := some ['e', 'x', 'i', 't'], list_pos := 1,
            shown := none } := by
  decide

/-- Claim C19, the failing input: the keys `e`, tab, tab, tab, tab on an
empty buffer. The word `e` has the three candidates `echo`, `exit`,
`export`. After the first tab and after each further tab the buffer is still
`e` with the cursor at 1; only the completion index moves (0, 1, 2, 0). The
claim says the buffer is `exit` after the first further tab. -/
theorem tab_cycling_leaves_buffer :
    editor_run no_files_env 2 editor_start [101, 9, 9, 9, 9]
        = some { editor_start with line := ['e'], cap := 64, cursor := 1,
                                   completion_list_pos := 0, raw_mode := false } ∧
      editor_run no_files_env 3 editor_start [101, 9, 9, 9, 9]
        = some { editor_start with line := ['e'], cap := 64, cursor := 1,
                                   completion_list_pos := 1, raw_mode := false } ∧
      editor_run no_files_env 4 editor_start [101, 9, 9, 9, 9]
        = some { editor_start with line := ['e'], cap := 64, cursor := 1,
                                   completion_list_pos := 2, raw_mode := false } ∧
      editor_run no_files_env 5 editor_start [101, 9, 9, 9, 9]
        = some { editor_start with line := ['e'], cap := 64, cursor := 1,
                                   completion_list_pos := 0, raw_mode := false } := by
  decide

/-- Claim C20, the failing inputs: after the keys `e` and tab the completion
index is 0; the left-arrow sequence (27, 91, 68), an unknown escape sequence
(27, 79) and an ignored control byte (1) are each handled without the
function returning, and the index is still 0 afterwards, not -1. A printable
key does reset it. -/
theorem arrow_key_keeps_completion_index :
    (editor_run no_files_env 2 editor_start [101, 9]).map (fun st => st.completion_list_pos)
        = some 0 ∧
      (editor_run no_files_env 3 editor_start [101, 9, 27, 91, 68]).map
        (fun st => st.completion_list_pos) = some 0 ∧
      (editor_run no_files_env 3 editor_start [101, 9, 27, 79]).map
        (fun st => st.completion_list_pos) = some 0 ∧
      (editor_run no_files_env 3 editor_start [101, 9, 1]).map
        (fun st => st.completion_list_pos) = some 0 ∧
      (editor_run no_files_env 3 editor_start [101, 9, 120]).map
        (fun st => st.completion_list_pos) = some (-1) := by
  decide

/-! ## parser.c: inputs on which `parse_line` does not return -/

theorem word_loop_never_at (c1 : Char) (t1 : List Char)
    (hsp : skip_space (c1 :: t1) = c1 :: t1) (h1 : is_sep c1 = false)
    (hlt : c1 ≠ '<') (hgt : c1 ≠ '>') (hw : parse_word (c1 :: t1) = none)
    (args : List (List Char)) (redirs : List redir_t) :
    ∀ n, word_loop n (c1 :: t1) args redirs = none := by
  intro n
  induction n with
  | zero => rfl
  | succ n ih => rw [word_loop_stuck n (c1 :: t1) hsp h1 hlt hgt hw]; exact ih

theorem pipeline_loop_never (b : Nat) (s : List Char) (stages : List command_t)
    (hw : word_loop b s [] [] = none) : ∀ n, pipeline_loop b n s stages = none := by
  intro n
  cases n with
  | zero => rfl
  | succ n => rw [pipeline_loop]; simp only [hw]

theorem seq_loop_never (b : Nat) (s : List Char) {c1 : Char} {t1 : List Char}
    (hs : skip_space s = c1 :: t1) (hp : pipeline_loop b b (c1 :: t1) [] = none)
    (seq : List (List command_t)) : ∀ n, seq_loop b n s seq = none := by
  intro n
  cases n with
  | zero => rfl
  | succ n => rw [seq_loop]; simp only [hs, hp]

theorem parse_line_stuck_word (line : List Char) (c1 : Char) (t1 : List Char)
    (hc : skip_space (c_str line) = c1 :: t1)
    (hsp : skip_space (c1 :: t1) = c1 :: t1) (h1 : is_sep c1 = false)
    (hlt : c1 ≠ '<') (hgt : c1 ≠ '>') (hw : parse_word (c1 :: t1) = none) :
    ∀ budget, parse_line budget line = none := by
  intro budget
  unfold parse_line
  exact seq_loop_never budget (c_str line) hc
    (pipeline_loop_never budget (c1 :: t1) []
      (word_loop_never_at c1 t1 hsp h1 hlt hgt hw [] [] budget) budget) [] budget

theorem seq_loop_stuck_at_amp (b n : Nat) (t : List Char) (seq : List (List command_t)) :
    seq_loop b n ('&' :: t) seq = none := by
  induction n with
  | zero => rfl
  | succ n ih =>
    have hs : skip_space ('&' :: t) = '&' :: t := skip_space_of_sep (by decide) t
    cases b with
    | zero =>
      rw [seq_loop]
      simp only [hs, pipeline_loop]
    | succ m =>
      have hw : word_loop (m + 1) ('&' :: t) [] [] = some (some ([], [], '&' :: t)) := by
        rw [word_loop_end m ('&' :: t) (by rw [hs]; rfl), hs]
      have hp : pipeline_loop (m + 1) (m + 1) ('&' :: t) [] = some (some ([], '&' :: t)) := by
        rw [pipeline_loop_last (m + 1) m ('&' :: t) [] hw (by rw [hs]; intro s3; simp), hs]
        rfl
      rw [seq_loop_skip (m + 1) n ('&' :: t) hs hp]
      exact ih

theorem parse_line_stuck_after_first (line : List Char) (c1 : Char) (t1 : List Char)
    (st : command_t) (s2 : List Char)
    (hc : skip_space (c_str line) = c1 :: t1)
    (hp : pipeline_loop 2 2 (c1 :: t1) [] = some (some ([st], s2)))
    (hrest : (∃ t, take_semi (skip_space (take_amp (skip_space s2)).2) = ';' :: t) ∨
      (∃ t, take_semi (skip_space (take_amp (skip_space s2)).2) = '&' :: t)) :
    ∀ n, parse_line (n + 2) line = none := by
  intro n
  have hp2 : pipeline_loop (n + 2) (n + 2) (c1 :: t1) [] = some (some ([st], s2)) :=
    pipeline_loop_mono (Nat.le_add_left 2 n) 2 (Nat.le_add_left 2 n) hp
  unfold parse_line
  rw [seq_loop_link (n + 2) (n + 1) (c_str line) hc hp2]
  rcases hrest with ⟨t, ht⟩ | ⟨t, ht⟩
  · rw [ht]; exact seq_loop_stuck_at_semi _ _ _ _
  · rw [ht]; exact seq_loop_stuck_at_amp _ _ _ _

/-- Claim C29, the failing inputs: on the lines `;`, `&`, `ls ;; echo`,
`a && b`, `''`, `""` and a lone backslash `parse_line` does not return,
whatever the iteration budget. At a `;` or `&` that no pipeline precedes the
outer loop links no stage and repeats with the scan position unchanged; at an
empty quoted word or a trailing backslash `parse_word` returns `NULL` without
moving the scan position and the word loop repeats. -/
theorem parse_line_does_not_terminate :
    (∀ budget, parse_line budget [';'] = none) ∧
    (∀ budget, parse_line budget ['&'] = none) ∧
    (∀ budget, parse_line budget "ls ;; echo".toList = none) ∧
    (∀ budget, parse_line budget "a && b".toList = none) ∧
    (∀ budget, parse_line budget ['\'', '\''] = none) ∧
    (∀ budget, parse_line budget ['"', '"'] = none) ∧
    (∀ budget, parse_line budget ['\\'] = none) := by
  refine ⟨?_, ?_, ?_, ?_, ?_, ?_, ?_⟩
  · intro budget
    exact seq_loop_stuck_at_semi budget budget [] []
  · intro budget
    exact seq_loop_stuck_at_amp budget budget [] []
  · intro budget
    match budget with
    | 0 => rfl
    | 1 => decide
    | n + 2 =>
      exact parse_line_stuck_after_first "ls ;; echo".toList 'l' "s ;; echo".toList
        { argv := ["ls".toList], redirs := [], background := false } ";; echo".toList
        (by decide) (by decide) (Or.inl ⟨" echo".toList, by decide⟩) n
  · intro budget
    match budget with
    | 0 => rfl
    | 1 => decide
    | n + 2 =>
      exact parse_line_stuck_after_first "a && b".toList 'a' " && b".toList
        { argv := ["a".toList], redirs := [], background := false } "&& b".toList
        (by decide) (by decide) (Or.inr ⟨" b".toList, by decide⟩) n
  · exact parse_line_stuck_word _ '\'' ['\''] (by decide) (by decide) (by decide) (by decide)
      (by decide) (by decide)
  · exact parse_line_stuck_word _ '"' ['"'] (by decide) (by decide) (by decide) (by decide)
      (by decide) (by decide)
  · exact parse_line_stuck_word _ '\\' [] (by decide) (by decide) (by decide) (by decide)
      (by decide) (by decide)

/-! ## exec.c: redirections of a built-in on the path without `fork` -/

/-- Claim C30, the failing input: the graph of `echo hi > f ; echo there`,
every `open` and `dup2` succeeding. Both are foreground single-stage
built-ins, so `execute_commands` calls `setup_redirs` in the shell process
itself. After the first command has returned, the standard output of the
shell is bound to `f`, not to the inherited stream: `there`, the output of
the second command, is written to `f` as well, and the stream is still bound
to `f` when `execute_commands` returns. -/
theorem builtin_redirection_persists :
    execute_commands quiet_env
        [[{ argv := ["echo".toList, "hi".toList],
            redirs := [{ type := redir_type_t.REDIR_OUT, filename := ['f'] }],
            background := false }],
         [{ argv := ["echo".toList, "there".toList], redirs := [], background := false }]]
        { sh := { last_status := 0, running := true },
          io := { stdin := none, stdout := none, opened := [] }, out := [] } 0
      = (0, { sh := { last_status := 0, running := true },
              io := { stdin := none,
                      stdout := some { type := redir_type_t.REDIR_OUT, filename := ['f'] },
                      opened := [{ type := redir_type_t.REDIR_OUT, filename := ['f'] }] },
              out := [(some { type := redir_type_t.REDIR_OUT, filename := ['f'] },
                        "hi\n".toList),
                      (some { type := redir_type_t.REDIR_OUT, filename := ['f'] },
                        "there\n".toList)] }) ∧
      parse_line 5 "echo hi > f ; echo there".toList
        = some (some
          [[{ argv := ["echo".toList, "hi".toList],
              redirs := [{ type := redir_type_t.REDIR_OUT, filename := ['f'] }],
              background := false }],
           [{ argv := ["echo".toList, "there".toList], redirs := [],
              background := false }]]) := by
  decide

/-! ## jobs.c: which reaped process removes a job -/

/-- Counterexample to C28 as stated: the background pipeline `a | b &`, its
stages started with the pids 100 and 101, is registered as the job with
process-group id 100, and both stages are in group 100. When `waitpid`
returns 101, the second stage, `jobs_reap` calls `jobs_remove(101)`, which
finds no job with that id: the table still holds the job of group 100. -/
theorem jobs_reap_keeps_job_of_later_stage :
    (execute_pipeline
        [{ argv := [['a']], redirs := [], background := true },
         { argv := [['b']], redirs := [], background := true }]
        (fun i => { pipe_ok := true, pid := 100 + i }) []).2 = some (100, ['a']) ∧
      stage_groups [100, 101] = [100, 100] ∧
      jobs_reap [101] (jobs_add [] 100 ['a'] true) = jobs_add [] 100 ['a'] true ∧
      (∃ j ∈ jobs_reap [101] (jobs_add [] 100 ['a'] true), j.pgid = 100) := by
  decide

theorem jobs_remove_of_not_mem (jobs : List job_t) (pid : Int)
    (h : ∀ j ∈ jobs, j.pgid ≠ pid) : jobs_remove jobs pid = jobs := by
  induction jobs with
  | nil => rfl
  | cons j rest ih =>
    have hj : j.pgid ≠ pid := h j (List.mem_cons_self _ _)
    simp only [jobs_remove, hj, if_false, List.cons.injEq, true_and]
    exact ih (fun k hk => h k (List.mem_cons_of_mem _ hk))

theorem jobs_remove_keeps (jobs : List job_t) (pid : Int) (k : job_t) (hk : k ∈ jobs)
    (hne : k.pgid ≠ pid) : k ∈ jobs_remove jobs pid := by
  induction jobs with
  | nil => simp at hk
  | cons j rest ih =>
    unfold jobs_remove
    by_cases hj : j.pgid = pid
    · simp only [hj, if_true]
      rcases List.mem_cons.1 hk with rfl | hk2
      · exact absurd hj hne
      · exact hk2
    · simp only [hj, if_false]
      rcases List.mem_cons.1 hk with rfl | hk2
      · exact List.mem_cons_self _ _
      · exact List.mem_cons_of_mem _ (ih hk2)

theorem jobs_remove_leader (jobs : List job_t) (pid : Int)
    (h : (jobs.filter (fun j => decide (j.pgid = pid))).length ≤ 1) :
    ∀ j ∈ jobs_remove jobs pid, j.pgid ≠ pid := by
  induction jobs with
  | nil => intro j hj; simp [jobs_remove] at hj
  | cons j rest ih =>
    unfold jobs_remove
    by_cases hj : j.pgid = pid
    · simp only [hj, if_true]
      simp only [List.filter_cons, hj, decide_True, if_true, List.length_cons] at h
      have hnil : rest.filter (fun j => decide (j.pgid = pid)) = [] :=
        List.length_eq_zero.1 (by omega)
      intro k hk hkp
      have : k ∈ rest.filter (fun j => decide (j.pgid = pid)) :=
        List.mem_filter.2 ⟨hk, by simpa using hkp⟩
      rw [hnil] at this
      simp at this
    · simp only [hj, if_false]
      have h2 : (rest.filter (fun j => decide (j.pgid = pid))).length ≤ 1 := by
        simpa [List.filter_cons, hj] using h
      intro k hk
      rcases List.mem_cons.1 hk with rfl | hk2
      · exact hj
      · exact ih h2 k hk2

/-- Claim C28, amended: for every job table that holds at most one job with
process-group id G, after `jobs_reap` has handled a reaped process whose pid
is G (the group leader) the table has no entry for G; a reaped process whose
pid is the id of no job (a later stage of a pipeline) leaves the table as it
is; and in both cases every job with another id stays. -/
theorem jobs_reap_removes_leader (jobs : List job_t) (pid : Int) (hpid : 0 < pid) :
    ((jobs.filter (fun j => decide (j.pgid = pid))).length ≤ 1 →
      ∀ j ∈ jobs_reap [pid] jobs, j.pgid ≠ pid) ∧
    ((∀ j ∈ jobs, j.pgid ≠ pid) → jobs_reap [pid] jobs = jobs) ∧
    (∀ j ∈ jobs, j.pgid ≠ pid → j ∈ jobs_reap [pid] jobs) := by
  have hr : jobs_reap [pid] jobs = jobs_remove jobs pid := by
    simp [jobs_reap, hpid]
  rw [hr]
  exact ⟨jobs_remove_leader jobs pid, jobs_remove_of_not_mem jobs pid,
    fun j hj hne => jobs_remove_keeps jobs pid j hj hne⟩

/-- Witness for C28: two jobs, the leader of the first is reaped; the second
job stays. -/
theorem jobs_reap_removes_leader_witness :
    (jobs_reap [100] (jobs_add (jobs_add [] 200 ['b'] true) 100 ['a'] true)).all
        (fun j => decide (j.pgid ≠ 100)) = true ∧
      { pgid := 200, cmdline := ['b'], background := true } ∈
        jobs_reap [100] (jobs_add (jobs_add [] 200 ['b'] true) 100 ['a'] true) :=
  ⟨List.all_eq_true.2 (fun j hj => decide_eq_true
      ((jobs_reap_removes_leader (jobs_add (jobs_add [] 200 ['b'] true) 100 ['a'] true) 100
        (by decide)).1 (by decide) j hj)),
    (jobs_reap_removes_leader (jobs_add (jobs_add [] 200 ['b'] true) 100 ['a'] true) 100
      (by decide)).2.2 _ (by decide) (by decide)⟩

/-! ## loader.c: the header tests and the refusal of dynamic executables -/

/-- Counterexample to C24 as stated: a header whose magic, class, type,
machine and `e_phentsize` are all right, with `e_phnum` 0, is rejected: the
loader returns 127 before it reads a program header. -/
theorem header_without_program_headers_rejected :
    loader_run_elf
        { open_ok := true,
          header := some { e_ident := [127, 69, 76, 70, 2, 1, 1, 0, 0, 0, 0, 0, 0, 0, 0, 0],
                           e_type := 2, e_machine := 62, e_entry := 4198400, e_phoff := 64,
                           e_phentsize := 56, e_phnum := 0 },
          malloc_ok := true, lseek_ok := true, phdrs := some [], mmap_ok := fun _ => true,
          stack_base := some 140737488351232, mem := fun _ => 0 } [120] [[120]] []
      = { outcome := loader_end_t.returned 127, phdrs_read := false, mapped := [] } := by
  decide

theorem loader_after_header (env : loader_env_t) (eh : Elf64_Ehdr) (path : List Nat)
    (argv envp : List (List Nat)) (ho : env.open_ok = true) (hh : env.header = some eh)
    (ha : header_accepted eh = true) :
    (loader_run_elf env path argv envp).outcome = loader_end_t.died ∨
      (loader_run_elf env path argv envp).phdrs_read = true := by
  unfold loader_run_elf
  simp only [ho, hh, ha, not_true_eq_false, if_false]
  by_cases hm : env.malloc_ok = true
  · by_cases hl : env.lseek_ok = true
    · simp only [hm, hl, not_true_eq_false, if_false]
      cases env.phdrs with
      | none => exact Or.inr rfl
      | some phdrs =>
        simp only
        split_ifs
        all_goals first
          | exact Or.inr rfl
          | (split <;> exact Or.inr rfl)
    · simp only [hm, hl, not_true_eq_false, not_false_eq_true, if_true, if_false]
      exact Or.inl rfl
  · simp only [hm, not_false_eq_true, if_true]
    exact Or.inl rfl

/-- Claim C24, amended: for a file that can be opened and whose header can be
read, `loader_run_elf` returns 127 without reading program headers or
mapping anything exactly when the magic, the 64-bit class, the `ET_EXEC`
type, the `EM_X86_64` machine or `e_phentsize` is wrong or `e_phnum` is 0;
every header for which the five are right and `e_phnum` is not 0 passes the
header tests. -/
theorem header_validation (env : loader_env_t) (eh : Elf64_Ehdr) (path : List Nat)
    (argv envp : List (List Nat)) (ho : env.open_ok = true) (hh : env.header = some eh) :
    (loader_run_elf env path argv envp
        = { outcome := loader_end_t.returned 127, phdrs_read := false, mapped := [] } ↔
      (eh.e_ident.take 4 ≠ ELFMAG ∨ eh.e_ident.getD EI_CLASS 0 ≠ ELFCLASS64 ∨
        eh.e_type ≠ ET_EXEC ∨ eh.e_machine ≠ EM_X86_64 ∨ eh.e_phentsize ≠ SIZEOF_PHDR ∨
        eh.e_phnum = 0)) ∧
    (header_accepted eh = true ↔
      (eh.e_ident.take 4 = ELFMAG ∧ eh.e_ident.getD EI_CLASS 0 = ELFCLASS64 ∧
        eh.e_type = ET_EXEC ∧ eh.e_machine = EM_X86_64 ∧ eh.e_phentsize = SIZEOF_PHDR ∧
        eh.e_phnum ≠ 0)) := by
  have hacc : header_accepted eh = true ↔
      (eh.e_ident.take 4 = ELFMAG ∧ eh.e_ident.getD EI_CLASS 0 = ELFCLASS64 ∧
        eh.e_type = ET_EXEC ∧ eh.e_machine = EM_X86_64 ∧ eh.e_phentsize = SIZEOF_PHDR ∧
        eh.e_phnum ≠ 0) := by
    unfold header_accepted
    constructor
    · intro h
      split at h
      · exact absurd h (by decide)
      · rename_i h1
        split at h
        · exact absurd h (by decide)
        · rename_i h2
          simp only [not_or, not_not, Nat.le_zero] at h1 h2
          exact ⟨h1.1, h1.2.1, h1.2.2.1, h1.2.2.2, h2.1, h2.2⟩
    · rintro ⟨h1, h2, h3, h4, h5, h6⟩
      rw [if_neg (by
        rintro (h | h | h | h)
        · exact h h1
        · exact h h2
        · exact h h3
        · exact h h4), if_neg (by
        rintro (h | h)
        · exact h h5
        · exact h6 (Nat.le_zero.1 h))]
  refine ⟨?_, hacc⟩
  unfold loader_run_elf
  simp only [ho, hh, not_true_eq_false, if_false]
  by_cases ha : header_accepted eh = true
  · have hb := hacc.1 ha
    simp only [ha, not_true_eq_false, if_false]
    constructor
    · intro h
      exfalso
      rcases loader_after_header env eh path argv envp ho hh ha with hd | hr
      · unfold loader_run_elf at hd
        simp only [ho, hh, ha, not_true_eq_false, if_false] at hd
        rw [h] at hd
        exact absurd hd (by simp)
      · unfold loader_run_elf at hr
        simp only [ho, hh, ha, not_true_eq_false, if_false] at hr
        rw [h] at hr
        exact absurd hr (by simp)
    · intro h
      exfalso
      obtain ⟨h1, h2, h3, h4, h5, h6⟩ := hb
      rcases h with h | h | h | h | h | h
      · exact h h1
      · exact h h2
      · exact h h3
      · exact h h4
      · exact h h5
      · exact h6 h
  · have hb : ¬ (eh.e_ident.take 4 = ELFMAG ∧ eh.e_ident.getD EI_CLASS 0 = ELFCLASS64 ∧
        eh.e_type = ET_EXEC ∧ eh.e_machine = EM_X86_64 ∧ eh.e_phentsize = SIZEOF_PHDR ∧
        eh.e_phnum ≠ 0) := fun h => ha (hacc.2 h)
    have ha2 : header_accepted eh = false := by simpa using ha
    simp only [ha2, Bool.false_eq_true, not_false_eq_true, if_true, true_iff]
    by_contra hc
    simp only [not_or, not_not] at hc
    exact hb hc

/-- Witness for C24: a header with the class of a 32-bit file. -/
theorem header_validation_witness :
    loader_run_elf
        { open_ok := true,
          header := some { e_ident := [127, 69, 76, 70, 1, 1, 1, 0, 0, 0, 0, 0, 0, 0, 0, 0],
                           e_type := 2, e_machine := 62, e_entry := 4198400, e_phoff := 64,
                           e_phentsize := 56, e_phnum := 1 },
          malloc_ok := true, lseek_ok := true, phdrs := some [], mmap_ok := fun _ => true,
          stack_base := some 140737488351232, mem := fun _ => 0 } [120] [[120]] []
      = { outcome := loader_end_t.returned 127, phdrs_read := false, mapped := [] } :=
  (header_validation _ _ [120] [[120]] [] rfl rfl).1.2 (Or.inr (Or.inl (by decide)))

theorem has_interp_iff (phdrs : List Elf64_Phdr) :
    has_interp phdrs = true ↔ ∃ ph ∈ phdrs, ph.p_type = PT_INTERP := by
  induction phdrs with
  | nil => simp [has_interp]
  | cons ph rest ih =>
    unfold has_interp
    by_cases h : ph.p_type = PT_INTERP
    · simp [h]
    · simp [h, ih]

/-- Claim C25: for every header that passes the header tests and every
program-header table, read in full, that has an entry of type `PT_INTERP` at
any position, `loader_run_elf` returns 127 and has mapped no segment, also
when `PT_LOAD` entries come before the `PT_INTERP` entry. -/
theorem dynamic_executable_refused (env : loader_env_t) (eh : Elf64_Ehdr)
    (phdrs : List Elf64_Phdr) (path : List Nat) (argv envp : List (List Nat))
    (ho : env.open_ok = true) (hh : env.header = some eh) (ha : header_accepted eh = true)
    (hm : env.malloc_ok = true) (hl : env.lseek_ok = true) (hp : env.phdrs = some phdrs)
    (hi : ∃ ph ∈ phdrs, ph.p_type = PT_INTERP) :
    (loader_run_elf env path argv envp).outcome = loader_end_t.returned 127 ∧
      (loader_run_elf env path argv envp).mapped = [] := by
  have h2 := (has_interp_iff phdrs).2 hi
  unfold loader_run_elf
  simp [ho, hh, ha, hm, hl, hp, h2]

/-- Witness for C25: a `PT_LOAD` entry followed by a `PT_INTERP` entry. -/
theorem dynamic_executable_refused_witness :
    (loader_run_elf
        { open_ok := true,
          header := some { e_ident := [127, 69, 76, 70, 2, 1, 1, 0, 0, 0, 0, 0, 0, 0, 0, 0],
                           e_type := 2, e_machine := 62, e_entry := 4198400, e_phoff := 64,
                           e_phentsize := 56, e_phnum := 2 },
          malloc_ok := true, lseek_ok := true,
          phdrs := some [{ p_type := 1, p_flags := 5, p_offset := 0, p_vaddr := 4194304,
                           p_filesz := 4096, p_memsz := 4096 },
                         { p_type := 3, p_flags := 4, p_offset := 512, p_vaddr := 4194816,
                           p_filesz := 28, p_memsz := 28 }],
          mmap_ok := fun _ => true,
          stack_base := some 140737488351232, mem := fun _ => 0 } [120] [[120]] []).mapped
      = [] :=
  (dynamic_executable_refused _ _ _ [120] [[120]] [] rfl rfl (by decide) rfl rfl rfl
    ⟨_, List.mem_cons_of_mem _ (List.mem_cons_self _ _), rfl⟩).2

/-! ## loader.c: the stack pointer `build_initial_stack` leaves -/

theorem usub_mod16 (a b : Nat) : usub a b % 16 = (a % 16 + 16 - b % 16) % 16 := by
  unfold usub
  norm_num
  omega

theorem build_initial_stack_sp_mod (mem : Nat → Nat) (stack_top : Nat) (path : List Nat)
    (argv envp : List (List Nat)) :
    (build_initial_stack mem stack_top path argv envp).2 % 16 =
      if (argv.length + envp.length) % 2 = 1 then 0 else 8 := by
  unfold build_initial_stack
  simp only
  rw [usub_mod16, usub_mod16, usub_mod16, usub_mod16]
  have h : align16 (usub (align16 stack_top)
      (path.length + 1 + strings_len argv + strings_len envp)) % 16 = 0 := by
    unfold align16
    omega
  rw [h]
  split <;> omega

/-- Claim C26, the failing input: the stack top `0x7ffff7fff000`, the path
`/x`, `argv` = [`x`] and `envp` = [`A=b`] (one argument, one environment
string). The final stack pointer is `0x7ffff7ffefb8`, which is 8 modulo 16.
Below the 16-byte aligned string area the function pushes 7 words: the two
of the auxiliary terminator, `envc + 1`, `argc + 1` and `argc`. -/
theorem stack_pointer_misaligned :
    (build_initial_stack (fun _ => 0) 140737354133504 [47, 120] [[120]] [[65, 61, 98]]).2
        = 140737354133432 ∧
      140737354133432 % 16 = 8 := by
  decide

/-! ## loader.c: the layout `build_initial_stack` writes -/

theorem write_bytes_outside (bs : List Nat) :
    ∀ (mem : Nat → Nat) (p a : Nat), (a < p ∨ p + bs.length ≤ a) →
      write_bytes mem p bs a = mem a := by
  induction bs with
  | nil => intro mem p a _; rfl
  | cons b bs ih =>
    intro mem p a h
    simp only [write_bytes]
    rw [ih _ (p + 1) a (by simp only [List.length_cons] at h; omega)]
    have : a ≠ p := by simp only [List.length_cons] at h; omega
    simp [this]

theorem write_bytes_inside (bs : List Nat) :
    ∀ (mem : Nat → Nat) (p i : Nat) (h : i < bs.length),
      write_bytes mem p bs (p + i) = bs[i] := by
  induction bs with
  | nil => intro mem p i h; simp at h
  | cons b bs ih =>
    intro mem p i h
    simp only [write_bytes]
    cases i with
    | zero =>
      rw [write_bytes_outside bs _ (p + 1) (p + 0) (Or.inl (by omega))]
      simp
    | succ k =>
      have hk : k < bs.length := by simp only [List.length_cons] at h; omega
      have := ih (fun a => if a = p then b else mem a) (p + 1) k hk
      rw [show p + (k + 1) = p + 1 + k by omega, this]
      simp

theorem read_bytes_congr (m1 m2 : Nat → Nat) (n : Nat) :
    ∀ p, (∀ a, p ≤ a → a < p + n → m1 a = m2 a) → read_bytes m1 p n = read_bytes m2 p n := by
  induction n with
  | zero => intro p _; rfl
  | succ n ih =>
    intro p h
    simp only [read_bytes]
    rw [h p (le_refl _) (by omega), ih (p + 1) (fun a h1 h2 => h a (by omega) (by omega))]

theorem read_bytes_write_bytes (bs : List Nat) :
    ∀ (mem : Nat → Nat) (p : Nat), read_bytes (write_bytes mem p bs) p bs.length = bs := by
  induction bs with
  | nil => intro mem p; rfl
  | cons b bs ih =>
    intro mem p
    simp only [List.length_cons, read_bytes]
    have h0 := write_bytes_inside (b :: bs) mem p 0 (by simp)
    simp only [Nat.add_zero, List.getElem_cons_zero] at h0
    rw [h0]
    simp only [write_bytes]
    rw [ih]

theorem read_word_congr (m1 m2 : Nat → Nat) (p : Nat)
    (h : ∀ a, p ≤ a → a < p + 8 → m1 a = m2 a) : read_word m1 p = read_word m2 p := by
  unfold read_word
  rw [h p (by omega) (by omega), h (p + 1) (by omega) (by omega),
    h (p + 2) (by omega) (by omega), h (p + 3) (by omega) (by omega),
    h (p + 4) (by omega) (by omega), h (p + 5) (by omega) (by omega),
    h (p + 6) (by omega) (by omega), h (p + 7) (by omega) (by omega)]

theorem write_word_outside (mem : Nat → Nat) (p v a : Nat) (h : a < p ∨ p + 8 ≤ a) :
    write_word mem p v a = mem a :=
  write_bytes_outside (word_bytes v) mem p a (by simpa [word_bytes] using h)

theorem read_word_write_word (mem : Nat → Nat) (p v : Nat) (hv : v < 2 ^ 64) :
    read_word (write_word mem p v) p = v := by
  have h0 := write_bytes_inside (word_bytes v) mem p 0 (by simp [word_bytes])
  have h1 := write_bytes_inside (word_bytes v) mem p 1 (by simp [word_bytes])
  have h2 := write_bytes_inside (word_bytes v) mem p 2 (by simp [word_bytes])
  have h3 := write_bytes_inside (word_bytes v) mem p 3 (by simp [word_bytes])
  have h4 := write_bytes_inside (word_bytes v) mem p 4 (by simp [word_bytes])
  have h5 := write_bytes_inside (word_bytes v) mem p 5 (by simp [word_bytes])
  have h6 := write_bytes_inside (word_bytes v) mem p 6 (by simp [word_bytes])
  have h7 := write_bytes_inside (word_bytes v) mem p 7 (by simp [word_bytes])
  simp only [word_bytes, List.getElem_cons_zero, List.getElem_cons_succ, Nat.add_zero]
    at h0 h1 h2 h3 h4 h5 h6 h7
  unfold read_word write_word word_bytes
  rw [h0, h1, h2, h3, h4, h5, h6, h7]
  norm_num at hv
  omega

theorem write_words_outside (ws : List Nat) :
    ∀ (mem : Nat → Nat) (p a : Nat), (a < p ∨ p + 8 * ws.length ≤ a) →
      write_words mem p ws a = mem a := by
  induction ws with
  | nil => intro mem p a _; rfl
  | cons w ws ih =>
    intro mem p a h
    simp only [List.length_cons] at h
    simp only [write_words]
    rw [ih _ (p + 8) a (by omega), write_word_outside mem p w a (by omega)]

theorem read_words_congr (m1 m2 : Nat → Nat) (n : Nat) :
    ∀ p, (∀ a, p ≤ a → a < p + 8 * n → m1 a = m2 a) →
      read_words m1 p n = read_words m2 p n := by
  induction n with
  | zero => intro p _; rfl
  | succ n ih =>
    intro p h
    simp only [read_words]
    rw [read_word_congr m1 m2 p (fun a h1 h2 => h a h1 (by omega)),
      ih (p + 8) (fun a h1 h2 => h a (by omega) (by omega))]

theorem read_words_write_words (ws : List Nat) :
    ∀ (mem : Nat → Nat) (p : Nat), (∀ w ∈ ws, w < 2 ^ 64) →
      read_words (write_words mem p ws) p ws.length = ws := by
  induction ws with
  | nil => intro mem p _; rfl
  | cons w ws ih =>
    intro mem p h
    simp only [List.length_cons, read_words, write_words]
    rw [ih _ (p + 8) (fun x hx => h x (List.mem_cons_of_mem _ hx))]
    rw [read_word_congr _ (write_word mem p w) p
      (fun a h1 h2 => write_words_outside ws _ (p + 8) a (Or.inl (by omega)))]
    rw [read_word_write_word mem p w (h w (List.mem_cons_self _ _))]

theorem read_words_append (mem : Nat → Nat) (a : Nat) :
    ∀ (p b : Nat), read_words mem p (a + b) =
      read_words mem p a ++ read_words mem (p + 8 * a) b := by
  induction a with
  | zero => intro p b; simp [read_words]
  | succ a ih =>
    intro p b
    rw [show a + 1 + b = (a + b) + 1 by omega]
    simp only [read_words, List.cons_append]
    rw [ih (p + 8) b, show p + 8 + 8 * a = p + 8 * (a + 1) by omega]

theorem usub_eq (a b : Nat) (hb : b ≤ a) (ha : a < 2 ^ 64) : usub a b = a - b := by
  unfold usub
  norm_num at ha ⊢
  have h1 : b % 18446744073709551616 = b := Nat.mod_eq_of_lt (by omega)
  rw [h1]
  omega

theorem copy_strings_end (strs : List (List Nat)) :
    ∀ (mem : Nat → Nat) (p : Nat), (copy_strings mem p strs).2.2 = p + strings_len strs := by
  induction strs with
  | nil => intro mem p; rfl
  | cons s rest ih =>
    intro mem p
    simp only [copy_strings, strings_len, ih]
    omega

theorem copy_strings_outside (strs : List (List Nat)) :
    ∀ (mem : Nat → Nat) (p a : Nat), (a < p ∨ p + strings_len strs ≤ a) →
      (copy_strings mem p strs).1 a = mem a := by
  induction strs with
  | nil => intro mem p a _; rfl
  | cons s rest ih =>
    intro mem p a h
    simp only [strings_len] at h
    simp only [copy_strings]
    rw [ih _ _ a (by omega), write_bytes_outside _ mem p a (by simp; omega)]

theorem copy_strings_ptrs (strs : List (List Nat)) :
    ∀ (mem : Nat → Nat) (p : Nat),
      List.Forall₂
        (fun q s => read_bytes (copy_strings mem p strs).1 q (s.length + 1) = s ++ [0] ∧
          p ≤ q ∧ q + (s.length + 1) ≤ p + strings_len strs)
        (copy_strings mem p strs).2.1 strs := by
  induction strs with
  | nil => intro mem p; exact List.Forall₂.nil
  | cons s rest ih =>
    intro mem p
    simp only [copy_strings, strings_len]
    refine List.Forall₂.cons ⟨?_, le_refl _, by omega⟩ ?_
    · rw [read_bytes_congr _ (write_bytes mem p (s ++ [0])) (s.length + 1) p
        (fun a h1 h2 => copy_strings_outside rest _ _ a (Or.inl h2))]
      have := read_bytes_write_bytes (s ++ [0]) mem p
      simpa using this
    · exact List.Forall₂.imp (fun q t h => ⟨h.1, by omega, by omega⟩)
        (ih (write_bytes mem p (s ++ [0])) (p + (s.length + 1)))

theorem stack_words (m1 : Nat → Nat) (xa ea va sa argc : Nat) (aptrs eptrs : List Nat)
    (he : ea + 8 * (eptrs.length + 1) = xa) (hv : va + 8 * (aptrs.length + 1) = ea)
    (hs : sa + 8 = va) (hargc : argc < 2 ^ 64)
    (ha : ∀ w ∈ aptrs, w < 2 ^ 64) (hep : ∀ w ∈ eptrs, w < 2 ^ 64) :
    read_words
        (write_word (write_words (write_words (write_word (write_word m1 xa 0) (xa + 8) 0)
          ea (eptrs ++ [0])) va (aptrs ++ [0])) sa argc)
        sa (aptrs.length + eptrs.length + 5)
      = [argc] ++ aptrs ++ [0] ++ eptrs ++ [0] ++ [0, 0] ∧
    ∀ a, xa + 16 ≤ a →
      write_word (write_words (write_words (write_word (write_word m1 xa 0) (xa + 8) 0)
          ea (eptrs ++ [0])) va (aptrs ++ [0])) sa argc a = m1 a := by
  have hz : (0 : Nat) < 2 ^ 64 := by norm_num
  have ha0 : ∀ w ∈ aptrs ++ [0], w < 2 ^ 64 := by
    intro w hw
    rcases List.mem_append.1 hw with h | h
    · exact ha w h
    · simp only [List.mem_singleton] at h; rw [h]; exact hz
  have he0 : ∀ w ∈ eptrs ++ [0], w < 2 ^ 64 := by
    intro w hw
    rcases List.mem_append.1 hw with h | h
    · exact hep w h
    · simp only [List.mem_singleton] at h; rw [h]; exact hz
  have hla : (aptrs ++ [0]).length = aptrs.length + 1 := by simp
  have hle : (eptrs ++ [0]).length = eptrs.length + 1 := by simp
  constructor
  · rw [show aptrs.length + eptrs.length + 5
        = 1 + ((aptrs.length + 1) + ((eptrs.length + 1) + 2)) by omega]
    rw [read_words_append _ 1 sa, read_words_append _ (aptrs.length + 1) (sa + 8 * 1),
      read_words_append _ (eptrs.length + 1) (sa + 8 * 1 + 8 * (aptrs.length + 1))]
    have p1 : read_words
        (write_word (write_words (write_words (write_word (write_word m1 xa 0) (xa + 8) 0)
          ea (eptrs ++ [0])) va (aptrs ++ [0])) sa argc) sa 1 = [argc] := by
      simp only [read_words]
      rw [read_word_write_word _ sa argc hargc]
    have p2 : read_words
        (write_word (write_words (write_words (write_word (write_word m1 xa 0) (xa + 8) 0)
          ea (eptrs ++ [0])) va (aptrs ++ [0])) sa argc) (sa + 8 * 1) (aptrs.length + 1)
        = aptrs ++ [0] := by
      rw [read_words_congr _ (write_words (write_words (write_word (write_word m1 xa 0)
          (xa + 8) 0) ea (eptrs ++ [0])) va (aptrs ++ [0])) (aptrs.length + 1) (sa + 8 * 1)
        (fun a h1 h2 => write_word_outside _ sa argc a (Or.inr (by omega)))]
      rw [show sa + 8 * 1 = va by omega, ← hla]
      exact read_words_write_words _ _ va ha0
    have p3 : read_words
        (write_word (write_words (write_words (write_word (write_word m1 xa 0) (xa + 8) 0)
          ea (eptrs ++ [0])) va (aptrs ++ [0])) sa argc)
        (sa + 8 * 1 + 8 * (aptrs.length + 1)) (eptrs.length + 1) = eptrs ++ [0] := by
      rw [read_words_congr _ (write_words (write_word (write_word m1 xa 0) (xa + 8) 0)
          ea (eptrs ++ [0])) (eptrs.length + 1) (sa + 8 * 1 + 8 * (aptrs.length + 1))
        (fun a h1 h2 => by
          rw [write_word_outside _ sa argc a (Or.inr (by omega)),
            write_words_outside _ _ va a (Or.inr (by rw [hla]; omega))])]
      rw [show sa + 8 * 1 + 8 * (aptrs.length + 1) = ea by omega, ← hle]
      exact read_words_write_words _ _ ea he0
    have p4 : read_words
        (write_word (write_words (write_words (write_word (write_word m1 xa 0) (xa + 8) 0)
          ea (eptrs ++ [0])) va (aptrs ++ [0])) sa argc)
        (sa + 8 * 1 + 8 * (aptrs.length + 1) + 8 * (eptrs.length + 1)) 2 = [0, 0] := by
      rw [read_words_congr _ (write_words m1 xa [0, 0]) 2
        (sa + 8 * 1 + 8 * (aptrs.length + 1) + 8 * (eptrs.length + 1))
        (fun a h1 h2 => by
          rw [write_word_outside _ sa argc a (Or.inr (by omega)),
            write_words_outside _ _ va a (Or.inr (by rw [hla]; omega)),
            write_words_outside _ _ ea a (Or.inr (by rw [hle]; omega))]
          rfl)]
      rw [show sa + 8 * 1 + 8 * (aptrs.length + 1) + 8 * (eptrs.length + 1) = xa by omega]
      exact read_words_write_words [0, 0] m1 xa (by
        intro w hw
        simp only [List.mem_cons, List.mem_singleton, List.not_mem_nil, or_false, or_self] at hw
        rw [hw]; exact hz)
    rw [p1, p2, p3, p4]
    simp
  · intro a h
    rw [write_word_outside _ sa argc a (Or.inr (by omega)),
      write_words_outside _ _ va a (Or.inr (by rw [hla]; omega)),
      write_words_outside _ _ ea a (Or.inr (by rw [hle]; omega)),
      write_word_outside _ (xa + 8) 0 a (Or.inr (by omega)),
      write_word_outside _ xa 0 a (Or.inr (by omega))]

theorem forall2_left {R : Nat → List Nat → Prop} {P : Nat → Prop} {l1 : List Nat}
    {l2 : List (List Nat)} (h : List.Forall₂ R l1 l2) (hP : ∀ a b, R a b → P a) :
    ∀ a ∈ l1, P a := by
  induction h with
  | nil => intro a ha; simp at ha
  | cons hab _ ih =>
    intro a ha
    rcases List.mem_cons.1 ha with rfl | ha2
    · exact hP _ _ hab
    · exact ih a ha2

/-- Claim C27: when the strings and the arrays fit below the stack top, the
words read upward from the final stack pointer `S` are `argc`, the `argc`
argument pointers, a null word, the `envc` environment pointers, a null
word, and the two null words of the auxiliary terminator; the i-th argument
pointer addresses a copy of `argv[i]` with its NUL and the j-th environment
pointer a copy of `envp[j]`, in forward order; and every such copy lies
between the end of the arrays and the stack top, so the strings do not
overlap the arrays. -/
theorem initial_stack_layout (mem : Nat → Nat) (stack_top : Nat) (path : List Nat)
    (argv envp : List (List Nat)) (htop : stack_top < 2 ^ 64)
    (hroom : path.length + 1 + strings_len argv + strings_len envp +
      8 * (argv.length + envp.length + 5) + 30 ≤ stack_top) :
    ∃ argv_ptrs envp_ptrs : List Nat,
      read_words (build_initial_stack mem stack_top path argv envp).1
          (build_initial_stack mem stack_top path argv envp).2
          (argv.length + envp.length + 5)
        = [argv.length] ++ argv_ptrs ++ [0] ++ envp_ptrs ++ [0] ++ [0, 0] ∧
      List.Forall₂
        (string_at (build_initial_stack mem stack_top path argv envp).1
          ((build_initial_stack mem stack_top path argv envp).2 +
            8 * (argv.length + envp.length + 5)) stack_top)
        argv_ptrs argv ∧
      List.Forall₂
        (string_at (build_initial_stack mem stack_top path argv envp).1
          ((build_initial_stack mem stack_top path argv envp).2 +
            8 * (argv.length + envp.length + 5)) stack_top)
        envp_ptrs envp := by
  have h64 : (2 : Nat) ^ 64 = 18446744073709551616 := by norm_num
  rw [h64] at htop
  have hT1 : align16 stack_top ≤ stack_top := by unfold align16; omega
  have hT2 : stack_top < align16 stack_top + 16 := by unfold align16; omega
  have hB : usub (align16 stack_top)
      (path.length + 1 + strings_len argv + strings_len envp)
      = align16 stack_top - (path.length + 1 + strings_len argv + strings_len envp) :=
    usub_eq _ _ (by omega) (by rw [h64]; omega)
  unfold build_initial_stack
  simp only
  rw [hB]
  generalize hBdef :
    align16 stack_top - (path.length + 1 + strings_len argv + strings_len envp) = B
  have hA1 : align16 B ≤ B := by unfold align16; omega
  have hA2 : B < align16 B + 16 := by unfold align16; omega
  rw [usub_eq (align16 B) (8 * 2) (by omega) (by rw [h64]; omega)]
  rw [usub_eq (align16 B - 8 * 2) (8 * (envp.length + 1)) (by omega) (by rw [h64]; omega)]
  rw [usub_eq (align16 B - 8 * 2 - 8 * (envp.length + 1)) (8 * (argv.length + 1)) (by omega)
    (by rw [h64]; omega)]
  rw [usub_eq (align16 B - 8 * 2 - 8 * (envp.length + 1) - 8 * (argv.length + 1)) 8 (by omega)
    (by rw [h64]; omega)]
  generalize hm0 : write_bytes mem B (path ++ [0]) = m0
  have hpa := copy_strings_ptrs argv m0 (B + (path.length + 1))
  have hea := copy_strings_end argv m0 (B + (path.length + 1))
  generalize hca : copy_strings m0 (B + (path.length + 1)) argv = ca at hpa hea ⊢
  have hpe := copy_strings_ptrs envp ca.1 ca.2.2
  have hoe := copy_strings_outside envp ca.1 ca.2.2
  generalize hce : copy_strings ca.1 ca.2.2 envp = ce at hpe hoe ⊢
  have hal : ca.2.1.length = argv.length := hpa.length_eq
  have hel : ce.2.1.length = envp.length := hpe.length_eq
  have hbound_a : ∀ w ∈ ca.2.1, w < 2 ^ 64 :=
    forall2_left hpa (fun q t h => by rw [h64]; omega)
  have hbound_e : ∀ w ∈ ce.2.1, w < 2 ^ 64 :=
    forall2_left hpe (fun q t h => by rw [h64, hea] at *; omega)
  obtain ⟨hw, hframe⟩ := stack_words ce.1 (align16 B - 8 * 2)
    (align16 B - 8 * 2 - 8 * (envp.length + 1))
    (align16 B - 8 * 2 - 8 * (envp.length + 1) - 8 * (argv.length + 1))
    (align16 B - 8 * 2 - 8 * (envp.length + 1) - 8 * (argv.length + 1) - 8)
    argv.length ca.2.1 ce.2.1 (by rw [hel]; omega) (by rw [hal]; omega) (by omega)
    (by rw [h64]; omega) hbound_a hbound_e
  refine ⟨ca.2.1, ce.2.1, ?_, ?_, ?_⟩
  · rw [hal, hel] at hw
    exact hw
  · refine List.Forall₂.imp (fun q t h => ?_) hpa
    refine ⟨?_, by omega, by omega⟩
    rw [read_bytes_congr _ ce.1 (t.length + 1) q (fun a h1 h2 => hframe a (by omega)),
      read_bytes_congr ce.1 ca.1 (t.length + 1) q
        (fun a h1 h2 => hoe a (Or.inl (by rw [hea]; omega)))]
    exact h.1
  · refine List.Forall₂.imp (fun q t h => ?_) hpe
    refine ⟨?_, by rw [hea] at h; omega, by rw [hea] at h; omega⟩
    rw [read_bytes_congr _ ce.1 (t.length + 1) q
      (fun a h1 h2 => hframe a (by rw [hea] at h; omega))]
    exact h.1

/-- Witness for C27: the stack top `0x7ffff7fff000`, the path `/x`, `argv` =
[`x`] and `envp` = [`A=b`]. -/
theorem initial_stack_layout_witness :
    ∃ argv_ptrs envp_ptrs : List Nat,
      read_words
          (build_initial_stack (fun _ => 0) 140737354133504 [47, 120] [[120]]
            [[65, 61, 98]]).1
          (build_initial_stack (fun _ => 0) 140737354133504 [47, 120] [[120]]
            [[65, 61, 98]]).2 (1 + 1 + 5)
        = [1] ++ argv_ptrs ++ [0] ++ envp_ptrs ++ [0] ++ [0, 0] ∧
      List.Forall₂
        (string_at
          (build_initial_stack (fun _ => 0) 140737354133504 [47, 120] [[120]]
            [[65, 61, 98]]).1
          ((build_initial_stack (fun _ => 0) 140737354133504 [47, 120] [[120]]
            [[65, 61, 98]]).2 + 8 * (1 + 1 + 5)) 140737354133504)
        argv_ptrs [[120]] ∧
      List.Forall₂
        (string_at
          (build_initial_stack (fun _ => 0) 140737354133504 [47, 120] [[120]]
            [[65, 61, 98]]).1
          ((build_initial_stack (fun _ => 0) 140737354133504 [47, 120] [[120]]
            [[65, 61, 98]]).2 + 8 * (1 + 1 + 5)) 140737354133504)
        envp_ptrs [[65, 61, 98]] :=
  initial_stack_layout (fun _ => 0) 140737354133504 [47, 120] [[120]] [[65, 61, 98]]
    (by decide) (by decide)

/-! ## input.c: the flag `raw_mode` when `read_line_with_history` returns -/

theorem disable_raw_mode_off (st : editor_t) : (disable_raw_mode st).raw_mode = false := by
  unfold disable_raw_mode
  split
  · rfl
  · rename_i h
    simpa using h

theorem key_return_ret (env : editor_env_t) (st : editor_t) (eof : Bool) :
    ∃ v st1, key_return env st eof = editor_step_t.ret v st1 ∧ st1.raw_mode = false := by
  unfold key_return
  simp only
  split_ifs <;> exact ⟨_, _, rfl, disable_raw_mode_off _⟩

theorem load_history_ok (env : editor_env_t) (st : editor_t) (entry : List Char)
    (keys0 keys : List Nat) (h : keys.length ≤ keys0.length) :
    step_ok keys0 (load_history env st entry keys) := by
  unfold load_history
  split_ifs
  · exact h
  · exact disable_raw_mode_off st
  · exact h

theorem key_escape_ok (env : editor_env_t) (st : editor_t) (keys : List Nat) :
    step_ok keys (key_escape env st keys) := by
  unfold key_escape
  cases keys with
  | nil => exact le_refl _
  | cons c2 keys2 =>
    simp only
    by_cases hc2 : c2 = 91
    · simp only [hc2, if_true]
      cases keys2 with
      | nil => exact Nat.zero_le _
      | cons c3 keys3 =>
        have hlen : keys3.length ≤ (91 :: c3 :: keys3).length := by
          simp only [List.length_cons]; omega
        simp only
        by_cases h65 : c3 = 65
        · simp only [h65, if_true]
          split
          · exact load_history_ok env _ _ _ _ hlen
          · exact hlen
        · simp only [h65, if_false]
          by_cases h66 : c3 = 66
          · simp only [h66, if_true]
            split
            · exact load_history_ok env _ _ _ _ hlen
            · exact hlen
          · simp only [h66, if_false]
            split_ifs <;> exact hlen
    · simp only [hc2, if_false, step_ok, List.length_cons]
      omega

theorem key_tab_ok (env : editor_env_t) (st : editor_t) (keys : List Nat) :
    step_ok keys (key_tab env st keys) := by
  unfold key_tab
  simp only
  split
  · exact disable_raw_mode_off st
  · split
    · split_ifs <;> exact le_refl _
    · exact le_refl _

theorem key_backspace_ok (st : editor_t) (keys : List Nat) :
    step_ok keys (key_backspace st keys) := by
  unfold key_backspace
  simp only
  split_ifs <;> exact le_refl _

theorem key_insert_ok (env : editor_env_t) (st : editor_t) (c : Nat) (keys : List Nat) :
    step_ok keys (key_insert env st c keys) := by
  unfold key_insert
  simp only
  split
  · exact disable_raw_mode_off _
  · exact le_refl _

theorem editor_step_ok (env : editor_env_t) (st : editor_t) (c : Nat) (rest : List Nat) :
    step_ok rest (editor_step env st (c :: rest)) := by
  unfold editor_step
  simp only
  split_ifs
  · obtain ⟨v, st1, h, hr⟩ := key_return_ret env st false
    rw [h]; exact hr
  · exact key_escape_ok env st rest
  · exact key_tab_ok env st rest
  · exact key_backspace_ok st rest
  · exact le_refl _
  · exact key_insert_ok env st c rest

theorem editor_loop_returns (env : editor_env_t) (budget : Nat) :
    ∀ (st : editor_t) (keys : List Nat), keys.length < budget →
      ∃ r, editor_loop env budget st keys = some r ∧ r.2.raw_mode = false := by
  induction budget with
  | zero => intro st keys h; omega
  | succ budget ih =>
    intro st keys h
    cases keys with
    | nil =>
      obtain ⟨v, st1, h1, hr⟩ := key_return_ret env st true
      refine ⟨(v, st1), ?_, hr⟩
      simp only [editor_loop, editor_step, h1]
    | cons c rest =>
      have hok := editor_step_ok env st c rest
      simp only [editor_loop]
      cases hs : editor_step env st (c :: rest) with
      | ret v st1 =>
        rw [hs] at hok
        exact ⟨(v, st1), rfl, hok⟩
      | next st1 keys1 =>
        rw [hs] at hok
        simp only
        exact ih st1 keys1 (by
          have : keys1.length ≤ rest.length := hok
          simp only [List.length_cons] at h
          omega)

/-- Claim C21: `read_line_with_history` returns, and on every return path the
flag `raw_mode` is false: on a terminal whatever the flag was on entry
(accepted line, end of input with an empty or a non-empty buffer, failed
`realloc` in any branch), and on a non-terminal, where the flag is not
touched, because it is false on entry (its initial value, and its value
after every earlier return). -/
theorem raw_mode_scoped (env : editor_env_t) (isatty : Bool) (getline : Int × List Char)
    (cap : Nat) (raw_mode : Bool) (hist : history_t) (keys : List Nat) :
    ∃ r, read_line_with_history env isatty getline cap raw_mode hist keys = some r ∧
      (isatty = true ∨ raw_mode = false → r.2.raw_mode = false) := by
  unfold read_line_with_history
  cases isatty with
  | false =>
    refine ⟨_, rfl, ?_⟩
    intro h
    rcases h with h | h
    · exact absurd h (by decide)
    · exact h
  | true =>
    obtain ⟨r, hr, hraw⟩ := editor_loop_returns env (keys.length + 1)
      { enable_raw_mode env { line := [], cap := cap, cursor := 0, completion_list_pos := -1,
                              raw_mode := raw_mode, hist := hist } with
        hist := history_reset_browse (enable_raw_mode env
          { line := [], cap := cap, cursor := 0, completion_list_pos := -1,
            raw_mode := raw_mode, hist := hist }).hist }
      keys (Nat.lt_succ_self _)
    exact ⟨r, by simpa using hr, fun _ => hraw⟩

/-! ## input.c: the terminal mode after a tab key -/

/-- Claim C22, the failing inputs: on an empty buffer in raw mode, with the
completion index idle, the keys `z`, tab (no candidate), the keys `p`, `w`,
tab (one candidate, `pwd`, which is inserted) and the keys `e`, tab (three
candidates, which are listed) each leave the flag `raw_mode` false when the
editor goes on to read the next key; in the first two cases no list has been
printed. -/
theorem tab_leaves_cooked_mode :
    (editor_run no_files_env 2 editor_start [122, 9]).map
        (fun st => (st.line, st.raw_mode)) = some (['z'], false) ∧
      (complete_input no_files_env.comp ['z'] 1 (-1)).shown = none ∧
      (editor_run no_files_env 3 editor_start [112, 119, 9]).map
        (fun st => (st.line, st.raw_mode)) = some (['p', 'w', 'd'], false) ∧
      (complete_input no_files_env.comp ['p', 'w'] 2 (-1)).shown = none ∧
      (editor_run no_files_env 2 editor_start [101, 9]).map
        (fun st => (st.line, st.raw_mode)) = some (['e'], false) ∧
      editor_start.raw_mode = true := by
  decide

/-! ## completion.c: `is_filename_context` against its reference -/

theorem take_split_word (l : List Char) (cursor : Nat) :
    l.take cursor = before_word l cursor ++ current_word l cursor := by
  unfold before_word current_word
  rw [← List.reverse_append, List.takeWhile_append_dropWhile, List.reverse_reverse]

theorem word_start_eq (l : List Char) :
    ∀ k, k ≤ l.length → word_start l k = (before_word l k).length := by
  intro k
  induction k with
  | zero => intro _; simp [word_start, before_word]
  | succ k ih =>
    intro hk
    have hlt : k < l.length := hk
    have hget : l[k]? = some (line_at l k) := by
      unfold line_at
      rw [List.getD_eq_getElem?_getD, List.getElem?_eq_getElem hlt]
      rfl
    have ht : l.take (k + 1) = l.take k ++ [line_at l k] := by
      rw [List.take_succ, hget]
      rfl
    unfold word_start before_word
    rw [ht, List.reverse_append, List.reverse_singleton, List.singleton_append,
      List.dropWhile_cons]
    by_cases hb : is_word_break (line_at l k) = true
    · simp only [hb, Bool.not_true, Bool.false_eq_true, if_false, if_true, List.length_reverse,
        List.length_cons, List.length_take]
      omega
    · have hb2 : is_word_break (line_at l k) = false := by simpa using hb
      simp only [hb2, Bool.not_false, if_true, Bool.false_eq_true, if_false]
      exact ih (by omega)

theorem drop_before_word (l : List Char) (cursor : Nat) :
    (l.take cursor).drop (before_word l cursor).length = current_word l cursor := by
  rw [take_split_word l cursor, List.drop_left]

theorem getD_last_of_append (pre tail : List Char) (d x : Char) (hpos : pre.length > 0) :
    (pre ++ tail).getD (pre.length - 1) d = x ↔ pre.getLast? = some x := by
  have hlt : pre.length - 1 < pre.length := by omega
  rw [List.getD_eq_getElem?_getD, List.getElem?_append_left hlt, List.getLast?_eq_getElem?,
    List.getElem?_eq_getElem hlt]
  simp

theorem line_at_before (l : List Char) (cursor : Nat)
    (hpos : (before_word l cursor).length > 0) (x : Char) :
    line_at l ((before_word l cursor).length - 1) = x ↔
      (before_word l cursor).getLast? = some x := by
  have hsplit : before_word l cursor ++ (current_word l cursor ++ l.drop cursor) = l := by
    rw [← List.append_assoc, ← take_split_word, List.take_append_drop]
  have h := getD_last_of_append (before_word l cursor)
    (current_word l cursor ++ l.drop cursor) (Char.ofNat 0) x hpos
  rw [hsplit] at h
  exact h

theorem first_word_end_eq (l : List Char) (hn : Char.ofNat 0 ∉ l) :
    ∀ cursor, first_word_end l cursor =
      ((l.take cursor).takeWhile (fun c => !(c == ' ' || c == '\t'))).length := by
  induction l with
  | nil => intro cursor; simp [first_word_end]
  | cons c s ih =>
    intro cursor
    cases cursor with
    | zero => simp [first_word_end]
    | succ k =>
      have hc : c ≠ Char.ofNat 0 := fun e => hn (e ▸ List.mem_cons_self _ _)
      have hs : Char.ofNat 0 ∉ s := fun h => hn (List.mem_cons_of_mem _ h)
      simp only [first_word_end, List.take_succ_cons, List.takeWhile_cons]
      by_cases hb : c = ' ' ∨ c = '\t'
      · have : (c = ' ' ∨ c = '\t' ∨ c = Char.ofNat 0) := by
          rcases hb with h | h
          · exact Or.inl h
          · exact Or.inr (Or.inl h)
        rw [if_pos this]
        have hb2 : (!(c == ' ' || c == '\t')) = false := by
          rcases hb with h | h <;> simp [h]
        simp [hb2]
      · have : ¬ (c = ' ' ∨ c = '\t' ∨ c = Char.ofNat 0) := by
          rintro (h | h | h)
          · exact hb (Or.inl h)
          · exact hb (Or.inr h)
          · exact hc h
        rw [if_neg this, ih hs k]
        have hb2 : (!(c == ' ' || c == '\t')) = true := by
          simp only [not_or] at hb
          simp [hb.1, hb.2]
        simp [hb2]

theorem takeWhile_lt_iff (p : Char → Bool) (pre rest : List Char) :
    ((pre ++ rest).takeWhile p).length < pre.length ↔ ∃ c ∈ pre, p c = false := by
  induction pre with
  | nil => simp
  | cons c s ih =>
    simp only [List.cons_append, List.takeWhile_cons, List.length_cons]
    cases hp : p c with
    | true =>
      simp only [if_true, List.length_cons, Nat.add_lt_add_iff_right, ih, List.mem_cons,
        exists_eq_or_imp, hp, Bool.true_eq_false, false_or]
    | false =>
      simp [hp]

/-- Claim C23: for every line without NUL and every cursor offset within it,
`is_filename_context` is true exactly when the current word contains `/`, or
the character immediately before the word is `<` or `>`, or the word starts
after the first space or tab of the line. -/
theorem filename_context_classification (l : List Char) (cursor : Nat)
    (hc : cursor ≤ l.length) (hn : Char.ofNat 0 ∉ l) :
    is_filename_context l cursor = true ↔ filename_context_spec l cursor := by
  have hws := word_start_eq l cursor hc
  have h1 : ((l.take cursor).drop (word_start l cursor)).contains '/' = true ↔
      '/' ∈ current_word l cursor := by
    rw [hws, drop_before_word]
    simp
  have h2 : (word_start l cursor > 0 ∧
        (line_at l (word_start l cursor - 1) = '<' ∨
          line_at l (word_start l cursor - 1) = '>')) ↔
      ((before_word l cursor).getLast? = some '<' ∨
        (before_word l cursor).getLast? = some '>') := by
    rw [hws]
    by_cases hpos : (before_word l cursor).length > 0
    · rw [line_at_before l cursor hpos, line_at_before l cursor hpos]
      simp [hpos]
    · have hnil : before_word l cursor = [] := List.length_eq_zero.1 (by omega)
      simp [hnil]
  have h3 : word_start l cursor > first_word_end l cursor ↔
      ∃ c ∈ before_word l cursor, c = ' ' ∨ c = '\t' := by
    rw [hws, first_word_end_eq l hn cursor, take_split_word l cursor, gt_iff_lt,
      takeWhile_lt_iff]
    constructor
    · rintro ⟨c, hm, hp⟩
      refine ⟨c, hm, ?_⟩
      simp only [Bool.not_eq_false', Bool.or_eq_true, beq_iff_eq] at hp
      exact hp
    · rintro ⟨c, hm, hp⟩
      refine ⟨c, hm, ?_⟩
      simp only [Bool.not_eq_false', Bool.or_eq_true, beq_iff_eq]
      exact hp
  have key : ∀ (c1 c2 c3 : Prop) [Decidable c1] [Decidable c2] [Decidable c3],
      ((if c1 then true else if c2 then true else if c3 then true else false) = true ↔
        c1 ∨ c2 ∨ c3) := by
    intro c1 c2 c3 _ _ _
    split_ifs <;> simp [*]
  unfold is_filename_context filename_context_spec
  simp only
  rw [key, h1, h2, h3]

/-- Witness for C23: the line `cat fi` with the cursor at its end, a
filename context. -/
theorem filename_context_classification_witness :
    filename_context_spec "cat fi".toList 6 :=
  (filename_context_classification "cat fi".toList 6 (by decide) (by decide)).1 (by decide)

end Shell
